import Mathlib

/-!
Verification of the JustPlug plugin manager (`src/pluginmanager.cpp`).

The development shallowly embeds the plugin-manager core: the registry of
plugin records, the recursive dependency checker, the load pass
(dependency re-check, dependency graph construction, topological sort,
instantiation), the unload pass, the discovery pass and the metadata
parser.  External collaborators that are not part of `src/` (the version
comparator, the shared-library loader, the JSON parser and the private
`graph.h` topological sort) are modelled from the specification, as noted
on the corresponding definitions.

Machine state that C++ mutates in place (the `pluginsMap`, each record's
`dependenciesExists` flag and `graphId`, the load-order list, the
locations list) is threaded explicitly.  Callback invocations and plugin
lifecycle notifications are recorded as an explicit event trace.
Unbounded recursion in the source (`checkDependencies`) is modelled with
fuel: a `none` result means the C++ code does not terminate (or hits
undefined behaviour, where noted).
-/

set_option autoImplicit false

namespace JustPlug

/-- Return codes of the plugin manager (`ReturnCode::Type`, used throughout
`src/pluginmanager.cpp`). -/
inductive RetCode where
  | SUCCESS
  | UNKNOWN_ERROR
  | SEARCH_NOTHING_FOUND
  | SEARCH_CANNOT_PARSE_METADATA
  | SEARCH_NAME_ALREADY_EXISTS
  | SEARCH_LISTFILES_ERROR
  | LOAD_DEPENDENCY_BAD_VERSION
  | LOAD_DEPENDENCY_NOT_FOUND
  | LOAD_DEPENDENCY_CYCLE
  | UNLOAD_NOT_ALL
  deriving DecidableEq, Repr

/-- Truthiness of a return code (`ReturnCode::operator bool`): a code is
truthy exactly when it is `SUCCESS`; the source tests `if(!retCode)`. -/
def RetCode.ok : RetCode → Bool
  | RetCode.SUCCESS => true
  | _ => false

/-- Tri-state memo flag (`jp_private::TriBool`, `private/tribool.h`, used as
the `dependenciesExists` field).  Modelled from the spec: the header is not
under `src/`; the spec describes the memo as `{unknown, yes, no}`. -/
inductive TriBool where
  | Indeterminate
  | TTrue
  | TFalse
  deriving DecidableEq, Repr, Inhabited

/-- One declared dependency of a plugin (`PluginInfoStd::Dependency`):
a name and a required version. -/
structure Dependency where
  name : String
  version : String
  deriving DecidableEq, Repr, Inhabited

/-- Validated metadata record (`PluginInfoStd`, `src/pluginmanager.cpp`
lines 121-182). -/
structure PluginInfoStd where
  name : String
  prettyName : String
  version : String
  author : String
  url : String
  license : String
  copyright : String
  dependencies : List Dependency
  deriving DecidableEq, Repr, Inhabited

/-- Rejected metadata sentinel: a default-constructed `PluginInfoStd`
(empty name). -/
def emptyInfo : PluginInfoStd := ⟨"", "", "", "", "", "", "", []⟩

/-- One plugin record (`struct Plugin`, `src/pluginmanager.cpp` lines
184-221).  `libLoaded` is the `SharedLibrary` state; `libUnloadable` models
whether the external collaborator's `unload()` succeeds (the loader is not
under `src/`); `hasInstance` is whether `iplugin` is non-null. -/
structure Plugin where
  libLoaded : Bool
  libUnloadable : Bool
  hasInstance : Bool
  path : String
  info : PluginInfoStd
  dependenciesExists : TriBool
  graphId : Int
  deriving DecidableEq, Repr, Inhabited

/-- The registry (`std::unordered_map<std::string, PluginPtr> pluginsMap`)
as an association list whose list order models the map's fixed iteration
order.  The container invariant of `unordered_map` is that keys are
unique. -/
abbrev Reg := List (String × Plugin)

/-- Lookup by key (`pluginsMap.find` / `pluginsMap[name]` on a present
key). -/
def lookupKey : Reg → String → Option Plugin
  | [], _ => none
  | e :: rest, k => if e.1 = k then some e.2 else lookupKey rest k

/-- Key count (`pluginsMap.count(name)`); in {0,1} when keys are unique. -/
def countKey : Reg → String → Nat
  | [], _ => 0
  | e :: rest, k => (if e.1 = k then 1 else 0) + countKey rest k

/-- Write a record's `dependenciesExists` flag through its shared pointer. -/
def setFlag (m : Reg) (k : String) (f : TriBool) : Reg :=
  m.map (fun e => if e.1 = k then (e.1, { e.2 with dependenciesExists := f }) else e)

/-- Write a record's `graphId` through its shared pointer. -/
def setGraphId (m : Reg) (k : String) (g : Int) : Reg :=
  m.map (fun e => if e.1 = k then (e.1, { e.2 with graphId := g }) else e)

/-- Write a record's `iplugin` presence (instantiation by the factory, or
`iplugin.reset()`). -/
def setInstance (m : Reg) (k : String) (b : Bool) : Reg :=
  m.map (fun e => if e.1 = k then (e.1, { e.2 with hasInstance := b }) else e)

/-- Map store `pluginsMap[name] = plugin`: overwrites a present key,
otherwise appends (the appended position models the unspecified insertion
point of the unordered map). -/
def insertKey (m : Reg) (k : String) (p : Plugin) : Reg :=
  if (lookupKey m k).isSome then
    m.map (fun e => if e.1 = k then (e.1, p) else e)
  else m ++ [(k, p)]

/-- Map erase by key (`pluginsMap.erase(name)`): removes the unique entry
with that key. -/
def eraseKey : Reg → String → Reg
  | [], _ => []
  | e :: rest, k => if e.1 = k then rest else e :: eraseKey rest k

/-- Observable events of one manager operation: callback-channel
invocations (`callbackFunc(code, detail)`), `IPlugin::loaded()`
notifications and `IPlugin::aboutToBeUnloaded()` notifications (tagged
with the record's registry name). -/
inductive Event where
  | cb (code : RetCode) (detail : Option String)
  | loaded (name : String)
  | aboutToBeUnloaded (name : String)
  deriving DecidableEq, Repr

/-- Manager state: the registry, the load-order list and the locations
list (`PlugMgrPrivate`, lines 225-247). -/
structure PMState where
  pluginsMap : Reg
  loadOrderList : List String
  locations : List String
  deriving DecidableEq, Repr, Inhabited

/-! ### Metadata parser (`parseMetadata`, lines 254-288)

The JSON text parser is an external collaborator (`json.hpp`); its output
is modelled as a `Json` tree (`none` models a parse exception).  The
version comparator (`Version`, also external) is modelled as a black-box
`compat : String → String → Bool` as the spec directs. -/

/-- Parsed JSON value, the output of the external JSON collaborator. -/
inductive Json where
  | null
  | str (s : String)
  | num (n : Int)
  | arr (elems : List Json)
  | obj (fields : List (String × Json))

instance : Inhabited Json := ⟨Json.null⟩

/-- Association lookup among JSON object fields. -/
def jsonFind : List (String × Json) → String → Option Json
  | [], _ => none
  | e :: rest, k => if e.1 = k then some e.2 else jsonFind rest k

/-- Field access `tree.at(key)`: `none` models the thrown
`json::out_of_range` (caught by `parseMetadata`). -/
def Json.atKey : Json → String → Option Json
  | Json.obj fs, k => jsonFind fs k
  | _, _ => none

/-- String extraction `j.get<std::string>()`: `none` models the thrown
type error. -/
def Json.getStr : Json → Option String
  | Json.str s => some s
  | _ => none

/-- Range-for over a json value (nlohmann semantics): elements of an
array, values of an object, nothing for null, the value itself
otherwise. -/
def Json.iter : Json → List Json
  | Json.arr xs => xs
  | Json.obj fs => fs.map Prod.snd
  | Json.null => []
  | j => [j]

/-- Combined `tree.at(k).get<std::string>()`. -/
def getField (tree : Json) (k : String) : Option String :=
  (tree.atKey k).bind Json.getStr

/-- Dependency-array extraction loop (lines 273-280): each entry needs
string fields `name` and `version`; any failure throws, rejecting the
whole descriptor. -/
def parseDeps : List Json → Option (List Dependency)
  | [] => some []
  | j :: rest =>
    match getField j "name", getField j "version" with
    | some n, some v => (parseDeps rest).map (fun ds => ⟨n, v⟩ :: ds)
    | _, _ => none

/-- Metadata parser (`PlugMgrPrivate::parseMetadata`, lines 254-288):
checks the declared `api` against the host API with the black-box version
comparator, then extracts all fields; any parse error, missing field,
wrong-typed field or dependency-entry failure yields the rejected
sentinel `emptyInfo` (the `catch` block). -/
def parseMetadata (compat : String → String → Bool) (hostApi : String)
    (meta : Option Json) : PluginInfoStd :=
  match meta with
  | none => emptyInfo
  | some tree =>
    match getField tree "api" with
    | none => emptyInfo
    | some api =>
      if compat api hostApi then
        match getField tree "name", getField tree "prettyName", getField tree "version",
              getField tree "author", getField tree "url", getField tree "license",
              getField tree "copyright", (tree.atKey "dependencies").map Json.iter with
        | some n, some pn, some v, some au, some u, some li, some co, some dj =>
          match parseDeps dj with
          | some ds => ⟨n, pn, v, au, u, li, co, ds⟩
          | none => emptyInfo
        | _, _, _, _, _, _, _, _ => emptyInfo
      else emptyInfo

/-! ### Dependency checker (`checkDependencies`, lines 293-329)

The C++ function recurses with no in-progress marker and no depth bound;
the model takes fuel, decremented at each (re-)entry.  A `none` result for
every fuel means the source recursion does not terminate. -/

/-- Memoised result when `dependenciesExists` is already decided (lines
295-298): `SUCCESS` on yes; on no, the code re-checks whether the
record's OWN metadata name is in the registry (`pluginsMap.count(
plugin->info.name)`) and answers `LOAD_DEPENDENCY_NOT_FOUND` when absent,
`LOAD_DEPENDENCY_BAD_VERSION` when present. -/
def memoResult (m : Reg) (p : Plugin) : RetCode :=
  if p.dependenciesExists = TriBool.TTrue then RetCode.SUCCESS
  else if countKey m p.info.name = 0 then RetCode.LOAD_DEPENDENCY_NOT_FOUND
  else RetCode.LOAD_DEPENDENCY_BAD_VERSION

/-- Loop over the declared dependencies (lines 300-325): missing
dependency marks the record no and reports `LOAD_DEPENDENCY_NOT_FOUND`
with the dependent's path; version-incompatible (black-box `compat` on the
dependency record's version against the required one) marks no and
reports `LOAD_DEPENDENCY_BAD_VERSION`; otherwise recurse into the
dependency (`rec`, the checker at the remaining fuel) and propagate a
failure unchanged.  A completed loop marks the record yes. -/
def checkDepsLoop (compat : String → String → Bool)
    (rec : Reg → String → Option (RetCode × Reg × List Event))
    (key path : String) :
    List Dependency → Reg → Option (RetCode × Reg × List Event)
  | [], m => some (RetCode.SUCCESS, setFlag m key TriBool.TTrue, [])
  | d :: rest, m =>
    match lookupKey m d.name with
    | none =>
      some (RetCode.LOAD_DEPENDENCY_NOT_FOUND, setFlag m key TriBool.TFalse,
            [Event.cb RetCode.LOAD_DEPENDENCY_NOT_FOUND (some path)])
    | some q =>
      if compat q.info.version d.version then
        match rec m d.name with
        | none => none
        | some (rc, m1, ev1) =>
          if rc = RetCode.SUCCESS then
            match checkDepsLoop compat rec key path rest m1 with
            | none => none
            | some (rc2, m2, ev2) => some (rc2, m2, ev1 ++ ev2)
          else some (rc, m1, ev1)
      else
        some (RetCode.LOAD_DEPENDENCY_BAD_VERSION, setFlag m key TriBool.TFalse,
              [Event.cb RetCode.LOAD_DEPENDENCY_BAD_VERSION (some path)])

/-- Dependency checker (`PlugMgrPrivate::checkDependencies`).  `key` is the
registry key of the checked record; result is the return code, the updated
registry (flag writes through shared pointers) and the emitted callback
events. -/
def checkDependencies (compat : String → String → Bool) :
    Nat → Reg → String → Option (RetCode × Reg × List Event)
  | 0, _, _ => none
  | fuel + 1, m, key =>
    match lookupKey m key with
    | none => none
    | some p =>
      if p.dependenciesExists = TriBool.Indeterminate then
        checkDepsLoop compat (checkDependencies compat fuel) key p.path
          p.info.dependencies m
      else some (memoResult m p, m, [])

/-! ### Dependency graph and topological sort -/

/-- Graph node (`Graph::Node`): the registry name and the graph ids of the
node's parents (its dependencies). -/
structure Node where
  name : String
  parentNodes : List Int
  deriving DecidableEq, Repr, Inhabited

/-- Parent list of node index `i`. -/
def nodeParents (nodes : List Node) (i : Nat) : List Int :=
  ((nodes.get? i).map Node.parentNodes).getD []

/-- Modelled from the spec: `private/graph.h` is not under `src/`.  The
sort is deterministic given the node order (spec 4.5): the next emitted
node is the first not-yet-emitted node all of whose parents are already
emitted. -/
def pickNext (nodes : List Node) (emitted : List Int) : Option Nat :=
  (List.range nodes.length).find? (fun i =>
    !(decide (Int.ofNat i ∈ emitted)) &&
      (nodeParents nodes i).all (fun p => decide (p ∈ emitted)))

/-- Modelled from the spec: emission loop of the topological sort; stops
when no node is emittable. -/
def sortLoop (nodes : List Node) : Nat → List Int → List Int
  | 0, emitted => emitted
  | fuel + 1, emitted =>
    match pickNext nodes emitted with
    | none => emitted
    | some i => sortLoop nodes fuel (emitted ++ [Int.ofNat i])

/-- Modelled from the spec: `Graph::topologicalSort(error)` of the private
`graph.h`, which is not under `src/`.  Produces an order in which every
parent (dependency) precedes its children; detection of a cycle is
mandatory, sets the error flag, and no partial load order is emitted in
that case (spec 4.5). -/
def topologicalSort (nodes : List Node) : List String × Bool :=
  let ids := sortLoop nodes nodes.length []
  if ids.length = nodes.length then
    (ids.map (fun i => ((nodes.get? i.toNat).map Node.name).getD ""), false)
  else ([], true)

/-! ### Load pass (`loadPlugins`, lines 475-548) -/

/-- First step of `loadPlugins` (lines 483-502): iterate the registry in
iteration order; reset each record's `graphId` to -1, re-run the
dependency check (failing the whole pass when `tryToContinue` is false),
and append a graph node for each record whose memo flag is yes, storing
the node index as the record's `graphId`. -/
def loadPhase1 (compat : String → String → Bool) (fuel : Nat)
    (tryToContinue : Bool) :
    List String → Reg → List Node → List Event →
    Option ((Reg × List Node × List Event) ⊕ (RetCode × Reg × List Event))
  | [], m, nodes, evs => some (Sum.inl (m, nodes, evs))
  | k :: ks, m, nodes, evs =>
    match checkDependencies compat fuel (setGraphId m k (-1)) k with
    | none => none
    | some (rc, m1, ev1) =>
      if tryToContinue = false ∧ rc ≠ RetCode.SUCCESS then
        some (Sum.inr (rc, m1, evs ++ ev1))
      else
        match lookupKey m1 k with
        | none => none
        | some p =>
          if p.dependenciesExists = TriBool.TTrue then
            loadPhase1 compat fuel tryToContinue ks
              (setGraphId m1 k (Int.ofNat nodes.length)) (nodes ++ [⟨k, []⟩])
              (evs ++ ev1)
          else
            loadPhase1 compat fuel tryToContinue ks m1 nodes (evs ++ ev1)

/-- Graph ids of a record's dependencies (line 511,
`pluginsMap[dep.name]->graphId`): a missing dependency makes `operator[]`
default-insert a null shared pointer whose dereference is undefined
behaviour, modelled as `none`. -/
def depGraphIds (m : Reg) : List Dependency → Option (List Int)
  | [] => some []
  | d :: ds =>
    match lookupKey m d.name with
    | none => none
    | some q => (depGraphIds m ds).map (fun l => q.graphId :: l)

/-- Second step of `loadPlugins` (lines 505-513): for every record with an
assigned `graphId`, push the graph ids of its dependencies onto its
node's parent list.  An out-of-range `graphId` would index the node
vector out of bounds (undefined behaviour, modelled as `none`). -/
def loadPhase2 (m : Reg) : List String → List Node → Option (List Node)
  | [], nodes => some nodes
  | k :: ks, nodes =>
    match lookupKey m k with
    | none => none
    | some p =>
      if p.graphId = -1 then loadPhase2 m ks nodes
      else
        match depGraphIds m p.info.dependencies with
        | none => none
        | some ps =>
          match nodes.get? p.graphId.toNat with
          | none => none
          | some nd =>
            loadPhase2 m ks (nodes.set p.graphId.toNat ⟨nd.name, nd.parentNodes ++ ps⟩)

/-- Fourth step of `loadPlugins` (lines 535-545): walk the load order; for
each name whose record has no live instance, resolve the factory, invoke
it (taking ownership of the produced instance) and deliver `loaded()`.  A
name absent from the registry would make `pluginsMap.at` throw, modelled
as `none`. -/
def loadPhase4 : Reg → List String → Option (Reg × List Event)
  | m, [] => some (m, [])
  | m, n :: rest =>
    match lookupKey m n with
    | none => none
    | some p =>
      if p.hasInstance then loadPhase4 m rest
      else
        match loadPhase4 (setInstance m n true) rest with
        | none => none
        | some (m2, ev) => some (m2, Event.loaded n :: ev)

/-- Load pass (`PluginManager::loadPlugins`, lines 475-548).  Note that
line 521 stores the topological sort's output into `loadOrderList`
BEFORE the cycle check, so on a cycle the previous load order is
overwritten by the failed sort's (empty) output. -/
def loadPlugins (compat : String → String → Bool) (fuel : Nat)
    (tryToContinue : Bool) (st : PMState) :
    Option (RetCode × PMState × List Event) :=
  match loadPhase1 compat fuel tryToContinue (st.pluginsMap.map Prod.fst)
      st.pluginsMap [] [] with
  | none => none
  | some (Sum.inr (rc, m, evs)) => some (rc, { st with pluginsMap := m }, evs)
  | some (Sum.inl (m, nodes, evs)) =>
    match loadPhase2 m (m.map Prod.fst) nodes with
    | none => none
    | some nodes2 =>
      let sorted := topologicalSort nodes2
      let st1 : PMState := { st with pluginsMap := m, loadOrderList := sorted.1 }
      if sorted.2 then
        some (RetCode.LOAD_DEPENDENCY_CYCLE, st1,
              evs ++ [Event.cb RetCode.LOAD_DEPENDENCY_CYCLE none])
      else
        match loadPhase4 m sorted.1 with
        | none => none
        | some (m2, ev2) =>
          some (RetCode.SUCCESS, { st1 with pluginsMap := m2 }, evs ++ ev2)

/-! ### Unload pass (`unloadPlugins`, lines 555-586) -/

/-- Per-record unload (`PlugMgrPrivate::unloadPlugin`, lines 332-344):
notify and drop a live instance, then attempt `lib.unload()` (modelled
from the spec: the external loader's unload succeeds when the record's
`libUnloadable` holds).  Returns the record's new state, the emitted
notifications, and whether the library ended up unloaded. -/
def unloadPluginRec (name : String) (p : Plugin) : Plugin × List Event × Bool :=
  let ev := if p.hasInstance then [Event.aboutToBeUnloaded name] else []
  let p2 : Plugin :=
    { p with hasInstance := false, libLoaded := p.libLoaded && !p.libUnloadable }
  (p2, ev, !p2.libLoaded)

/-- Record destructor (`Plugin::~Plugin`, lines 204-214): if the library
is still loaded, notify a live instance, drop it, and unload the library.
Returns the emitted notifications and whether the library handle remains
loaded after destruction. -/
def pluginDestructor (name : String) (p : Plugin) : List Event × Bool :=
  if p.libLoaded then
    ((if p.hasInstance then [Event.aboutToBeUnloaded name] else []),
     !p.libUnloadable)
  else ([], false)

/-- Reverse walk of the load-order list (lines 559-565): for each name,
`pluginsMap[*it]` default-inserts a null record when the name is absent
and `unloadPlugin` dereferences it — undefined behaviour, modelled as
`none`.  Otherwise unload the record and erase it (running its
destructor).  Returns the remaining registry, events, whether all unloads
succeeded, and each destroyed record's name with whether its handle
remained loaded. -/
def unloadLoop : Reg → List String → Option (Reg × List Event × Bool × List (String × Bool))
  | m, [] => some (m, [], true, [])
  | m, n :: rest =>
    match lookupKey m n with
    | none => none
    | some p =>
      let u := unloadPluginRec n p
      let d := pluginDestructor n u.1
      match unloadLoop (eraseKey m n) rest with
      | none => none
      | some (m2, ev2, ok2, des2) =>
        some (m2, u.2.1 ++ d.1 ++ ev2, u.2.2 && ok2, (n, d.2) :: des2)

/-- Drain of the remaining records (lines 568-573): repeatedly unload and
erase the first remaining entry until the registry is empty. -/
def drainLoop : Reg → List Event × Bool × List (String × Bool)
  | [] => ([], true, [])
  | (k, p) :: rest =>
    let u := unloadPluginRec k p
    let d := pluginDestructor k u.1
    let r := drainLoop rest
    (u.2.1 ++ d.1 ++ r.1, u.2.2 && r.2.1, (k, d.2) :: r.2.2)

/-- Unload pass (`PluginManager::unloadPlugins`, lines 555-586): reverse
walk of the load-order list, then drain of the remaining records, then
clear the locations list; reports `UNLOAD_NOT_ALL` when some library
failed to unload.  The load-order list itself is never cleared. -/
def unloadPlugins (st : PMState) :
    Option (RetCode × PMState × List Event × List (String × Bool)) :=
  match unloadLoop st.pluginsMap st.loadOrderList.reverse with
  | none => none
  | some (m1, ev1, ok1, des1) =>
    let dr := drainLoop m1
    let allOk := ok1 && dr.2.1
    let st2 : PMState := { st with pluginsMap := [], locations := [] }
    let evs := ev1 ++ dr.1 ++ (if allOk then [] else [Event.cb RetCode.UNLOAD_NOT_ALL none])
    some ((if allOk then RetCode.SUCCESS else RetCode.UNLOAD_NOT_ALL), st2, evs,
          des1 ++ dr.2.2)

/-! ### Discovery pass (`searchForPlugins`, lines 402-473) -/

/-- One candidate library found by the filesystem collaborator: its path,
whether the image loads, whether the three `jp_` symbols are present, the
exported `jp_name`, the exported metadata as parsed by the external JSON
collaborator (`none` = unparsable), and whether the loader can unload it
(external collaborator behaviour). -/
structure Candidate where
  path : String
  loadable : Bool
  hasSymbols : Bool
  jpName : String
  metadata : Option Json
  unloadable : Bool

/-- Freshly discovered record: library loaded, metadata attached, memo
flag indeterminate, no instance, no graph id. -/
def freshPlugin (c : Candidate) (info : PluginInfoStd) : Plugin :=
  { libLoaded := true, libUnloadable := c.unloadable, hasInstance := false,
    path := c.path, info := info, dependenciesExists := TriBool.Indeterminate,
    graphId := -1 }

/-- Outcome of the discovery loop: final registry, whether at least one
record was added, the emitted callback events, and each rejected
candidate's path with whether its library handle remained loaded after
the rejected record was destroyed. -/
structure SearchOut where
  reg : Reg
  found : Bool
  events : List Event
  rejected : List (String × Bool)
  deriving DecidableEq, Repr

/-- Discovery loop over the candidate list (lines 416-458).  A loadable
candidate with all three symbols is rejected with
`SEARCH_NAME_ALREADY_EXISTS` when its `jp_name` is already registered and
with `SEARCH_CANNOT_PARSE_METADATA` when the metadata is rejected; in
both cases the local `PluginPtr` goes out of scope at `continue` and the
record's destructor runs.  Otherwise the record is stored under its
`jp_name`.  A candidate that is not a JustPlug library is dropped
(`plugin.reset()`), likewise running the destructor. -/
def searchLoop (compat : String → String → Bool) (hostApi : String) :
    List Candidate → Reg → Bool → SearchOut
  | [], m, found => ⟨m, found, [], []⟩
  | c :: cs, m, found =>
    if c.loadable && c.hasSymbols then
      if countKey m c.jpName = 1 then
        let d := pluginDestructor c.jpName (freshPlugin c emptyInfo)
        let r := searchLoop compat hostApi cs m found
        ⟨r.reg, r.found,
         Event.cb RetCode.SEARCH_NAME_ALREADY_EXISTS (some c.path) :: (d.1 ++ r.events),
         (c.path, d.2) :: r.rejected⟩
      else
        let info := parseMetadata compat hostApi c.metadata
        if info.name = "" then
          let d := pluginDestructor c.jpName (freshPlugin c emptyInfo)
          let r := searchLoop compat hostApi cs m found
          ⟨r.reg, r.found,
           Event.cb RetCode.SEARCH_CANNOT_PARSE_METADATA (some c.path) :: (d.1 ++ r.events),
           (c.path, d.2) :: r.rejected⟩
        else
          searchLoop compat hostApi cs (insertKey m c.jpName (freshPlugin c info)) true
    else
      let p0 : Plugin := { freshPlugin c emptyInfo with libLoaded := c.loadable }
      let d := pluginDestructor c.jpName p0
      let r := searchLoop compat hostApi cs m found
      ⟨r.reg, r.found, d.1 ++ r.events, (c.path, d.2) :: r.rejected⟩

/-- Discovery pass (`PluginManager::searchForPlugins`, lines 402-468).
`dirOk` is whether the filesystem collaborator listed the directory
without error and `cands` the candidates it produced.  On a listing error
with no candidates the pass aborts with `SEARCH_LISTFILES_ERROR`; when at
least one record was added the directory is appended (deduplicated) to
the locations list and the pass reports `SUCCESS`, otherwise
`SEARCH_NOTHING_FOUND`. -/
def searchForPlugins (compat : String → String → Bool) (hostApi : String)
    (pluginDir : String) (dirOk : Bool) (cands : List Candidate) (st : PMState) :
    RetCode × PMState × List Event × List (String × Bool) :=
  let ev0 : List Event := if dirOk then [] else [Event.cb RetCode.SEARCH_LISTFILES_ERROR none]
  if !dirOk && cands.isEmpty then
    (RetCode.SEARCH_LISTFILES_ERROR, st, ev0, [])
  else
    let r := searchLoop compat hostApi cands st.pluginsMap false
    if r.found then
      let locs := if pluginDir ∈ st.locations then st.locations
                  else st.locations ++ [pluginDir]
      (RetCode.SUCCESS, { st with pluginsMap := r.reg, locations := locs },
       ev0 ++ r.events, r.rejected)
    else
      (RetCode.SEARCH_NOTHING_FOUND, { st with pluginsMap := r.reg },
       ev0 ++ r.events, r.rejected)

/-! ### Getters (`hasPlugin`, `pluginInfo`, lines 623-654) -/

/-- Presence test (`PluginManager::hasPlugin`, line 623-626). -/
def hasPlugin (st : PMState) (name : String) : Bool :=
  countKey st.pluginsMap name == 1

/-- ABI metadata snapshot (`jp::PluginInfo`): every string field is a
`strdup` copy and the dependency array a malloc'd copy, modelled as equal
values. -/
structure PluginInfoC where
  name : String
  prettyName : String
  version : String
  author : String
  url : String
  license : String
  copyright : String
  dependencies : List Dependency
  dependenciesNb : Nat
  deriving DecidableEq, Repr, Inhabited

/-- Snapshot conversion (`PluginInfoStd::toPluginInfo`, lines 139-162):
copies every field verbatim. -/
def PluginInfoStd.toPluginInfo (i : PluginInfoStd) : PluginInfoC :=
  ⟨i.name, i.prettyName, i.version, i.author, i.url, i.license, i.copyright,
   i.dependencies, i.dependencies.length⟩

/-- Default-constructed `PluginInfo` (returned for an unknown name). -/
def emptyPluginInfoC : PluginInfoC := ⟨"", "", "", "", "", "", "", [], 0⟩

/-- Metadata snapshot getter (`PluginManager::pluginInfo`, lines 649-654). -/
def pluginInfo (st : PMState) (name : String) : PluginInfoC :=
  if hasPlugin st name then
    match lookupKey st.pluginsMap name with
    | some p => p.info.toPluginInfo
    | none => emptyPluginInfoC
  else emptyPluginInfoC

/-! ## Basic registry lemmas -/

/-- Keys of a registry, in iteration order. -/
def regKeys (m : Reg) : List String := m.map Prod.fst

theorem lookupKey_eq_none_iff (m : Reg) (k : String) :
    lookupKey m k = none ↔ k ∉ regKeys m := by
  induction m with
  | nil => simp [lookupKey, regKeys]
  | cons e rest ih =>
    simp only [lookupKey, regKeys, List.map_cons, List.mem_cons, not_or]
    by_cases h : e.1 = k
    · subst h
      refine iff_of_false (by simp) ?_
      simp
    · simp only [if_neg h, ih, regKeys]
      constructor
      · intro hn; exact ⟨fun hk => h hk.symm, hn⟩
      · intro hn; exact hn.2

theorem countKey_eq_zero_iff (m : Reg) (k : String) :
    countKey m k = 0 ↔ k ∉ regKeys m := by
  induction m with
  | nil => simp [countKey, regKeys]
  | cons e rest ih =>
    simp only [countKey, regKeys, List.map_cons, List.mem_cons, not_or]
    by_cases h : e.1 = k
    · subst h
      rw [if_pos rfl]
      refine iff_of_false (by omega) (by simp)
    · simp only [if_neg h, zero_add, ih, regKeys]
      constructor
      · intro hn; exact ⟨fun hk => h hk.symm, hn⟩
      · intro hn; exact hn.2

theorem lookupKey_isSome_iff (m : Reg) (k : String) :
    (lookupKey m k).isSome ↔ k ∈ regKeys m := by
  rcases h : lookupKey m k with _ | p
  · rw [lookupKey_eq_none_iff] at h; simp [h]
  · have : lookupKey m k ≠ none := by simp [h]
    rw [Ne, lookupKey_eq_none_iff, not_not] at this
    simp [this]

theorem countKey_of_nodup (m : Reg) (k : String) (hnd : (regKeys m).Nodup)
    (hk : k ∈ regKeys m) : countKey m k = 1 := by
  induction m with
  | nil => simp [regKeys] at hk
  | cons e rest ih =>
    simp only [regKeys, List.map_cons, List.nodup_cons] at hnd
    simp only [regKeys, List.map_cons, List.mem_cons] at hk
    by_cases h : e.1 = k
    · have h0 : countKey rest k = 0 := by
        rw [countKey_eq_zero_iff, ← h]
        exact hnd.1
      simp [countKey, h, h0]
    · have hk' : k ∈ regKeys rest := by
        rcases hk with hk | hk
        · exact absurd hk.symm h
        · exact hk
      simp [countKey, h, ih hnd.2 hk']

/-! Lookup through the per-record setters. -/

theorem lookupKey_setFlag (m : Reg) (k k' : String) (f : TriBool) :
    lookupKey (setFlag m k f) k' =
      (lookupKey m k').map
        (fun p => if k' = k then { p with dependenciesExists := f } else p) := by
  induction m with
  | nil => simp [setFlag, lookupKey]
  | cons e rest ih =>
    by_cases h1 : e.1 = k'
    · subst h1
      by_cases h2 : e.1 = k
      · simp [setFlag, lookupKey, h2]
      · simp [setFlag, lookupKey, h2]
    · by_cases h2 : e.1 = k
      · have hkk : ¬ k = k' := fun h => h1 (h2.trans h)
        simpa [setFlag, lookupKey, h1, h2, hkk] using ih
      · simpa [setFlag, lookupKey, h1, h2] using ih

theorem lookupKey_setGraphId (m : Reg) (k k' : String) (g : Int) :
    lookupKey (setGraphId m k g) k' =
      (lookupKey m k').map
        (fun p => if k' = k then { p with graphId := g } else p) := by
  induction m with
  | nil => simp [setGraphId, lookupKey]
  | cons e rest ih =>
    by_cases h1 : e.1 = k'
    · subst h1
      by_cases h2 : e.1 = k
      · simp [setGraphId, lookupKey, h2]
      · simp [setGraphId, lookupKey, h2]
    · by_cases h2 : e.1 = k
      · have hkk : ¬ k = k' := fun h => h1 (h2.trans h)
        simpa [setGraphId, lookupKey, h1, h2, hkk] using ih
      · simpa [setGraphId, lookupKey, h1, h2] using ih

theorem lookupKey_setInstance (m : Reg) (k k' : String) (b : Bool) :
    lookupKey (setInstance m k b) k' =
      (lookupKey m k').map
        (fun p => if k' = k then { p with hasInstance := b } else p) := by
  induction m with
  | nil => simp [setInstance, lookupKey]
  | cons e rest ih =>
    by_cases h1 : e.1 = k'
    · subst h1
      by_cases h2 : e.1 = k
      · simp [setInstance, lookupKey, h2]
      · simp [setInstance, lookupKey, h2]
    · by_cases h2 : e.1 = k
      · have hkk : ¬ k = k' := fun h => h1 (h2.trans h)
        simpa [setInstance, lookupKey, h1, h2, hkk] using ih
      · simpa [setInstance, lookupKey, h1, h2] using ih

theorem regKeys_setFlag (m : Reg) (k : String) (f : TriBool) :
    regKeys (setFlag m k f) = regKeys m := by
  simp only [regKeys, setFlag, List.map_map]
  apply List.map_congr_left
  intro e _; by_cases h : e.1 = k <;> simp [h]

theorem regKeys_setGraphId (m : Reg) (k : String) (g : Int) :
    regKeys (setGraphId m k g) = regKeys m := by
  simp only [regKeys, setGraphId, List.map_map]
  apply List.map_congr_left
  intro e _; by_cases h : e.1 = k <;> simp [h]

theorem regKeys_setInstance (m : Reg) (k : String) (b : Bool) :
    regKeys (setInstance m k b) = regKeys m := by
  simp only [regKeys, setInstance, List.map_map]
  apply List.map_congr_left
  intro e _; by_cases h : e.1 = k <;> simp [h]

theorem countKey_keys_congr {m m' : Reg} (h : regKeys m = regKeys m') (k : String) :
    countKey m k = countKey m' k := by
  induction m generalizing m' with
  | nil => cases m' <;> simp_all [regKeys, countKey]
  | cons e rest ih =>
    cases m' with
    | nil => simp [regKeys] at h
    | cons e' rest' =>
      simp only [regKeys, List.map_cons, List.cons.injEq] at h
      simp [countKey, h.1, ih h.2]

/-! ## Claim C3: the dependency checker does not terminate on a
self-dependency -/

/-- Version comparator instance for concrete runs: plain string equality
(reflexive, as the spec requires of the black-box comparator). -/
def compatEq : String → String → Bool := fun a b => a == b

/-- Record that declares itself as a dependency at its own (hence
compatible) version. -/
def selfDepPlugin : Plugin :=
  { libLoaded := true, libUnloadable := true, hasInstance := false,
    path := "/plugins/a", info := ⟨"A", "A", "1.0", "au", "u", "l", "c", [⟨"A", "1.0"⟩]⟩,
    dependenciesExists := TriBool.Indeterminate, graphId := -1 }

/-- Registry holding only the self-dependent record. -/
def selfDepReg : Reg := [("A", selfDepPlugin)]

/-- Claim C3: the claim states that `checkDependencies` terminates for
every registry, including one with a self-dependency, with recursion
depth bounded by the dependency depth.  The code violates this: on a
record that declares itself as a dependency at a compatible version, the
checker re-enters itself with the memo flag still indeterminate and no
fuel bound suffices — the C++ recursion is unbounded (a stack overflow),
so the cycle never reaches the DAG phase that was meant to flag it. -/
theorem claim3_checkDependencies_selfdep_diverges :
    ∀ fuel : Nat, checkDependencies compatEq fuel selfDepReg "A" = none := by
  intro fuel
  induction fuel with
  | zero => rfl
  | succ n ih =>
    have h1 : lookupKey selfDepReg "A" = some selfDepPlugin := rfl
    have h2 : selfDepPlugin.dependenciesExists = TriBool.Indeterminate := rfl
    have h3 : selfDepPlugin.info.dependencies = [⟨"A", "1.0"⟩] := rfl
    have h4 : selfDepPlugin.info.version = "1.0" := rfl
    have h5 : selfDepPlugin.path = "/plugins/a" := rfl
    simp [checkDependencies, checkDepsLoop, h1, h2, h3, h4, h5, compatEq, ih]

/-! ## Claim C4: the memoised failure branch re-checks the record's own
name, not its dependencies -/

/-- Amended form of claim C4 (general): when `dependencies_resolved == no`,
`checkDependencies` does not re-examine the declared dependencies at all;
it answers `LOAD_DEPENDENCY_NOT_FOUND` exactly when the record's OWN
metadata name is absent from the registry and `LOAD_DEPENDENCY_BAD_VERSION`
otherwise (lines 295-298), leaving registry and events untouched. -/
theorem claim4_checkDependencies_memo_no (compat : String → String → Bool)
    (fuel : Nat) (m : Reg) (key : String) (p : Plugin)
    (hp : lookupKey m key = some p)
    (hf : p.dependenciesExists = TriBool.TFalse) :
    checkDependencies compat (fuel + 1) m key =
      some ((if countKey m p.info.name = 0 then RetCode.LOAD_DEPENDENCY_NOT_FOUND
             else RetCode.LOAD_DEPENDENCY_BAD_VERSION), m, []) := by
  simp [checkDependencies, hp, hf, memoResult]

/-- Record "A" memoised as failed, declaring the absent "B" as its only
dependency; its own name "A" is registered. -/
def memoNoPlugin : Plugin :=
  { libLoaded := true, libUnloadable := true, hasInstance := false,
    path := "/plugins/a", info := ⟨"A", "A", "1.0", "au", "u", "l", "c", [⟨"B", "1.0"⟩]⟩,
    dependenciesExists := TriBool.TFalse, graphId := -1 }

/-- Registry for the C4 counterexample. -/
def memoNoReg : Reg := [("A", memoNoPlugin)]

/-- Claim C4 counterexample: record "A" has `dependencies_resolved == no`
and its only declared dependency "B" is absent from the registry, so the
claim requires `LOAD_DEPENDENCY_NOT_FOUND`; the code instead returns
`LOAD_DEPENDENCY_BAD_VERSION`, because line 297 counts the record's own
name "A" (present) rather than examining its dependencies. -/
theorem claim4_counterexample :
    memoNoPlugin.dependenciesExists = TriBool.TFalse ∧
    lookupKey memoNoReg "B" = none ∧
    checkDependencies compatEq 5 memoNoReg "A" =
      some (RetCode.LOAD_DEPENDENCY_BAD_VERSION, memoNoReg, []) ∧
    RetCode.LOAD_DEPENDENCY_BAD_VERSION ≠ RetCode.LOAD_DEPENDENCY_NOT_FOUND :=
  ⟨rfl, rfl, rfl, by decide⟩

/-- Witness for the amended claim C4 theorem at the concrete registry. -/
theorem claim4_witness :
    checkDependencies compatEq 5 memoNoReg "A" =
      some (RetCode.LOAD_DEPENDENCY_BAD_VERSION, memoNoReg, []) := by
  have h := claim4_checkDependencies_memo_no compatEq 4 memoNoReg "A" memoNoPlugin rfl rfl
  simpa [memoNoReg, memoNoPlugin, countKey] using h

/-! ## Claim C8: accepted descriptors round-trip verbatim through
`parseMetadata`, the registry and `pluginInfo` -/

/-- Claim C8: for every descriptor accepted by the metadata parser (all
required fields present as strings, a `compatible` api, a well-formed
dependency array, and a non-empty name), `parseMetadata` extracts exactly
the declared strings and dependency list in declaration order, and
`pluginInfo` applied to the descriptor's name returns a snapshot whose
fields equal the declared fields verbatim (every string is a `strdup`
copy and the dependency array a copied array of the same entries). -/
theorem claim8_pluginInfo_roundtrip (compat : String → String → Bool)
    (hostApi : String) (tree : Json) (a n pn v au u li co : String)
    (dj : List Json) (ds : List Dependency) (st : PMState) (p : Plugin)
    (hapi : getField tree "api" = some a)
    (hcompat : compat a hostApi = true)
    (hname : getField tree "name" = some n)
    (hpn : getField tree "prettyName" = some pn)
    (hv : getField tree "version" = some v)
    (hau : getField tree "author" = some au)
    (hu : getField tree "url" = some u)
    (hli : getField tree "license" = some li)
    (hco : getField tree "copyright" = some co)
    (hdj : (tree.atKey "dependencies").map Json.iter = some dj)
    (hds : parseDeps dj = some ds)
    (hnd : (regKeys st.pluginsMap).Nodup)
    (hlk : lookupKey st.pluginsMap n = some p)
    (hinfo : p.info = parseMetadata compat hostApi (some tree)) :
    parseMetadata compat hostApi (some tree) = ⟨n, pn, v, au, u, li, co, ds⟩ ∧
    pluginInfo st n = ⟨n, pn, v, au, u, li, co, ds, ds.length⟩ := by
  have hparse : parseMetadata compat hostApi (some tree) = ⟨n, pn, v, au, u, li, co, ds⟩ := by
    simp [parseMetadata, hapi, hcompat, hname, hpn, hv, hau, hu, hli, hco, hdj, hds]
  refine ⟨hparse, ?_⟩
  have hmem : n ∈ regKeys st.pluginsMap := by
    rw [← lookupKey_isSome_iff, hlk]; rfl
  have hcount : countKey st.pluginsMap n = 1 := countKey_of_nodup _ _ hnd hmem
  have hhas : hasPlugin st n = true := by simp [hasPlugin, hcount]
  simp [pluginInfo, hhas, hlk, hinfo, hparse, PluginInfoStd.toPluginInfo]

/-- Concrete accepted descriptor for the C8 witness. -/
def rtTree : Json :=
  Json.obj [("api", Json.str "1.0"), ("name", Json.str "x"),
            ("prettyName", Json.str "The X"), ("version", Json.str "2.1"),
            ("author", Json.str "au"), ("url", Json.str "http"),
            ("license", Json.str "MIT"), ("copyright", Json.str "me"),
            ("dependencies",
             Json.arr [Json.obj [("name", Json.str "y"), ("version", Json.str "3.0")]])]

/-- Concrete registry record holding the parsed `rtTree` metadata. -/
def rtPlugin : Plugin :=
  { libLoaded := true, libUnloadable := true, hasInstance := false,
    path := "/plugins/x", info := parseMetadata compatEq "1.0" (some rtTree),
    dependenciesExists := TriBool.Indeterminate, graphId := -1 }

/-- Concrete manager state for the C8 witness. -/
def rtState : PMState := ⟨[("x", rtPlugin)], [], []⟩

/-- Witness for claim C8 at the concrete descriptor `rtTree`. -/
theorem claim8_witness :
    parseMetadata compatEq "1.0" (some rtTree) =
      ⟨"x", "The X", "2.1", "au", "http", "MIT", "me", [⟨"y", "3.0"⟩]⟩ ∧
    pluginInfo rtState "x" =
      ⟨"x", "The X", "2.1", "au", "http", "MIT", "me", [⟨"y", "3.0"⟩], 1⟩ := by
  have h := claim8_pluginInfo_roundtrip compatEq "1.0" rtTree "1.0" "x" "The X" "2.1"
    "au" "http" "MIT" "me" (Json.iter (Json.arr [Json.obj [("name", Json.str "y"),
      ("version", Json.str "3.0")]])) [⟨"y", "3.0"⟩] rtState rtPlugin
    rfl rfl rfl rfl rfl rfl rfl rfl rfl rfl rfl (by decide) rfl rfl
  simpa using h

/-! ## Discovery lemmas (claims C5 and C9) -/

theorem lookupKey_append_of_some {m : Reg} {k : String} {p : Plugin}
    (h : lookupKey m k = some p) (l : Reg) : lookupKey (m ++ l) k = some p := by
  induction m with
  | nil => simp [lookupKey] at h
  | cons e rest ih =>
    by_cases he : e.1 = k
    · simpa [lookupKey, he] using h
    · simp only [lookupKey, if_neg he] at h
      simpa [lookupKey, he] using ih h

theorem regKeys_append (m l : Reg) : regKeys (m ++ l) = regKeys m ++ regKeys l := by
  simp [regKeys]

theorem insertKey_absent {m : Reg} {k : String} (h : lookupKey m k = none)
    (p : Plugin) : insertKey m k p = m ++ [(k, p)] := by
  simp [insertKey, h]

/-- Absence of a key from a registry whose keys are unique, from its count
not being one. -/
theorem lookupKey_eq_none_of_count_ne_one {m : Reg} {k : String}
    (hnd : (regKeys m).Nodup) (h : countKey m k ≠ 1) : lookupKey m k = none := by
  rw [lookupKey_eq_none_iff]
  intro hmem
  exact h (countKey_of_nodup m k hnd hmem)

/-- The discovery loop preserves key uniqueness and never touches a
previously registered record. -/
theorem searchLoop_preserves (compat : String → String → Bool) (hostApi : String)
    (cands : List Candidate) (m : Reg) (found : Bool)
    (hnd : (regKeys m).Nodup) :
    (regKeys (searchLoop compat hostApi cands m found).reg).Nodup ∧
    ∀ k p, lookupKey m k = some p →
      lookupKey (searchLoop compat hostApi cands m found).reg k = some p := by
  induction cands generalizing m found with
  | nil => exact ⟨hnd, fun k p h => by simpa [searchLoop] using h⟩
  | cons c cs ih =>
    by_cases h1 : (c.loadable && c.hasSymbols) = true
    · by_cases h2 : countKey m c.jpName = 1
      · have h := ih m found hnd
        simpa [searchLoop, h1, h2] using h
      · by_cases h3 : (parseMetadata compat hostApi c.metadata).name = ""
        · have h := ih m found hnd
          simpa [searchLoop, h1, h2, h3] using h
        · have habs : lookupKey m c.jpName = none :=
            lookupKey_eq_none_of_count_ne_one hnd h2
          have hins : insertKey m c.jpName
              (freshPlugin c (parseMetadata compat hostApi c.metadata)) =
              m ++ [(c.jpName, freshPlugin c (parseMetadata compat hostApi c.metadata))] :=
            insertKey_absent habs _
          have hnd2 : (regKeys (m ++ [(c.jpName,
              freshPlugin c (parseMetadata compat hostApi c.metadata))])).Nodup := by
            rw [regKeys_append, List.nodup_append]
            refine ⟨hnd, List.nodup_singleton _, ?_⟩
            intro x hx hx'
            have : x = c.jpName := by simpa [regKeys] using hx'
            subst this
            rw [lookupKey_eq_none_iff] at habs
            exact (habs hx).elim
          have h := ih (m ++ [(c.jpName,
            freshPlugin c (parseMetadata compat hostApi c.metadata))]) true hnd2
          refine ⟨by simpa [searchLoop, h1, h2, h3, hins] using h.1, ?_⟩
          intro k p hk
          have hk2 := lookupKey_append_of_some hk
            [(c.jpName, freshPlugin c (parseMetadata compat hostApi c.metadata))]
          have := h.2 k p hk2
          simpa [searchLoop, h1, h2, h3, hins] using this
    · have h := ih m found hnd
      simpa [searchLoop, h1] using h

/-- Splitting the discovery loop at a list position. -/
theorem searchLoop_append (compat : String → String → Bool) (hostApi : String)
    (pre cs : List Candidate) (m : Reg) (found : Bool) :
    searchLoop compat hostApi (pre ++ cs) m found =
      ⟨(searchLoop compat hostApi cs (searchLoop compat hostApi pre m found).reg
          (searchLoop compat hostApi pre m found).found).reg,
       (searchLoop compat hostApi cs (searchLoop compat hostApi pre m found).reg
          (searchLoop compat hostApi pre m found).found).found,
       (searchLoop compat hostApi pre m found).events ++
         (searchLoop compat hostApi cs (searchLoop compat hostApi pre m found).reg
            (searchLoop compat hostApi pre m found).found).events,
       (searchLoop compat hostApi pre m found).rejected ++
         (searchLoop compat hostApi cs (searchLoop compat hostApi pre m found).reg
            (searchLoop compat hostApi pre m found).found).rejected⟩ := by
  induction pre generalizing m found with
  | nil => simp [searchLoop]
  | cons c cs' ih =>
    by_cases h1 : (c.loadable && c.hasSymbols) = true
    · by_cases h2 : countKey m c.jpName = 1
      · simp [searchLoop, h1, h2, ih]
      · by_cases h3 : (parseMetadata compat hostApi c.metadata).name = ""
        · simp [searchLoop, h1, h2, h3, ih]
        · simp [searchLoop, h1, h2, h3, ih]
    · simp [searchLoop, h1, ih]

/-- Duplicate-name encounter inside the discovery loop: the callback event
carries the rejected candidate's path, the name still maps to exactly one
record afterwards, and the record registered before the encounter is still
there. -/
theorem searchLoop_duplicate (compat : String → String → Bool) (hostApi : String)
    (pre : List Candidate) (c : Candidate) (post : List Candidate) (m : Reg)
    (hnd : (regKeys m).Nodup)
    (hl : c.loadable = true) (hs : c.hasSymbols = true)
    (hdup : countKey (searchLoop compat hostApi pre m false).reg c.jpName = 1) :
    Event.cb RetCode.SEARCH_NAME_ALREADY_EXISTS (some c.path) ∈
      (searchLoop compat hostApi (pre ++ c :: post) m false).events ∧
    countKey (searchLoop compat hostApi (pre ++ c :: post) m false).reg c.jpName = 1 ∧
    ∀ p, lookupKey (searchLoop compat hostApi pre m false).reg c.jpName = some p →
      lookupKey (searchLoop compat hostApi (pre ++ c :: post) m false).reg c.jpName = some p := by
  have h1 : (c.loadable && c.hasSymbols) = true := by simp [hl, hs]
  have hsplit := searchLoop_append compat hostApi pre (c :: post) m false
  have hprend : (regKeys (searchLoop compat hostApi pre m false).reg).Nodup :=
    (searchLoop_preserves compat hostApi pre m false hnd).1
  have hstep : searchLoop compat hostApi (c :: post)
      (searchLoop compat hostApi pre m false).reg
      (searchLoop compat hostApi pre m false).found =
      ⟨(searchLoop compat hostApi post
          (searchLoop compat hostApi pre m false).reg
          (searchLoop compat hostApi pre m false).found).reg,
        (searchLoop compat hostApi post
          (searchLoop compat hostApi pre m false).reg
          (searchLoop compat hostApi pre m false).found).found,
        Event.cb RetCode.SEARCH_NAME_ALREADY_EXISTS (some c.path) ::
          ((pluginDestructor c.jpName (freshPlugin c emptyInfo)).1 ++
            (searchLoop compat hostApi post
              (searchLoop compat hostApi pre m false).reg
              (searchLoop compat hostApi pre m false).found).events),
        (c.path, (pluginDestructor c.jpName (freshPlugin c emptyInfo)).2) ::
          (searchLoop compat hostApi post
            (searchLoop compat hostApi pre m false).reg
            (searchLoop compat hostApi pre m false).found).rejected⟩ := by
    simp [searchLoop, h1, hdup]
  have hpost := searchLoop_preserves compat hostApi post
    (searchLoop compat hostApi pre m false).reg
    (searchLoop compat hostApi pre m false).found hprend
  have hlp : ∀ p, lookupKey (searchLoop compat hostApi pre m false).reg c.jpName = some p →
      lookupKey (searchLoop compat hostApi (pre ++ c :: post) m false).reg c.jpName = some p := by
    intro p hp
    have := hpost.2 c.jpName p hp
    rw [hsplit]
    simpa [hstep] using this
  refine ⟨?_, ?_, hlp⟩
  · rw [hsplit]
    simp only [hstep]
    simp
  · have hmem1 : c.jpName ∈ regKeys (searchLoop compat hostApi pre m false).reg := by
      by_contra hno
      rw [← countKey_eq_zero_iff] at hno
      omega
    obtain ⟨p, hp⟩ : ∃ p, lookupKey (searchLoop compat hostApi pre m false).reg
        c.jpName = some p := by
      have := (lookupKey_isSome_iff (searchLoop compat hostApi pre m false).reg
        c.jpName).mpr hmem1
      cases hx : lookupKey (searchLoop compat hostApi pre m false).reg c.jpName with
      | none => rw [hx] at this; simp at this
      | some q => exact ⟨q, rfl⟩
    have hfin := hlp p hp
    have hfinmem : c.jpName ∈ regKeys (searchLoop compat hostApi (pre ++ c :: post) m false).reg := by
      rw [← lookupKey_isSome_iff, hfin]; rfl
    have hndf : (regKeys (searchLoop compat hostApi (pre ++ c :: post) m false).reg).Nodup :=
      (searchLoop_preserves compat hostApi (pre ++ c :: post) m false hnd).1
    exact countKey_of_nodup _ _ hndf hfinmem

/-- Claim C5: across any discovery pass on a registry with unique names,
(1) names stay unique (every name maps to exactly one record), (2) no
previously registered record is replaced or modified, and (3) whenever a
candidate that is a well-formed library (loadable, all three symbols)
exports a `jp_name` already registered at that point of the scan, the
callback is invoked with `SEARCH_NAME_ALREADY_EXISTS` and that
candidate's path, the candidate is not inserted (the name still maps to
exactly one record afterwards), and the record registered before the
encounter is still registered untouched. -/
theorem claim5_search_name_uniqueness (compat : String → String → Bool)
    (hostApi pluginDir : String) (dirOk : Bool) (cands : List Candidate)
    (st : PMState) (rc : RetCode) (st' : PMState) (ev : List Event)
    (rej : List (String × Bool))
    (hnd : (regKeys st.pluginsMap).Nodup)
    (hrun : searchForPlugins compat hostApi pluginDir dirOk cands st = (rc, st', ev, rej)) :
    (regKeys st'.pluginsMap).Nodup ∧
    (∀ k p, lookupKey st.pluginsMap k = some p → lookupKey st'.pluginsMap k = some p) ∧
    (∀ pre c post, cands = pre ++ c :: post → c.loadable = true → c.hasSymbols = true →
      countKey (searchLoop compat hostApi pre st.pluginsMap false).reg c.jpName = 1 →
      Event.cb RetCode.SEARCH_NAME_ALREADY_EXISTS (some c.path) ∈ ev ∧
      countKey st'.pluginsMap c.jpName = 1 ∧
      ∀ p, lookupKey (searchLoop compat hostApi pre st.pluginsMap false).reg c.jpName = some p →
        lookupKey st'.pluginsMap c.jpName = some p) := by
  unfold searchForPlugins at hrun
  by_cases hearly : (!dirOk && cands.isEmpty) = true
  · rw [if_pos hearly] at hrun
    simp only [Prod.mk.injEq] at hrun
    obtain ⟨rfl, rfl, rfl, rfl⟩ := hrun
    refine ⟨hnd, fun k p h => h, ?_⟩
    intro pre c post hc hl hs hdup
    have hcn : cands = [] := by
      cases cands with
      | nil => rfl
      | cons a l => simp at hearly
    rw [hcn] at hc
    exact absurd hc (by simp)
  · rw [if_neg hearly] at hrun
    have hcore : st'.pluginsMap = (searchLoop compat hostApi cands st.pluginsMap false).reg ∧
        ∃ ev0, ev = ev0 ++ (searchLoop compat hostApi cands st.pluginsMap false).events := by
      by_cases hf : (searchLoop compat hostApi cands st.pluginsMap false).found = true
      · rw [if_pos hf] at hrun
        simp only [Prod.mk.injEq] at hrun
        obtain ⟨rfl, rfl, rfl, rfl⟩ := hrun
        exact ⟨rfl, _, rfl⟩
      · rw [if_neg hf] at hrun
        simp only [Prod.mk.injEq] at hrun
        obtain ⟨rfl, rfl, rfl, rfl⟩ := hrun
        exact ⟨rfl, _, rfl⟩
    obtain ⟨hmap, ev0, hev⟩ := hcore
    have hpres := searchLoop_preserves compat hostApi cands st.pluginsMap false hnd
    refine ⟨hmap ▸ hpres.1, fun k p h => hmap ▸ hpres.2 k p h, ?_⟩
    intro pre c post hc hl hs hdup
    subst hc
    have hd := searchLoop_duplicate compat hostApi pre c post st.pluginsMap hnd hl hs hdup
    exact ⟨hev ▸ List.mem_append_right ev0 hd.1, hmap ▸ hd.2.1,
      fun p hp => hmap ▸ hd.2.2 p hp⟩

/-- Accepted descriptor for the duplicate-name scenarios (same field
values as `rtTree`, kept separate so the scenarios are self-contained). -/
def dupTree : Json :=
  Json.obj [("api", Json.str "1.0"), ("name", Json.str "x"),
            ("prettyName", Json.str "The X"), ("version", Json.str "2.1"),
            ("author", Json.str "au"), ("url", Json.str "http"),
            ("license", Json.str "MIT"), ("copyright", Json.str "me"),
            ("dependencies", Json.arr [])]

/-- First candidate exporting `jp_name = "x"`: admitted. -/
def dupCand1 : Candidate := ⟨"/lib1", true, true, "x", some dupTree, true⟩

/-- Second candidate exporting the same `jp_name = "x"`: rejected. -/
def dupCand2 : Candidate := ⟨"/lib2", true, true, "x", none, true⟩

/-- Full duplicate-name discovery run from an empty manager. -/
def dupRun : RetCode × PMState × List Event × List (String × Bool) :=
  searchForPlugins compatEq "1.0" "/dir" true [dupCand1, dupCand2] ⟨[], [], []⟩

/-- Witness for claim C5 at the concrete duplicate-name run. -/
theorem claim5_witness :
    Event.cb RetCode.SEARCH_NAME_ALREADY_EXISTS (some "/lib2") ∈ dupRun.2.2.1 ∧
    countKey dupRun.2.1.pluginsMap "x" = 1 := by
  have h := claim5_search_name_uniqueness compatEq "1.0" "/dir" true
    [dupCand1, dupCand2] ⟨[], [], []⟩ dupRun.1 dupRun.2.1 dupRun.2.2.1 dupRun.2.2.2
    (by decide) rfl
  have h3 := h.2.2 [dupCand1] dupCand2 [] rfl rfl rfl (by decide)
  exact ⟨h3.1, h3.2.1⟩

/-- Claim C9 counterexample: in the concrete duplicate-name run, the
rejected candidate `/lib2` was loaded before the name check, but its
record is destroyed at the `continue` (the local `PluginPtr` leaves
scope), and `Plugin::~Plugin` (lines 204-214) unloads the still-loaded
library; the run reports the handle NOT loaded afterwards (`false`),
whereas the claim asserts it remains loaded. -/
theorem claim9_counterexample :
    (searchForPlugins compatEq "1.0" "/dir" true [dupCand1, dupCand2]
      ⟨[], [], []⟩).2.2.2 = [("/lib2", false)] ∧ false ≠ true :=
  ⟨rfl, by decide⟩

/-- Claim C9 amended: when discovery rejects a duplicate-named candidate,
the candidate's library was indeed loaded before the name check, but the
handle is NOT leaked: the rejected record's destructor runs at the skip
and releases the handle (whenever the external loader can unload it), so
the handle does not remain loaded after `searchForPlugins` returns. -/
theorem claim9_duplicate_handle_released (compat : String → String → Bool)
    (hostApi : String) (c : Candidate) (cs : List Candidate) (m : Reg)
    (found : Bool) (hl : c.loadable = true) (hs : c.hasSymbols = true)
    (hdup : countKey m c.jpName = 1) (hu : c.unloadable = true) :
    (freshPlugin c emptyInfo).libLoaded = true ∧
    (c.path, false) ∈ (searchLoop compat hostApi (c :: cs) m found).rejected := by
  have h1 : (c.loadable && c.hasSymbols) = true := by simp [hl, hs]
  refine ⟨rfl, ?_⟩
  have hd : (pluginDestructor c.jpName (freshPlugin c emptyInfo)).2 = false := by
    simp [pluginDestructor, freshPlugin, hu]
  simp [searchLoop, h1, hdup, hd]

/-- Registry state after admitting the first duplicate-named candidate. -/
def dupReg : Reg := [("x", freshPlugin dupCand1 (parseMetadata compatEq "1.0" (some dupTree)))]

/-- Witness for the amended claim C9 theorem at the concrete candidate. -/
theorem claim9_witness :
    (freshPlugin dupCand2 emptyInfo).libLoaded = true ∧
    ("/lib2", false) ∈ (searchLoop compatEq "1.0" [dupCand2] dupReg false).rejected :=
  claim9_duplicate_handle_released compatEq "1.0" dupCand2 [] dupReg false
    rfl rfl (by decide) rfl

/-! ## Unload lemmas (claims C6 and C10) -/

theorem eraseKey_sublist (m : Reg) (n : String) : List.Sublist (eraseKey m n) m := by
  induction m with
  | nil => simp [eraseKey]
  | cons e rest ih =>
    by_cases h : e.1 = n
    · simp only [eraseKey, if_pos h]
      exact List.sublist_cons_self e rest
    · simp only [eraseKey, if_neg h]
      exact ih.cons₂ e

theorem mem_of_mem_eraseKey {m : Reg} {n : String} {e : String × Plugin}
    (h : e ∈ eraseKey m n) : e ∈ m := (eraseKey_sublist m n).mem h

theorem regKeys_eraseKey_nodup {m : Reg} (n : String)
    (hnd : (regKeys m).Nodup) : (regKeys (eraseKey m n)).Nodup :=
  List.Nodup.sublist ((eraseKey_sublist m n).map Prod.fst) hnd

theorem key_ne_of_mem_eraseKey {m : Reg} {n : String} {e : String × Plugin}
    (hnd : (regKeys m).Nodup) (h : e ∈ eraseKey m n) : e.1 ≠ n := by
  induction m with
  | nil => simp [eraseKey] at h
  | cons e0 rest ih =>
    simp only [regKeys, List.map_cons, List.nodup_cons] at hnd
    by_cases h0 : e0.1 = n
    · simp only [eraseKey, if_pos h0] at h
      intro he
      apply hnd.1
      have hm : e.1 ∈ List.map Prod.fst rest := List.mem_map_of_mem Prod.fst h
      rw [he, ← h0] at hm
      exact hm
    · simp only [eraseKey, if_neg h0] at h
      rcases List.mem_cons.mp h with h1 | h1
      · rw [h1]; exact h0
      · exact ih hnd.2 h1

theorem lookupKey_eraseKey_ne (m : Reg) (n n' : String) (h : n' ≠ n) :
    lookupKey (eraseKey m n) n' = lookupKey m n' := by
  induction m with
  | nil => simp [eraseKey]
  | cons e rest ih =>
    by_cases h0 : e.1 = n
    · have h1 : ¬ e.1 = n' := by rw [h0]; exact fun he => h he.symm
      simp only [eraseKey, if_pos h0, lookupKey, if_neg h1]
    · by_cases h1 : e.1 = n'
      · simp [eraseKey, h0, lookupKey, h1, h]
      · simp [eraseKey, h0, lookupKey, h1, ih]

/-- Reverse-walk loop: totality and the exact notification sequence when
every walked name is registered with a live instance. -/
theorem unloadLoop_spec (names : List String) (m : Reg)
    (hndm : (regKeys m).Nodup) (hnd : names.Nodup)
    (hin : ∀ n ∈ names, ∃ p, lookupKey m n = some p ∧ p.hasInstance = true) :
    ∃ m2 ok des, unloadLoop m names = some (m2, names.map Event.aboutToBeUnloaded, ok, des) ∧
      ∀ e ∈ m2, e ∈ m ∧ e.1 ∉ names := by
  induction names generalizing m with
  | nil => exact ⟨m, true, [], rfl, fun e he => ⟨he, by simp⟩⟩
  | cons n rest ih =>
    obtain ⟨p, hp, hpi⟩ := hin n (by simp)
    simp only [List.nodup_cons] at hnd
    have hin' : ∀ n' ∈ rest, ∃ p', lookupKey (eraseKey m n) n' = some p' ∧
        p'.hasInstance = true := by
      intro n' hn'
      have hne : n' ≠ n := fun he => hnd.1 (he ▸ hn')
      rw [lookupKey_eraseKey_ne m n n' hne]
      exact hin n' (by simp [hn'])
    obtain ⟨m2, ok2, des2, heq, hsub⟩ :=
      ih (eraseKey m n) (regKeys_eraseKey_nodup n hndm) hnd.2 hin'
    have hu1 : (unloadPluginRec n p).2.1 = [Event.aboutToBeUnloaded n] := by
      simp [unloadPluginRec, hpi]
    have hd1 : (pluginDestructor n (unloadPluginRec n p).1).1 = [] := by
      simp only [unloadPluginRec, pluginDestructor]
      by_cases hb : (p.libLoaded && !p.libUnloadable) = true <;> simp [hb]
    refine ⟨m2, (unloadPluginRec n p).2.2 && ok2, (n, (pluginDestructor n
      (unloadPluginRec n p).1).2) :: des2, ?_, ?_⟩
    · simp only [unloadLoop, hp, heq, hu1, hd1]
      simp
    · intro e he
      obtain ⟨hm, hr⟩ := hsub e he
      exact ⟨mem_of_mem_eraseKey hm,
        by simp [key_ne_of_mem_eraseKey hndm hm, hr]⟩

/-- Reverse-walk loop, totality alone: it suffices that every walked name
is registered. -/
theorem unloadLoop_total (names : List String) (m : Reg)
    (hndm : (regKeys m).Nodup) (hnd : names.Nodup)
    (hin : ∀ n ∈ names, ∃ p, lookupKey m n = some p) :
    ∃ out, unloadLoop m names = some out := by
  induction names generalizing m with
  | nil => exact ⟨(m, [], true, []), rfl⟩
  | cons n rest ih =>
    obtain ⟨p, hp⟩ := hin n (by simp)
    simp only [List.nodup_cons] at hnd
    have hin' : ∀ n' ∈ rest, ∃ p', lookupKey (eraseKey m n) n' = some p' := by
      intro n' hn'
      have hne : n' ≠ n := fun he => hnd.1 (he ▸ hn')
      rw [lookupKey_eraseKey_ne m n n' hne]
      exact hin n' (by simp [hn'])
    obtain ⟨⟨m2, ev2, ok2, des2⟩, heq⟩ :=
      ih (eraseKey m n) (regKeys_eraseKey_nodup n hndm) hnd.2 hin'
    exact ⟨(m2, (unloadPluginRec n p).2.1 ++ (pluginDestructor n (unloadPluginRec n p).1).1 ++ ev2,
      (unloadPluginRec n p).2.2 && ok2, (n, (pluginDestructor n (unloadPluginRec n p).1).2) :: des2),
      by simp only [unloadLoop, hp, heq]⟩

/-- The drain emits no notification when no remaining record has a live
instance. -/
theorem drainLoop_no_events (m : Reg)
    (h : ∀ e ∈ m, e.2.hasInstance = false) : (drainLoop m).1 = [] := by
  induction m with
  | nil => rfl
  | cons e rest ih =>
    have he : e.2.hasInstance = false := h e (by simp)
    have hr : (drainLoop rest).1 = [] := ih (fun e' he' => h e' (by simp [he']))
    simp only [drainLoop, unloadPluginRec, pluginDestructor, he, hr]
    by_cases hb : (e.2.libLoaded && !e.2.libUnloadable) = true <;> simp [hb]

/-- Claim C6: from a state where the load-order names are exactly the
records with live instances (the state after a successful load pass),
`unloadPlugins` delivers `aboutToBeUnloaded` in exactly the reverse of the
load-order list, the drained never-loaded records produce no
notification, and — whatever the return code (`SUCCESS` or
`UNLOAD_NOT_ALL`) — the registry ends empty (so no library handle owned
by the manager remains loaded) and the locations list ends empty. -/
theorem claim6_unload_reverse_and_drain (st : PMState)
    (hndk : (regKeys st.pluginsMap).Nodup)
    (hndo : st.loadOrderList.Nodup)
    (hin : ∀ n ∈ st.loadOrderList,
      ∃ p, lookupKey st.pluginsMap n = some p ∧ p.hasInstance = true)
    (hrest : ∀ e ∈ st.pluginsMap, e.1 ∉ st.loadOrderList → e.2.hasInstance = false) :
    ∃ rc ev des,
      unloadPlugins st = some (rc, { st with pluginsMap := [], locations := [] }, ev, des) ∧
      (rc = RetCode.SUCCESS ∨ rc = RetCode.UNLOAD_NOT_ALL) ∧
      ev = st.loadOrderList.reverse.map Event.aboutToBeUnloaded ++
        (if rc = RetCode.SUCCESS then [] else [Event.cb RetCode.UNLOAD_NOT_ALL none]) := by
  have hndr : st.loadOrderList.reverse.Nodup := List.nodup_reverse.mpr hndo
  have hinr : ∀ n ∈ st.loadOrderList.reverse,
      ∃ p, lookupKey st.pluginsMap n = some p ∧ p.hasInstance = true := by
    intro n hn
    exact hin n (List.mem_reverse.mp hn)
  obtain ⟨m2, ok, des1, heq, hsub⟩ :=
    unloadLoop_spec st.loadOrderList.reverse st.pluginsMap hndk hndr hinr
  have hdr : (drainLoop m2).1 = [] := by
    apply drainLoop_no_events
    intro e he
    obtain ⟨hm, hnm⟩ := hsub e he
    exact hrest e hm (fun hc => hnm (List.mem_reverse.mpr hc))
  by_cases hok : (ok && (drainLoop m2).2.1) = true
  · refine ⟨RetCode.SUCCESS,
      st.loadOrderList.reverse.map Event.aboutToBeUnloaded ++ [],
      des1 ++ (drainLoop m2).2.2, ?_, Or.inl rfl, by simp⟩
    simp only [unloadPlugins, heq, hdr, hok]
    simp
  · refine ⟨RetCode.UNLOAD_NOT_ALL,
      st.loadOrderList.reverse.map Event.aboutToBeUnloaded ++
        [Event.cb RetCode.UNLOAD_NOT_ALL none],
      des1 ++ (drainLoop m2).2.2, ?_, Or.inr rfl, by simp⟩
    simp only [unloadPlugins, heq, hdr, hok]
    simp [hok]

/-- Concrete live record "A" for the claim C6 witness. -/
def u6PlugA : Plugin :=
  { libLoaded := true, libUnloadable := true, hasInstance := true,
    path := "/plugins/a", info := ⟨"A", "A", "1", "au", "u", "l", "c", []⟩,
    dependenciesExists := TriBool.TTrue, graphId := 0 }

/-- Concrete live record "B" for the claim C6 witness. -/
def u6PlugB : Plugin :=
  { libLoaded := true, libUnloadable := true, hasInstance := true,
    path := "/plugins/b", info := ⟨"B", "B", "1", "au", "u", "l", "c", []⟩,
    dependenciesExists := TriBool.TTrue, graphId := 1 }

/-- Concrete never-loaded record "C" for the claim C6 witness. -/
def u6PlugC : Plugin :=
  { libLoaded := true, libUnloadable := true, hasInstance := false,
    path := "/plugins/c", info := ⟨"C", "C", "1", "au", "u", "l", "c", []⟩,
    dependenciesExists := TriBool.TFalse, graphId := -1 }

/-- Loaded two-plugin state (load order `["B", "A"]`, plus a never-loaded
"C") for the claim C6 witness. -/
def u6State : PMState :=
  ⟨[("A", u6PlugA), ("B", u6PlugB), ("C", u6PlugC)], ["B", "A"], ["/dir"]⟩

/-- Witness for claim C6 at the concrete loaded state. -/
theorem claim6_witness :
    ∃ rc ev des,
      unloadPlugins u6State =
        some (rc, { u6State with pluginsMap := [], locations := [] }, ev, des) ∧
      (rc = RetCode.SUCCESS ∨ rc = RetCode.UNLOAD_NOT_ALL) ∧
      ev = u6State.loadOrderList.reverse.map Event.aboutToBeUnloaded ++
        (if rc = RetCode.SUCCESS then [] else [Event.cb RetCode.UNLOAD_NOT_ALL none]) := by
  apply claim6_unload_reverse_and_drain u6State (by decide) (by decide)
  · intro n hn
    simp only [u6State] at hn
    simp at hn
    rcases hn with rfl | rfl
    · exact ⟨u6PlugB, rfl, rfl⟩
    · exact ⟨u6PlugA, rfl, rfl⟩
  · intro e he hn
    simp only [u6State] at he hn
    simp at he hn
    rcases he with rfl | rfl | rfl
    · exact absurd rfl hn.2
    · exact absurd rfl hn.1
    · rfl

/-- Claim C10: `unloadPlugins` leaves the load-order list in place while
emptying the registry; a second call then walks the stale load-order
names, `pluginsMap[*it]` default-inserts a null record pointer for each
(the name is gone), and `unloadPlugin` dereferences it — undefined
behaviour, modelled as the `none` outcome. -/
theorem claim10_second_unload_undefined (st : PMState)
    (hndk : (regKeys st.pluginsMap).Nodup)
    (hndo : st.loadOrderList.Nodup)
    (hne : st.loadOrderList ≠ [])
    (hin : ∀ n ∈ st.loadOrderList, ∃ p, lookupKey st.pluginsMap n = some p) :
    ∃ rc ev des,
      unloadPlugins st = some (rc, { st with pluginsMap := [], locations := [] }, ev, des) ∧
      ({ st with pluginsMap := ([] : Reg), locations := ([] : List String) }).loadOrderList = st.loadOrderList ∧
      unloadPlugins { st with pluginsMap := [], locations := [] } = none := by
  have hndr : st.loadOrderList.reverse.Nodup := List.nodup_reverse.mpr hndo
  have hinr : ∀ n ∈ st.loadOrderList.reverse, ∃ p, lookupKey st.pluginsMap n = some p :=
    fun n hn => hin n (List.mem_reverse.mp hn)
  obtain ⟨⟨m2, ev1, ok1, des1⟩, heq⟩ :=
    unloadLoop_total st.loadOrderList.reverse st.pluginsMap hndk hndr hinr
  obtain ⟨a, l, hal⟩ : ∃ a l, st.loadOrderList.reverse = a :: l := by
    cases hrv : st.loadOrderList.reverse with
    | nil => exact absurd (List.reverse_eq_nil_iff.mp hrv) hne
    | cons a l => exact ⟨a, l, rfl⟩
  refine ⟨(if (ok1 && (drainLoop m2).2.1) = true then RetCode.SUCCESS
            else RetCode.UNLOAD_NOT_ALL),
    ev1 ++ (drainLoop m2).1 ++ (if (ok1 && (drainLoop m2).2.1) = true then []
      else [Event.cb RetCode.UNLOAD_NOT_ALL none]),
    des1 ++ (drainLoop m2).2.2, ?_, rfl, ?_⟩
  · simp only [unloadPlugins, heq]
  · have h2 : ({ st with pluginsMap := ([] : Reg), locations := ([] : List String) } : PMState).loadOrderList.reverse = a :: l := hal
    simp only [unloadPlugins, h2, unloadLoop, lookupKey]

/-- Concrete live record for the claim C10 witness. -/
def u10Plug : Plugin :=
  { libLoaded := true, libUnloadable := true, hasInstance := true,
    path := "/plugins/a", info := ⟨"A", "A", "1", "au", "u", "l", "c", []⟩,
    dependenciesExists := TriBool.TTrue, graphId := 0 }

/-- Loaded one-plugin state for the claim C10 witness. -/
def u10State : PMState := ⟨[("A", u10Plug)], ["A"], ["/dir"]⟩

/-- Witness for claim C10: unloading the concrete loaded state keeps the
stale load order, and a second unload hits the modelled undefined
behaviour. -/
theorem claim10_witness :
    ∃ rc ev des,
      unloadPlugins u10State =
        some (rc, { u10State with pluginsMap := [], locations := [] }, ev, des) ∧
      ({ u10State with pluginsMap := ([] : Reg), locations := ([] : List String) }).loadOrderList = u10State.loadOrderList ∧
      unloadPlugins { u10State with pluginsMap := [], locations := [] } = none := by
  apply claim10_second_unload_undefined u10State (by decide) (by decide) (by decide)
  intro n hn
  simp only [u10State] at hn
  simp at hn
  subst hn
  exact ⟨u10Plug, rfl⟩

/-! ## Load-pass lemmas: effects of the dependency checker on the registry -/

/-- Memo flag of a registered record. -/
def flagOf (m : Reg) (k : String) : Option TriBool :=
  (lookupKey m k).map Plugin.dependenciesExists

/-- Graph id of a registered record. -/
def gidOf (m : Reg) (k : String) : Option Int :=
  (lookupKey m k).map Plugin.graphId

/-- Instance presence of a registered record. -/
def instOf (m : Reg) (k : String) : Option Bool :=
  (lookupKey m k).map Plugin.hasInstance

theorem tripleEq {a a' : RetCode} {b b' : Reg} {c c' : List Event}
    (h : (a, b, c) = (a', b', c')) : a = a' ∧ b = b' ∧ c = c' := by
  simp only [Prod.mk.injEq] at h
  exact h

/-- Effect bound of one dependency-checker run: keys are unchanged, every
field but the memo flag is unchanged, and a memo flag already `yes` stays
`yes`. -/
def ChkPres (m m' : Reg) : Prop :=
  regKeys m' = regKeys m ∧
  (∀ k p, lookupKey m k = some p → ∃ p', lookupKey m' k = some p' ∧
    p'.path = p.path ∧ p'.info = p.info ∧ p'.graphId = p.graphId ∧
    p'.hasInstance = p.hasInstance ∧ p'.libLoaded = p.libLoaded ∧
    p'.libUnloadable = p.libUnloadable) ∧
  (∀ k, flagOf m k = some TriBool.TTrue → flagOf m' k = some TriBool.TTrue)

/-- Effect bound of the dependency loop of one record `key`: as `ChkPres`,
except that `key`'s own flag is unconstrained (the loop writes it). -/
def ChkPresL (key : String) (m m' : Reg) : Prop :=
  regKeys m' = regKeys m ∧
  (∀ k p, lookupKey m k = some p → ∃ p', lookupKey m' k = some p' ∧
    p'.path = p.path ∧ p'.info = p.info ∧ p'.graphId = p.graphId ∧
    p'.hasInstance = p.hasInstance ∧ p'.libLoaded = p.libLoaded ∧
    p'.libUnloadable = p.libUnloadable) ∧
  (∀ k, k ≠ key → flagOf m k = some TriBool.TTrue → flagOf m' k = some TriBool.TTrue)

theorem ChkPres.toL (key : String) {m m' : Reg} (h : ChkPres m m') :
    ChkPresL key m m' :=
  ⟨h.1, h.2.1, fun k _ => h.2.2 k⟩

theorem ChkPres.refl (m : Reg) : ChkPres m m :=
  ⟨Eq.refl _, fun _ p hp => ⟨p, hp, Eq.refl _, Eq.refl _, Eq.refl _, Eq.refl _,
    Eq.refl _, Eq.refl _⟩, fun _ h => h⟩

theorem ChkPres.trans {m1 m2 m3 : Reg} (h1 : ChkPres m1 m2) (h2 : ChkPres m2 m3) :
    ChkPres m1 m3 := by
  refine ⟨h2.1.trans h1.1, ?_, fun k hk => h2.2.2 k (h1.2.2 k hk)⟩
  intro k p hp
  obtain ⟨p2, hp2, e1, e2, e3, e4, e5, e6⟩ := h1.2.1 k p hp
  obtain ⟨p3, hp3, f1, f2, f3, f4, f5, f6⟩ := h2.2.1 k p2 hp2
  exact ⟨p3, hp3, f1.trans e1, f2.trans e2, f3.trans e3, f4.trans e4,
    f5.trans e5, f6.trans e6⟩

theorem ChkPresL.transPres {key : String} {m1 m2 m3 : Reg}
    (h1 : ChkPresL key m1 m2) (h2 : ChkPres m2 m3) : ChkPresL key m1 m3 := by
  refine ⟨h2.1.trans h1.1, ?_, fun k hk hf => h2.2.2 k (h1.2.2 k hk hf)⟩
  intro k p hp
  obtain ⟨p2, hp2, e1, e2, e3, e4, e5, e6⟩ := h1.2.1 k p hp
  obtain ⟨p3, hp3, f1, f2, f3, f4, f5, f6⟩ := h2.2.1 k p2 hp2
  exact ⟨p3, hp3, f1.trans e1, f2.trans e2, f3.trans e3, f4.trans e4,
    f5.trans e5, f6.trans e6⟩

theorem ChkPresL.transL {key : String} {m1 m2 m3 : Reg}
    (h1 : ChkPresL key m1 m2) (h2 : ChkPresL key m2 m3) : ChkPresL key m1 m3 := by
  refine ⟨h2.1.trans h1.1, ?_, fun k hk hf => h2.2.2 k hk (h1.2.2 k hk hf)⟩
  intro k p hp
  obtain ⟨p2, hp2, e1, e2, e3, e4, e5, e6⟩ := h1.2.1 k p hp
  obtain ⟨p3, hp3, f1, f2, f3, f4, f5, f6⟩ := h2.2.1 k p2 hp2
  exact ⟨p3, hp3, f1.trans e1, f2.trans e2, f3.trans e3, f4.trans e4,
    f5.trans e5, f6.trans e6⟩

theorem setFlag_presL (m : Reg) (key : String) (f : TriBool) :
    ChkPresL key m (setFlag m key f) := by
  refine ⟨regKeys_setFlag m key f, ?_, ?_⟩
  · intro k p hp
    rw [lookupKey_setFlag, hp]
    by_cases hk : k = key <;> simp [hk]
  · intro k hk hf
    simp only [flagOf] at hf ⊢
    rw [lookupKey_setFlag]
    cases hp : lookupKey m k with
    | none => rw [hp] at hf; simp at hf
    | some p =>
      rw [hp] at hf
      simp only [Option.map_some'] at hf ⊢
      rw [if_neg hk]
      exact hf

theorem setFlag_ttrue_pres (m : Reg) (key : String) :
    ChkPres m (setFlag m key TriBool.TTrue) := by
  refine ⟨regKeys_setFlag m key _, (setFlag_presL m key _).2.1, ?_⟩
  intro k hf
  simp only [flagOf] at hf ⊢
  rw [lookupKey_setFlag]
  cases hp : lookupKey m k with
  | none => rw [hp] at hf; simp at hf
  | some p =>
    rw [hp] at hf
    by_cases hk : k = key
    · simp [hk]
    · simp only [Option.map_some'] at hf ⊢
      rw [if_neg hk]
      exact hf

theorem chkPres_of_presL {key : String} {m m' : Reg}
    (hkey : flagOf m key ≠ some TriBool.TTrue) (h : ChkPresL key m m') :
    ChkPres m m' := by
  refine ⟨h.1, h.2.1, ?_⟩
  intro k hf
  by_cases hk : k = key
  · rw [hk] at hf; exact absurd hf hkey
  · exact h.2.2 k hk hf

/-- The dependency loop of record `key` only rewrites memo flags, and
never downgrades another record's `yes`. -/
theorem checkDepsLoop_pres (compat : String → String → Bool)
    (rec : Reg → String → Option (RetCode × Reg × List Event)) (key path : String)
    (hrec : ∀ m k rc m' ev, rec m k = some (rc, m', ev) → ChkPres m m') :
    ∀ ds m rc m' ev, checkDepsLoop compat rec key path ds m = some (rc, m', ev) →
      ChkPresL key m m' := by
  intro ds
  induction ds with
  | nil =>
    intro m rc m' ev h
    simp only [checkDepsLoop] at h
    obtain ⟨rfl, rfl, rfl⟩ := tripleEq (Option.some.inj h)
    exact setFlag_presL m key TriBool.TTrue
  | cons d rest ih =>
    intro m rc m' ev h
    simp only [checkDepsLoop] at h
    cases hq : lookupKey m d.name with
    | none =>
      simp only [hq] at h
      obtain ⟨rfl, rfl, rfl⟩ := tripleEq (Option.some.inj h)
      exact setFlag_presL m key TriBool.TFalse
    | some q =>
      simp only [hq] at h
      by_cases hc : compat q.info.version d.version = true
      · rw [if_pos hc] at h
        cases hr : rec m d.name with
        | none => simp [hr] at h
        | some out =>
          obtain ⟨rc1, m1, ev1⟩ := out
          simp only [hr] at h
          by_cases hrc : rc1 = RetCode.SUCCESS
          · rw [if_pos hrc] at h
            cases hl : checkDepsLoop compat rec key path rest m1 with
            | none => simp [hl] at h
            | some out2 =>
              obtain ⟨rc2, m2, ev2⟩ := out2
              simp only [hl] at h
              obtain ⟨rfl, rfl, rfl⟩ := tripleEq (Option.some.inj h)
              exact ((hrec m d.name rc1 m1 ev1 hr).toL key).transL
                (ih m1 rc2 m2 ev2 hl)
          · rw [if_neg hrc] at h
            obtain ⟨rfl, rfl, rfl⟩ := tripleEq (Option.some.inj h)
            exact (hrec m d.name rc1 m1 ev1 hr).toL key
      · rw [if_neg hc] at h
        obtain ⟨rfl, rfl, rfl⟩ := tripleEq (Option.some.inj h)
        exact setFlag_presL m key TriBool.TFalse

/-- One dependency-checker run only rewrites memo flags, and never
downgrades a `yes`. -/
theorem checkDependencies_pres (compat : String → String → Bool) :
    ∀ fuel m key rc m' ev,
      checkDependencies compat fuel m key = some (rc, m', ev) → ChkPres m m' := by
  intro fuel
  induction fuel with
  | zero => intro m key rc m' ev h; exact absurd h (by simp [checkDependencies])
  | succ n ih =>
    intro m key rc m' ev h
    simp only [checkDependencies] at h
    cases hp : lookupKey m key with
    | none => simp [hp] at h
    | some p =>
      simp only [hp] at h
      by_cases hf : p.dependenciesExists = TriBool.Indeterminate
      · rw [if_pos hf] at h
        have hkey : flagOf m key ≠ some TriBool.TTrue := by
          simp [flagOf, hp, hf]
        exact chkPres_of_presL hkey
          (checkDepsLoop_pres compat _ key p.path
            (fun m0 k0 rc0 m0' ev0 h0 => ih m0 k0 rc0 m0' ev0 h0)
            p.info.dependencies m rc m' ev h)
      · rw [if_neg hf] at h
        obtain ⟨rfl, rfl, rfl⟩ := tripleEq (Option.some.inj h)
        exact ChkPres.refl m

/-- Callback events are the only events the dependency loop emits. -/
theorem checkDepsLoop_events_cb (compat : String → String → Bool)
    (rec : Reg → String → Option (RetCode × Reg × List Event)) (key path : String)
    (hrec : ∀ m k rc m' ev, rec m k = some (rc, m', ev) →
      ∀ e ∈ ev, ∃ c d, e = Event.cb c d) :
    ∀ ds m rc m' ev, checkDepsLoop compat rec key path ds m = some (rc, m', ev) →
      ∀ e ∈ ev, ∃ c d, e = Event.cb c d := by
  intro ds
  induction ds with
  | nil =>
    intro m rc m' ev h
    simp only [checkDepsLoop] at h
    obtain ⟨rfl, rfl, rfl⟩ := tripleEq (Option.some.inj h)
    simp
  | cons d rest ih =>
    intro m rc m' ev h
    simp only [checkDepsLoop] at h
    cases hq : lookupKey m d.name with
    | none =>
      simp only [hq] at h
      obtain ⟨rfl, rfl, rfl⟩ := tripleEq (Option.some.inj h)
      simp
    | some q =>
      simp only [hq] at h
      by_cases hc : compat q.info.version d.version = true
      · rw [if_pos hc] at h
        cases hr : rec m d.name with
        | none => simp [hr] at h
        | some out =>
          obtain ⟨rc1, m1, ev1⟩ := out
          simp only [hr] at h
          by_cases hrc : rc1 = RetCode.SUCCESS
          · rw [if_pos hrc] at h
            cases hl : checkDepsLoop compat rec key path rest m1 with
            | none => simp [hl] at h
            | some out2 =>
              obtain ⟨rc2, m2, ev2⟩ := out2
              simp only [hl] at h
              obtain ⟨rfl, rfl, rfl⟩ := tripleEq (Option.some.inj h)
              intro e he
              rcases List.mem_append.mp he with he | he
              · exact hrec m d.name rc1 m1 ev1 hr e he
              · exact ih m1 rc2 m2 ev2 hl e he
          · rw [if_neg hrc] at h
            obtain ⟨rfl, rfl, rfl⟩ := tripleEq (Option.some.inj h)
            exact hrec m d.name rc1 m1 ev1 hr
      · rw [if_neg hc] at h
        obtain ⟨rfl, rfl, rfl⟩ := tripleEq (Option.some.inj h)
        simp

/-- Callback events are the only events one dependency-checker run
emits. -/
theorem checkDependencies_events_cb (compat : String → String → Bool) :
    ∀ fuel m key rc m' ev,
      checkDependencies compat fuel m key = some (rc, m', ev) →
      ∀ e ∈ ev, ∃ c d, e = Event.cb c d := by
  intro fuel
  induction fuel with
  | zero => intro m key rc m' ev h; exact absurd h (by simp [checkDependencies])
  | succ n ih =>
    intro m key rc m' ev h
    simp only [checkDependencies] at h
    cases hp : lookupKey m key with
    | none => simp [hp] at h
    | some p =>
      simp only [hp] at h
      by_cases hf : p.dependenciesExists = TriBool.Indeterminate
      · rw [if_pos hf] at h
        exact checkDepsLoop_events_cb compat _ key p.path
          (fun m0 k0 rc0 m0' ev0 h0 => ih m0 k0 rc0 m0' ev0 h0)
          p.info.dependencies m rc m' ev h
      · rw [if_neg hf] at h
        obtain ⟨rfl, rfl, rfl⟩ := tripleEq (Option.some.inj h)
        simp

/-! ## Phase-1 characterization (load pass, first step) -/

theorem lookupKey_mem {m : Reg} {k : String} (h : k ∈ regKeys m) :
    ∃ p, lookupKey m k = some p := by
  have := (lookupKey_isSome_iff m k).mpr h
  cases hx : lookupKey m k with
  | none => rw [hx] at this; simp at this
  | some p => exact ⟨p, rfl⟩

theorem flagOf_setGraphId (m : Reg) (k k' : String) (g : Int) :
    flagOf (setGraphId m k g) k' = flagOf m k' := by
  simp only [flagOf, lookupKey_setGraphId]
  cases lookupKey m k' with
  | none => simp
  | some p => by_cases hk : k' = k <;> simp [hk]

theorem instOf_setGraphId (m : Reg) (k k' : String) (g : Int) :
    instOf (setGraphId m k g) k' = instOf m k' := by
  simp only [instOf, lookupKey_setGraphId]
  cases lookupKey m k' with
  | none => simp
  | some p => by_cases hk : k' = k <;> simp [hk]

theorem gidOf_setGraphId_self {m : Reg} {k : String} (g : Int)
    (h : k ∈ regKeys m) : gidOf (setGraphId m k g) k = some g := by
  obtain ⟨p, hp⟩ := lookupKey_mem h
  simp [gidOf, lookupKey_setGraphId, hp]

theorem gidOf_setGraphId_ne (m : Reg) {k k' : String} (g : Int) (h : k' ≠ k) :
    gidOf (setGraphId m k g) k' = gidOf m k' := by
  simp only [gidOf, lookupKey_setGraphId]
  cases lookupKey m k' with
  | none => simp
  | some p => simp [h]

theorem ChkPres.gid {m m' : Reg} (h : ChkPres m m') (k : String) :
    gidOf m' k = gidOf m k := by
  simp only [gidOf]
  cases hp : lookupKey m k with
  | none =>
    have : lookupKey m' k = none := by
      rw [lookupKey_eq_none_iff, h.1]
      rw [lookupKey_eq_none_iff] at hp
      exact hp
    simp [this]
  | some p =>
    obtain ⟨p', hp', _, _, e3, _, _, _⟩ := h.2.1 k p hp
    simp [hp', e3]

theorem ChkPres.inst {m m' : Reg} (h : ChkPres m m') (k : String) :
    instOf m' k = instOf m k := by
  simp only [instOf]
  cases hp : lookupKey m k with
  | none =>
    have : lookupKey m' k = none := by
      rw [lookupKey_eq_none_iff, h.1]
      rw [lookupKey_eq_none_iff] at hp
      exact hp
    simp [this]
  | some p =>
    obtain ⟨p', hp', _, _, _, e4, _, _⟩ := h.2.1 k p hp
    simp [hp', e4]

theorem setGraphId_fields (m : Reg) (kg : String) (g : Int) :
    ∀ k p, lookupKey m k = some p → ∃ p', lookupKey (setGraphId m kg g) k = some p' ∧
      p'.path = p.path ∧ p'.info = p.info ∧ p'.hasInstance = p.hasInstance ∧
      p'.libLoaded = p.libLoaded ∧ p'.libUnloadable = p.libUnloadable ∧
      p'.dependenciesExists = p.dependenciesExists := by
  intro k p hp
  rw [lookupKey_setGraphId, hp]
  by_cases hk : k = kg <;> simp [hk]

/-- Characterization of the first step of the load pass under
`tryToContinue = true`: structural effects on the registry, the appended
node list, the per-eligible-record node/graph-id assignment, and the
emitted events. -/
theorem loadPhase1_inl (compat : String → String → Bool) (fuel : Nat) :
    ∀ ks m nodes evs m' nodes' evs',
      loadPhase1 compat fuel true ks m nodes evs = some (Sum.inl (m', nodes', evs')) →
      (regKeys m).Nodup →
      ks.Nodup →
      (∀ k ∈ ks, k ∈ regKeys m) →
      (∀ k ∈ ks, ∀ nd ∈ nodes, nd.name ≠ k) →
      (nodes.map Node.name).Nodup →
      (regKeys m' = regKeys m) ∧
      (∀ k, flagOf m k = some TriBool.TTrue → flagOf m' k = some TriBool.TTrue) ∧
      (∀ k p, lookupKey m k = some p → ∃ p', lookupKey m' k = some p' ∧
        p'.path = p.path ∧ p'.info = p.info ∧ p'.hasInstance = p.hasInstance ∧
        p'.libLoaded = p.libLoaded ∧ p'.libUnloadable = p.libUnloadable) ∧
      (∀ k, k ∉ ks → gidOf m' k = gidOf m k) ∧
      (∃ tail, nodes' = nodes ++ tail ∧ ∀ nd ∈ tail, nd.parentNodes = [] ∧ nd.name ∈ ks) ∧
      ((nodes'.map Node.name).Nodup) ∧
      (∀ k ∈ ks, flagOf m k = some TriBool.TTrue →
        ∃ i : Nat, nodes'.get? i = some ⟨k, []⟩ ∧ gidOf m' k = some (Int.ofNat i)) ∧
      (∀ k p', k ∈ ks → lookupKey m' k = some p' → p'.graphId ≠ -1 →
        ∃ i : Nat, p'.graphId = Int.ofNat i ∧ nodes'.get? i = some ⟨k, []⟩) ∧
      (∃ tailEv, evs' = evs ++ tailEv ∧ ∀ e ∈ tailEv, ∃ c d, e = Event.cb c d) := by
  intro ks
  induction ks with
  | nil =>
    intro m nodes evs m' nodes' evs' h hndm hndks hmem hfresh hndn
    simp only [loadPhase1, Option.some.injEq, Sum.inl.injEq] at h
    obtain ⟨rfl, rfl, rfl⟩ := (by
      simp only [Prod.mk.injEq] at h
      exact h : m = m' ∧ nodes = nodes' ∧ evs = evs')
    refine ⟨rfl, fun k hf => hf, fun k p hp => ⟨p, hp, rfl, rfl, rfl, rfl, rfl⟩,
      fun k _ => rfl, ⟨[], by simp, by simp⟩, hndn, by simp, by simp, ⟨[], by simp, by simp⟩⟩
  | cons k0 ks' ih =>
    intro m nodes evs m' nodes' evs' h hndm hndks hmem hfresh hndn
    simp only [loadPhase1] at h
    cases hchk : checkDependencies compat fuel (setGraphId m k0 (-1)) k0 with
    | none => simp [hchk] at h
    | some out =>
      obtain ⟨rc, m1, ev1⟩ := out
      simp only [hchk] at h
      rw [if_neg (by simp)] at h
      cases hlk : lookupKey m1 k0 with
      | none => simp [hlk] at h
      | some p =>
        simp only [hlk] at h
        have hpres := checkDependencies_pres compat fuel _ k0 rc m1 ev1 hchk
        have hkeys1 : regKeys m1 = regKeys m := by
          rw [hpres.1, regKeys_setGraphId]
        have hflagm1 : ∀ k, flagOf m k = some TriBool.TTrue →
            flagOf m1 k = some TriBool.TTrue := by
          intro k hf
          apply hpres.2.2
          rw [flagOf_setGraphId]
          exact hf
        have hfieldsm1 : ∀ k p0, lookupKey m k = some p0 → ∃ p1, lookupKey m1 k = some p1 ∧
            p1.path = p0.path ∧ p1.info = p0.info ∧ p1.hasInstance = p0.hasInstance ∧
            p1.libLoaded = p0.libLoaded ∧ p1.libUnloadable = p0.libUnloadable := by
          intro k p0 hp0
          obtain ⟨pa, hpa, a1, a2, a3, a4, a5, _⟩ := setGraphId_fields m k0 (-1) k p0 hp0
          obtain ⟨pb, hpb, b1, b2, b3, b4, b5, b6⟩ := hpres.2.1 k pa hpa
          exact ⟨pb, hpb, b1.trans a1, b2.trans a2, b4.trans a3, b5.trans a4, b6.trans a5⟩
        have hgid1 : ∀ k, k ≠ k0 → gidOf m1 k = gidOf m k := by
          intro k hk
          rw [hpres.gid, gidOf_setGraphId_ne m (-1) hk]
        have hndm1 : (regKeys m1).Nodup := by rw [hkeys1]; exact hndm
        have hmem1 : ∀ k ∈ ks', k ∈ regKeys m1 := by
          intro k hk; rw [hkeys1]; exact hmem k (by simp [hk])
        have hndks' : ks'.Nodup := (List.nodup_cons.mp hndks).2
        have hk0ks' : k0 ∉ ks' := (List.nodup_cons.mp hndks).1
        have hev1cb : ∀ e ∈ ev1, ∃ c d, e = Event.cb c d :=
          checkDependencies_events_cb compat fuel _ k0 rc m1 ev1 hchk
        by_cases hfl : p.dependenciesExists = TriBool.TTrue
        · rw [if_pos hfl] at h
          have hm2keys : regKeys (setGraphId m1 k0 (Int.ofNat nodes.length)) = regKeys m := by
            rw [regKeys_setGraphId]; exact hkeys1
          have ihout := ih (setGraphId m1 k0 (Int.ofNat nodes.length))
            (nodes ++ [⟨k0, []⟩]) (evs ++ ev1) m' nodes' evs' h
            (by rw [hm2keys]; exact hndm) hndks'
            (fun k hk => by rw [hm2keys]; exact hmem k (by simp [hk]))
            (by
              intro k hk nd hnd
              rcases List.mem_append.mp hnd with hnd | hnd
              · exact hfresh k (by simp [hk]) nd hnd
              · have hnd2 : nd = ⟨k0, []⟩ := by simpa using hnd
                rw [hnd2]
                intro hc
                simp only [] at hc
                exact hk0ks' (by rw [hc]; exact hk))
            (by
              simp only [List.map_append, List.map_cons, List.map_nil]
              rw [List.nodup_append]
              refine ⟨hndn, List.nodup_singleton _, ?_⟩
              intro x hx hx'
              obtain ⟨nd, hnd, hndname⟩ := List.mem_map.mp hx
              have hxk : x = k0 := by simpa using hx'
              exact hfresh k0 (by simp) nd hnd (hndname.trans hxk))
          obtain ⟨g1, g2, g3, g4, ⟨tail2, htail2, htail2p⟩, g6, g7, g8, ⟨tev2, htev2, htev2cb⟩⟩ := ihout
          refine ⟨?_, ?_, ?_, ?_, ?_, ?_, ?_, ?_, ?_⟩
          · rw [g1, hm2keys]
          · intro k hf
            apply g2
            rw [flagOf_setGraphId]
            exact hflagm1 k hf
          · intro k pq hpq
            obtain ⟨p1, hp1, a1, a2, a3, a4, a5⟩ := hfieldsm1 k pq hpq
            obtain ⟨p2, hp2, b1, b2, b3, b4, b5, _⟩ :=
              setGraphId_fields m1 k0 (Int.ofNat nodes.length) k p1 hp1
            obtain ⟨p3, hp3, c1, c2, c3, c4, c5⟩ := g3 k p2 hp2
            exact ⟨p3, hp3, (c1.trans b1).trans a1, (c2.trans b2).trans a2,
              (c3.trans b3).trans a3, (c4.trans b4).trans a4, (c5.trans b5).trans a5⟩
          · intro k hk
            have hk0 : k ≠ k0 := fun hc => hk (by simp [hc])
            have hks' : k ∉ ks' := fun hc => hk (by simp [hc])
            rw [g4 k hks', gidOf_setGraphId_ne m1 _ hk0, hgid1 k hk0]
          · refine ⟨⟨k0, []⟩ :: tail2, by rw [htail2]; simp, ?_⟩
            intro nd hnd
            rcases List.mem_cons.mp hnd with hnd | hnd
            · rw [hnd]; exact ⟨rfl, by simp⟩
            · obtain ⟨hp1, hp2⟩ := htail2p nd hnd
              exact ⟨hp1, by simp [hp2]⟩
          · exact g6
          · intro k hk hf
            rcases List.mem_cons.mp hk with rfl | hk
            · refine ⟨nodes.length, ?_, ?_⟩
              · have hsplit : nodes' = nodes ++ (⟨k, []⟩ :: tail2) := by
                  rw [htail2]; simp
                rw [hsplit, List.get?_append_right (le_refl nodes.length)]
                simp
              · rw [g4 k hk0ks', gidOf_setGraphId_self _ (by rw [hkeys1]; exact hmem k (by simp))]
            · apply g7 k hk
              rw [flagOf_setGraphId]
              exact hflagm1 k hf
          · intro k p' hk hp' hgne
            rcases List.mem_cons.mp hk with rfl | hk
            · have : gidOf m' k = some (Int.ofNat nodes.length) := by
                rw [g4 k hk0ks', gidOf_setGraphId_self _ (by rw [hkeys1]; exact hmem k (by simp))]
              have hpg : p'.graphId = Int.ofNat nodes.length := by
                simp only [gidOf, hp'] at this
                simpa using this
              refine ⟨nodes.length, hpg, ?_⟩
              have hsplit : nodes' = nodes ++ (⟨k, []⟩ :: tail2) := by
                rw [htail2]; simp
              rw [hsplit, List.get?_append_right (le_refl nodes.length)]
              simp
            · exact g8 k p' hk hp' hgne
          · refine ⟨ev1 ++ tev2, by rw [htev2]; simp, ?_⟩
            intro e he
            rcases List.mem_append.mp he with he | he
            · exact hev1cb e he
            · exact htev2cb e he
        · rw [if_neg hfl] at h
          have ihout := ih m1 nodes (evs ++ ev1) m' nodes' evs' h
            hndm1 hndks' hmem1
            (fun k hk nd hnd => hfresh k (by simp [hk]) nd hnd) hndn
          obtain ⟨g1, g2, g3, g4, ⟨tail2, htail2, htail2p⟩, g6, g7, g8, ⟨tev2, htev2, htev2cb⟩⟩ := ihout
          have hflagk0 : flagOf m k0 ≠ some TriBool.TTrue := by
            intro hf
            have h1 := hflagm1 k0 hf
            simp only [flagOf, hlk] at h1
            simp at h1
            exact hfl h1
          refine ⟨?_, ?_, ?_, ?_, ?_, g6, ?_, ?_, ?_⟩
          · rw [g1, hkeys1]
          · intro k hf
            exact g2 k (hflagm1 k hf)
          · intro k pq hpq
            obtain ⟨p1, hp1, a1, a2, a3, a4, a5⟩ := hfieldsm1 k pq hpq
            obtain ⟨p3, hp3, c1, c2, c3, c4, c5⟩ := g3 k p1 hp1
            exact ⟨p3, hp3, c1.trans a1, c2.trans a2, c3.trans a3, c4.trans a4, c5.trans a5⟩
          · intro k hk
            have hk0 : k ≠ k0 := fun hc => hk (by simp [hc])
            have hks' : k ∉ ks' := fun hc => hk (by simp [hc])
            rw [g4 k hks', hgid1 k hk0]
          · refine ⟨tail2, htail2, ?_⟩
            intro nd hnd
            obtain ⟨hp1, hp2⟩ := htail2p nd hnd
            exact ⟨hp1, by simp [hp2]⟩
          · intro k hk hf
            rcases List.mem_cons.mp hk with rfl | hk
            · exact absurd hf hflagk0
            · exact g7 k hk (hflagm1 k hf)
          · intro k p' hk hp' hgne
            rcases List.mem_cons.mp hk with rfl | hk
            · exfalso
              apply hgne
              have hgm1 : gidOf m1 k = some (-1) := by
                rw [hpres.gid, gidOf_setGraphId_self _ (hmem k (by simp))]
              have : gidOf m' k = some (-1) := by rw [g4 k hk0ks', hgm1]
              simp only [gidOf, hp'] at this
              simpa using this
            · exact g8 k p' hk hp' hgne
          · refine ⟨ev1 ++ tev2, by rw [htev2]; simp, ?_⟩
            intro e he
            rcases List.mem_append.mp he with he | he
            · exact hev1cb e he
            · exact htev2cb e he

/-! ## Phase-2 characterization (load pass, edge building) -/

theorem nodeGet_set_self (nodes : List Node) (i : Nat) (a : Node)
    (h : i < nodes.length) : (nodes.set i a).get? i = some a := by
  rw [List.get?_eq_getElem?]
  exact List.getElem?_set_eq_of_lt a h

theorem nodeGet_set_ne (nodes : List Node) {i j : Nat} (a : Node)
    (h : i ≠ j) : (nodes.set i a).get? j = nodes.get? j :=
  List.get?_set_ne a nodes h

/-- Membership in the dependency graph-id list. -/
theorem depGraphIds_mem (m : Reg) :
    ∀ ds ids, depGraphIds m ds = some ids →
      ∀ d ∈ ds, ∃ q, lookupKey m d.name = some q ∧ q.graphId ∈ ids := by
  intro ds
  induction ds with
  | nil => intro ids _ d hd; simp at hd
  | cons d0 rest ih =>
    intro ids h d hd
    simp only [depGraphIds] at h
    cases hq : lookupKey m d0.name with
    | none => simp [hq] at h
    | some q =>
      simp only [hq] at h
      cases hr : depGraphIds m rest with
      | none => simp [hr] at h
      | some ids0 =>
        simp only [hr, Option.map_some'] at h
        obtain rfl := Option.some.inj h
        rcases List.mem_cons.mp hd with rfl | hd
        · exact ⟨q, hq, by simp⟩
        · obtain ⟨q', hq', hmem⟩ := ih ids0 hr d hd
          exact ⟨q', hq', by simp [hmem]⟩

/-- Characterization of the second step of the load pass: node names are
unchanged positionally, nodes of unprocessed names are untouched, and
every processed record's node receives exactly the graph ids of its
dependencies as parents. -/
theorem loadPhase2_spec (m : Reg) :
    ∀ ks nodes nodes'',
      loadPhase2 m ks nodes = some nodes'' →
      ks.Nodup →
      (∀ k p, k ∈ ks → lookupKey m k = some p → p.graphId ≠ -1 →
        ∃ i : Nat, p.graphId = Int.ofNat i ∧ nodes.get? i = some ⟨k, []⟩) →
      (∀ i, ((nodes''.get? i).map Node.name) = ((nodes.get? i).map Node.name)) ∧
      (∀ i nd, nodes.get? i = some nd → (∀ k ∈ ks, nd.name ≠ k) →
        nodes''.get? i = some nd) ∧
      (∀ k p, k ∈ ks → lookupKey m k = some p → p.graphId ≠ -1 →
        ∃ i ids, p.graphId = Int.ofNat i ∧
          depGraphIds m p.info.dependencies = some ids ∧
          nodes''.get? i = some ⟨k, ids⟩) := by
  intro ks
  induction ks with
  | nil =>
    intro nodes nodes'' h _ _
    simp only [loadPhase2] at h
    obtain rfl := Option.some.inj h
    exact ⟨fun i => rfl, fun i nd hnd _ => hnd, fun k p hk => by simp at hk⟩
  | cons k1 ks' ih =>
    intro nodes nodes'' h hnd hback
    simp only [loadPhase2] at h
    have hk1ks' : k1 ∉ ks' := (List.nodup_cons.mp hnd).1
    have hnd' : ks'.Nodup := (List.nodup_cons.mp hnd).2
    cases hlk : lookupKey m k1 with
    | none => simp [hlk] at h
    | some p =>
      simp only [hlk] at h
      by_cases hg : p.graphId = -1
      · rw [if_pos hg] at h
        have ihout := ih nodes nodes'' h hnd'
          (fun k p' hk hp' hg' => hback k p' (by simp [hk]) hp' hg')
        refine ⟨ihout.1, ?_, ?_⟩
        · intro i nd hnd0 hfr
          exact ihout.2.1 i nd hnd0 (fun k hk => hfr k (by simp [hk]))
        · intro k p' hk hp' hg'
          rcases List.mem_cons.mp hk with rfl | hk
          · rw [hp'] at hlk
            obtain rfl := Option.some.inj hlk
            exact absurd hg hg'
          · exact ihout.2.2 k p' hk hp' hg'
      · rw [if_neg hg] at h
        cases hdg : depGraphIds m p.info.dependencies with
        | none => simp [hdg] at h
        | some ps =>
          simp only [hdg] at h
          obtain ⟨i1, hi1, hni1⟩ := hback k1 p (by simp) hlk hg
          have htn : p.graphId.toNat = i1 := by rw [hi1]; rfl
          cases hget : nodes.get? p.graphId.toNat with
          | none =>
            rw [htn] at hget
            rw [hni1] at hget
            simp at hget
          | some nd =>
            simp only [hget] at h
            have hnd1 : nd = ⟨k1, []⟩ := by
              rw [htn] at hget
              rw [hget] at hni1
              exact Option.some.inj hni1
            have hi1lt : i1 < nodes.length := by
              have h2 := hni1
              rw [List.get?_eq_some] at h2
              obtain ⟨hlt, _⟩ := h2
              exact hlt
            have hnodes1 : nodes.set p.graphId.toNat ⟨nd.name, nd.parentNodes ++ ps⟩ =
                nodes.set i1 ⟨k1, ps⟩ := by
              rw [htn, hnd1]
              rfl
            rw [hnodes1] at h
            have hback' : ∀ k p', k ∈ ks' → lookupKey m k = some p' → p'.graphId ≠ -1 →
                ∃ i : Nat, p'.graphId = Int.ofNat i ∧
                  (nodes.set i1 ⟨k1, ps⟩).get? i = some ⟨k, []⟩ := by
              intro k p' hk hp' hg'
              obtain ⟨i', hi', hni'⟩ := hback k p' (by simp [hk]) hp' hg'
              refine ⟨i', hi', ?_⟩
              have hne : i1 ≠ i' := by
                intro hc
                rw [← hc] at hni'
                rw [hni1] at hni'
                have : k1 = k := by
                  have := Option.some.inj hni'
                  exact congrArg Node.name this
                exact hk1ks' (this ▸ hk)
              rw [nodeGet_set_ne nodes _ hne]
              exact hni'
            have ihout := ih (nodes.set i1 ⟨k1, ps⟩) nodes'' h hnd' hback'
            refine ⟨?_, ?_, ?_⟩
            · intro i
              rw [ihout.1 i]
              by_cases hii : i1 = i
              · rw [← hii, nodeGet_set_self nodes i1 _ hi1lt, hni1]
                rfl
              · rw [nodeGet_set_ne nodes _ hii]
            · intro i nd0 hnd0 hfr
              have hne : i1 ≠ i := by
                intro hc
                rw [← hc, hni1] at hnd0
                obtain rfl := Option.some.inj hnd0
                exact hfr k1 (by simp) rfl
              apply ihout.2.1
              · rw [nodeGet_set_ne nodes _ hne]
                exact hnd0
              · intro k hk
                exact hfr k (by simp [hk])
            · intro k p' hk hp' hg'
              rcases List.mem_cons.mp hk with rfl | hk
              · rw [hp'] at hlk
                obtain rfl := Option.some.inj hlk
                refine ⟨i1, ps, hi1, hdg, ?_⟩
                apply ihout.2.1
                · exact nodeGet_set_self nodes i1 _ hi1lt
                · intro k' hk'
                  simp only []
                  intro hc
                  exact hk1ks' (hc ▸ hk')
              · exact ihout.2.2 k p' hk hp' hg'

/-! ## Topological-sort lemmas -/

/-- Invariant of the emission loop: emitted ids are distinct in-range
indices, and each emitted node's parents were all emitted earlier. -/
def ValidEmit (nodes : List Node) (emitted : List Int) : Prop :=
  emitted.Nodup ∧
  (∀ x ∈ emitted, ∃ j : Nat, x = Int.ofNat j ∧ j < nodes.length) ∧
  (∀ pos x, emitted.get? pos = some x →
    ∀ p ∈ nodeParents nodes x.toNat, p ∈ emitted.take pos)

theorem pickNext_facts {nodes : List Node} {emitted : List Int} {i : Nat}
    (h : pickNext nodes emitted = some i) :
    i < nodes.length ∧ Int.ofNat i ∉ emitted ∧
      ∀ p ∈ nodeParents nodes i, p ∈ emitted := by
  have hmem := List.mem_of_find?_eq_some h
  have hpred := List.find?_some h
  simp only [Bool.and_eq_true, Bool.not_eq_true', decide_eq_false_iff_not,
    List.all_eq_true, decide_eq_true_eq] at hpred
  exact ⟨List.mem_range.mp hmem, hpred.1, hpred.2⟩

theorem validEmit_step {nodes : List Node} {emitted : List Int} {i : Nat}
    (hv : ValidEmit nodes emitted) (h : pickNext nodes emitted = some i) :
    ValidEmit nodes (emitted ++ [Int.ofNat i]) := by
  obtain ⟨hrange, hnin, hpar⟩ := pickNext_facts h
  refine ⟨?_, ?_, ?_⟩
  · rw [List.nodup_append]
    exact ⟨hv.1, List.nodup_singleton _, fun x hx hx' => hnin (by
      have : x = Int.ofNat i := by simpa using hx'
      rw [← this]; exact hx)⟩
  · intro x hx
    rcases List.mem_append.mp hx with hx | hx
    · exact hv.2.1 x hx
    · have : x = Int.ofNat i := by simpa using hx
      exact ⟨i, this, hrange⟩
  · intro pos x hpos p hp
    by_cases hlt : pos < emitted.length
    · have hpos' : emitted.get? pos = some x := by
        rw [List.get?_append hlt] at hpos
        exact hpos
      have := hv.2.2 pos x hpos' p hp
      have htake : (emitted ++ [Int.ofNat i]).take pos = emitted.take pos := by
        rw [List.take_append_of_le_length (le_of_lt hlt)]
      rw [htake]
      exact this
    · have hpos2 : pos = emitted.length := by
        by_contra hne
        have : emitted.length < pos := lt_of_le_of_ne (le_of_not_lt hlt) (fun hc => hne hc.symm)
        have h0 : (emitted ++ [Int.ofNat i]).get? pos = none := by
          rw [List.get?_eq_none]
          simp only [List.length_append, List.length_singleton]
          omega
        rw [h0] at hpos
        exact Option.noConfusion hpos
      subst hpos2
      have hx : x = Int.ofNat i := by
        rw [List.get?_append_right (le_refl _)] at hpos
        simp at hpos
        exact hpos.symm
      subst hx
      have htake : (emitted ++ [Int.ofNat i]).take emitted.length = emitted := by
        rw [List.take_append_of_le_length (le_refl _)]
        simp
      rw [htake]
      apply hpar
      simpa using hp

theorem sortLoop_valid (nodes : List Node) :
    ∀ fuel emitted, ValidEmit nodes emitted →
      ValidEmit nodes (sortLoop nodes fuel emitted) := by
  intro fuel
  induction fuel with
  | zero => intro emitted hv; exact hv
  | succ n ih =>
    intro emitted hv
    simp only [sortLoop]
    cases hp : pickNext nodes emitted with
    | none => exact hv
    | some i => exact ih _ (validEmit_step hv hp)

theorem validEmit_nil (nodes : List Node) : ValidEmit nodes [] :=
  ⟨List.nodup_nil, by simp, by simp⟩

/-- Soundness of the modelled topological sort: on success, every parent
(dependency) node's name appears strictly before its child's name. -/
theorem topologicalSort_sound {nodes : List Node} {order : List String}
    (h : topologicalSort nodes = (order, false)) :
    ∀ iA iB ndA ndB, nodes.get? iA = some ndA → nodes.get? iB = some ndB →
      Int.ofNat iB ∈ ndA.parentNodes →
      ∃ pb pa, pb < pa ∧ order.get? pb = some ndB.name ∧
        order.get? pa = some ndA.name := by
  intro iA iB ndA ndB hA hB hPar
  have hv := sortLoop_valid nodes nodes.length [] (validEmit_nil nodes)
  simp only [topologicalSort] at h
  by_cases hlen : (sortLoop nodes nodes.length []).length = nodes.length
  · rw [if_pos hlen] at h
    obtain ⟨horder, _⟩ := Prod.mk.injEq .. ▸ h
    set ids := sortLoop nodes nodes.length [] with hids
    have hiA : iA < nodes.length := (List.get?_eq_some.mp hA).1
    have hiB : iB < nodes.length := (List.get?_eq_some.mp hB).1
    have hsub : ids ⊆ (List.range nodes.length).map Int.ofNat := by
      intro x hx
      obtain ⟨j, hj1, hj2⟩ := hv.2.1 x hx
      rw [hj1]
      exact List.mem_map_of_mem _ (List.mem_range.mpr hj2)
    have hperm : ids.Perm ((List.range nodes.length).map Int.ofNat) := by
      apply List.Subperm.perm_of_length_le (List.subperm_of_subset hv.1 hsub)
      simp [hlen]
    have hmemA : Int.ofNat iA ∈ ids := by
      rw [hperm.mem_iff]
      exact List.mem_map_of_mem _ (List.mem_range.mpr hiA)
    obtain ⟨pa, hpa⟩ := List.get?_of_mem hmemA
    have hparents : ∀ p ∈ nodeParents nodes iA, p ∈ ids.take pa := by
      intro p hp
      have := hv.2.2 pa (Int.ofNat iA) hpa
      simp only [Int.toNat_ofNat] at this
      exact this p hp
    have hBtake : Int.ofNat iB ∈ ids.take pa := by
      apply hparents
      simp only [nodeParents, hA]
      simpa using hPar
    obtain ⟨pb, hpb⟩ := List.get?_of_mem hBtake
    have hpblt : pb < pa := by
      have h1 : pb < (ids.take pa).length := (List.get?_eq_some.mp hpb).1
      have h2 : (ids.take pa).length ≤ pa := by
        rw [List.length_take]
        exact min_le_left _ _
      omega
    have hpb2 : ids.get? pb = some (Int.ofNat iB) := by
      rw [← List.get?_take hpblt]
      exact hpb
    have hA2 : nodes[iA]? = some ndA := by rw [← List.get?_eq_getElem?]; exact hA
    have hB2 : nodes[iB]? = some ndB := by rw [← List.get?_eq_getElem?]; exact hB
    refine ⟨pb, pa, hpblt, ?_, ?_⟩
    · rw [← horder, List.get?_map, hpb2]
      simp [hB2]
    · rw [← horder, List.get?_map, hpa]
      simp [hA2]
  · rw [if_neg hlen] at h
    obtain ⟨_, hfalse⟩ := Prod.mk.injEq .. ▸ h
    exact absurd hfalse.symm (by simp)

/-- Cycle detection of the modelled topological sort: a nonempty set of
node indices, each of which has a parent in the set, makes the sort
report an error and emit the empty order. -/
theorem topologicalSort_cycle (nodes : List Node) (T : Set Nat)
    (hne : ∃ t, t ∈ T) (hrange : ∀ i ∈ T, i < nodes.length)
    (hclosed : ∀ i ∈ T, ∃ j ∈ T, Int.ofNat j ∈ nodeParents nodes i) :
    topologicalSort nodes = ([], true) := by
  have hinv : ∀ fuel emitted, (∀ i ∈ T, Int.ofNat i ∉ emitted) →
      ∀ i ∈ T, Int.ofNat i ∉ sortLoop nodes fuel emitted := by
    intro fuel
    induction fuel with
    | zero => intro emitted h i hi; exact h i hi
    | succ n ih =>
      intro emitted h
      simp only [sortLoop]
      cases hp : pickNext nodes emitted with
      | none => exact h
      | some i0 =>
        apply ih
        intro i hi hmem
        rcases List.mem_append.mp hmem with hmem | hmem
        · exact h i hi hmem
        · have hii : i0 = i := by
            have h2 : Int.ofNat i = Int.ofNat i0 := by simpa using hmem
            exact (Int.ofNat.inj h2).symm
          subst hii
          obtain ⟨j, hj, hjp⟩ := hclosed i0 hi
          have := (pickNext_facts hp).2.2 _ hjp
          exact h j hj this
  obtain ⟨t0, ht0⟩ := hne
  have hnotin : Int.ofNat t0 ∉ sortLoop nodes nodes.length [] :=
    hinv nodes.length [] (by simp) t0 ht0
  have hv := sortLoop_valid nodes nodes.length [] (validEmit_nil nodes)
  have hlen : (sortLoop nodes nodes.length []).length ≠ nodes.length := by
    intro hlen
    set ids := sortLoop nodes nodes.length [] with hids
    have hsub : ids ⊆ (List.range nodes.length).map Int.ofNat := by
      intro x hx
      obtain ⟨j, hj1, hj2⟩ := hv.2.1 x hx
      rw [hj1]
      exact List.mem_map_of_mem _ (List.mem_range.mpr hj2)
    have hperm : ids.Perm ((List.range nodes.length).map Int.ofNat) := by
      apply List.Subperm.perm_of_length_le (List.subperm_of_subset hv.1 hsub)
      simp [hlen]
    apply hnotin
    rw [hperm.mem_iff]
    exact List.mem_map_of_mem _ (List.mem_range.mpr (hrange t0 ht0))
  simp only [topologicalSort, if_neg hlen]

/-! ## Phase-4 lemmas (load pass, instantiation walk) -/

theorem loadPhase4_append (m : Reg) :
    ∀ l1 l2 m2 ev, loadPhase4 m (l1 ++ l2) = some (m2, ev) →
      ∃ m1 ev1 ev2, loadPhase4 m l1 = some (m1, ev1) ∧
        loadPhase4 m1 l2 = some (m2, ev2) ∧ ev = ev1 ++ ev2 := by
  intro l1
  induction l1 generalizing m with
  | nil =>
    intro l2 m2 ev h
    exact ⟨m, [], ev, rfl, h, rfl⟩
  | cons n rest ih =>
    intro l2 m2 ev h
    simp only [List.cons_append, loadPhase4, List.append_eq] at h ⊢
    cases hlk : lookupKey m n with
    | none => simp [hlk] at h
    | some p =>
      simp only [hlk] at h ⊢
      by_cases hi : p.hasInstance = true
      · rw [if_pos hi] at h ⊢
        exact ih m l2 m2 ev h
      · rw [if_neg hi] at h ⊢
        cases hrec : loadPhase4 (setInstance m n true) (rest ++ l2) with
        | none => simp [hrec] at h
        | some out =>
          obtain ⟨m2x, evx⟩ := out
          rw [hrec] at h
          simp only [Option.some.injEq, Prod.mk.injEq] at h
          obtain ⟨rfl, rfl⟩ := h
          obtain ⟨m1, ev1, ev2, h1, h2, h3⟩ := ih (setInstance m n true) l2 m2x evx hrec
          exact ⟨m1, Event.loaded n :: ev1, ev2, by rw [h1], h2, by rw [h3]; rfl⟩

theorem loadPhase4_events_names (m : Reg) :
    ∀ l m2 ev, loadPhase4 m l = some (m2, ev) →
      ∀ e ∈ ev, ∃ n ∈ l, e = Event.loaded n := by
  intro l
  induction l generalizing m with
  | nil =>
    intro m2 ev h e he
    simp only [loadPhase4, Option.some.injEq, Prod.mk.injEq] at h
    obtain ⟨rfl, rfl⟩ := h
    simp at he
  | cons n rest ih =>
    intro m2 ev h e he
    simp only [loadPhase4] at h
    cases hlk : lookupKey m n with
    | none => simp [hlk] at h
    | some p =>
      simp only [hlk] at h
      by_cases hi : p.hasInstance = true
      · rw [if_pos hi] at h
        obtain ⟨n', hn', he'⟩ := ih m m2 ev h e he
        exact ⟨n', by simp [hn'], he'⟩
      · rw [if_neg hi] at h
        cases hrec : loadPhase4 (setInstance m n true) rest with
        | none => simp [hrec] at h
        | some out =>
          obtain ⟨m2x, evx⟩ := out
          simp only [hrec, Option.some.injEq, Prod.mk.injEq] at h
          obtain ⟨rfl, rfl⟩ := h
          rcases List.mem_cons.mp he with rfl | he
          · exact ⟨n, by simp, rfl⟩
          · obtain ⟨n', hn', he'⟩ := ih (setInstance m n true) m2x evx hrec e he
            exact ⟨n', by simp [hn'], he'⟩

theorem get?_append_not_left {α : Type _} {l1 l2 : List α} {x : α} {i : Nat}
    (h : (l1 ++ l2).get? i = some x) (hx : x ∉ l1) :
    l1.length ≤ i ∧ l2.get? (i - l1.length) = some x := by
  by_cases hlt : i < l1.length
  · rw [List.get?_append hlt] at h
    exact absurd (List.get?_mem h) hx
  · refine ⟨le_of_not_lt hlt, ?_⟩
    rw [List.get?_append_right (le_of_not_lt hlt)] at h
    exact h

theorem get?_append_not_right {α : Type _} {l1 l2 : List α} {x : α} {i : Nat}
    (h : (l1 ++ l2).get? i = some x) (hx : x ∉ l2) : i < l1.length := by
  by_cases hlt : i < l1.length
  · exact hlt
  · rw [List.get?_append_right (le_of_not_lt hlt)] at h
    exact absurd (List.get?_mem h) hx

/-- Ordering of the `loaded()` notifications emitted by the fourth step:
with a duplicate-free walk list, a name in an earlier slot can only be
notified before a name in a later slot. -/
theorem loadPhase4_order (m : Reg) (l1 : List String) (nB : String)
    (l2 : List String) (nA : String) (l3 : List String) (m2 : Reg)
    (ev : List Event)
    (h : loadPhase4 m (l1 ++ nB :: (l2 ++ nA :: l3)) = some (m2, ev))
    (hBA : nB ≠ nA) (hA1 : nA ∉ l1) (hA2 : nA ∉ l2)
    (hB1 : nB ∉ l1) (hB2 : nB ∉ l2) (hB3 : nB ∉ l3) :
    ∀ i j, ev.get? i = some (Event.loaded nA) → ev.get? j = some (Event.loaded nB) →
      j < i := by
  obtain ⟨m1, E1, evr1, h1, hrest1, heq1⟩ := loadPhase4_append m l1 _ m2 ev h
  have hE1names := loadPhase4_events_names m l1 m1 E1 h1
  simp only [loadPhase4] at hrest1
  cases hlkB : lookupKey m1 nB with
  | none => simp [hlkB] at hrest1
  | some pB =>
    simp only [hlkB] at hrest1
    have hmain : ∃ mB EB evr2,
        (EB = [] ∨ EB = [Event.loaded nB]) ∧
        loadPhase4 mB (l2 ++ nA :: l3) = some (m2, evr2) ∧
        evr1 = EB ++ evr2 := by
      by_cases hiB : pB.hasInstance = true
      · rw [if_pos hiB] at hrest1
        exact ⟨m1, [], evr1, Or.inl rfl, hrest1, rfl⟩
      · rw [if_neg hiB] at hrest1
        cases hrec : loadPhase4 (setInstance m1 nB true) (l2 ++ nA :: l3) with
        | none => simp [hrec] at hrest1
        | some out =>
          obtain ⟨m2x, evx⟩ := out
          simp only [hrec, Option.some.injEq, Prod.mk.injEq] at hrest1
          obtain ⟨rfl, rfl⟩ := hrest1
          exact ⟨setInstance m1 nB true, [Event.loaded nB], evx, Or.inr rfl, hrec, rfl⟩
    obtain ⟨mB, EB, evr2, hEB, hrest2, heq2⟩ := hmain
    obtain ⟨mC, E2, evr3, h2, hrest3, heq3⟩ := loadPhase4_append mB l2 _ m2 evr2 hrest2
    have hE2names := loadPhase4_events_names mB l2 mC E2 h2
    simp only [loadPhase4] at hrest3
    cases hlkA : lookupKey mC nA with
    | none => simp [hlkA] at hrest3
    | some pA =>
      simp only [hlkA] at hrest3
      have hmainA : ∃ mA EA E3x,
          (EA = [] ∨ EA = [Event.loaded nA]) ∧
          loadPhase4 mA l3 = some (m2, E3x) ∧ evr3 = EA ++ E3x := by
        by_cases hiA : pA.hasInstance = true
        · rw [if_pos hiA] at hrest3
          exact ⟨mC, [], evr3, Or.inl rfl, hrest3, rfl⟩
        · rw [if_neg hiA] at hrest3
          cases hrec : loadPhase4 (setInstance mC nA true) l3 with
          | none => simp [hrec] at hrest3
          | some out =>
            obtain ⟨m2x, evx⟩ := out
            simp only [hrec, Option.some.injEq, Prod.mk.injEq] at hrest3
            obtain ⟨rfl, rfl⟩ := hrest3
            exact ⟨setInstance mC nA true, [Event.loaded nA], evx, Or.inr rfl, hrec, rfl⟩
      obtain ⟨mA, EA, E3x, hEA, h3run, heq4⟩ := hmainA
      have hE3names := loadPhase4_events_names mA l3 m2 E3x h3run
      have hevfull : ev = E1 ++ (EB ++ (E2 ++ (EA ++ E3x))) := by
        rw [heq1, heq2, heq3, heq4]
      intro i j hi hj
      have hAnotE1 : Event.loaded nA ∉ E1 := by
        intro hc
        obtain ⟨n', hn', he'⟩ := hE1names _ hc
        exact hA1 (by rw [Event.loaded.injEq] at he'; rw [he']; exact hn')
      have hAnotEB : Event.loaded nA ∉ EB := by
        rcases hEB with rfl | rfl
        · simp
        · intro hc
          have : Event.loaded nA = Event.loaded nB := by simpa using hc
          exact hBA (by rw [Event.loaded.injEq] at this; exact this.symm)
      have hAnotE2 : Event.loaded nA ∉ E2 := by
        intro hc
        obtain ⟨n', hn', he'⟩ := hE2names _ hc
        exact hA2 (by rw [Event.loaded.injEq] at he'; rw [he']; exact hn')
      have hBnotE1 : Event.loaded nB ∉ E1 := by
        intro hc
        obtain ⟨n', hn', he'⟩ := hE1names _ hc
        exact hB1 (by rw [Event.loaded.injEq] at he'; rw [he']; exact hn')
      have hBnotE2 : Event.loaded nB ∉ E2 := by
        intro hc
        obtain ⟨n', hn', he'⟩ := hE2names _ hc
        exact hB2 (by rw [Event.loaded.injEq] at he'; rw [he']; exact hn')
      have hBnotEA : Event.loaded nB ∉ EA := by
        rcases hEA with rfl | rfl
        · simp
        · intro hc
          have : Event.loaded nB = Event.loaded nA := by simpa using hc
          exact hBA (by rw [Event.loaded.injEq] at this; exact this)
      have hBnotE3 : Event.loaded nB ∉ E3x := by
        intro hc
        obtain ⟨n', hn', he'⟩ := hE3names _ hc
        exact hB3 (by rw [Event.loaded.injEq] at he'; rw [he']; exact hn')
      rw [hevfull] at hi hj
      obtain ⟨hi1, hi'⟩ := get?_append_not_left hi hAnotE1
      obtain ⟨hi2, hi''⟩ := get?_append_not_left hi' hAnotEB
      obtain ⟨hi3, _⟩ := get?_append_not_left hi'' hAnotE2
      have hj1 : j < E1.length + (EB.length + E2.length) := by
        have hsplit : E1 ++ (EB ++ (E2 ++ (EA ++ E3x))) =
            (E1 ++ (EB ++ E2)) ++ (EA ++ E3x) := by simp
        rw [hsplit] at hj
        have := get?_append_not_right hj (by
          intro hc
          rcases List.mem_append.mp hc with hc | hc
          · exact hBnotEA hc
          · exact hBnotE3 hc)
        simpa using this
      omega

/-- Duplicate-freedom of the modelled sort output: the emitted order lists
each node name at most once when the node names are distinct. -/
theorem topologicalSort_nodup {nodes : List Node} {order : List String}
    (hnd : (nodes.map Node.name).Nodup)
    (h : topologicalSort nodes = (order, false)) : order.Nodup := by
  simp only [topologicalSort] at h
  by_cases hlen : (sortLoop nodes nodes.length []).length = nodes.length
  · rw [if_pos hlen] at h
    obtain ⟨horder, _⟩ := Prod.mk.injEq .. ▸ h
    set ids := sortLoop nodes nodes.length [] with hids
    have hv := sortLoop_valid nodes nodes.length [] (validEmit_nil nodes)
    rw [← horder]
    apply hv.1.map_on
    intro x hx y hy hxy
    obtain ⟨jx, hjx, hjxlt⟩ := hv.2.1 x hx
    obtain ⟨jy, hjy, hjylt⟩ := hv.2.1 y hy
    obtain ⟨ndx, hndx⟩ : ∃ nd, nodes.get? jx = some nd :=
      ⟨nodes.get ⟨jx, hjxlt⟩, List.get?_eq_some.mpr ⟨hjxlt, rfl⟩⟩
    obtain ⟨ndy, hndy⟩ : ∃ nd, nodes.get? jy = some nd :=
      ⟨nodes.get ⟨jy, hjylt⟩, List.get?_eq_some.mpr ⟨hjylt, rfl⟩⟩
    subst hjx
    subst hjy
    have hxy2 : ((nodes.get? jx).map Node.name).getD "" =
        ((nodes.get? jy).map Node.name).getD "" := hxy
    rw [hndx, hndy] at hxy2
    simp at hxy2
    have hmx : (nodes.map Node.name).get? jx = some ndx.name := by
      rw [List.get?_map, hndx]; rfl
    have hmy : (nodes.map Node.name).get? jy = some ndy.name := by
      rw [List.get?_map, hndy]; rfl
    have hjeq : jx = jy := by
      apply List.getElem?_inj (by simpa using hjxlt) hnd
      rw [← List.get?_eq_getElem?, ← List.get?_eq_getElem?, hmx, hmy, hxy2]
    rw [hjeq]
  · rw [if_neg hlen] at h
    exact absurd ((Prod.mk.injEq .. ▸ h : _ ∧ _).2) (by simp)

/-- With `tryToContinue = true` the first step of the load pass never
aborts with an error code (lines 493-495 only fire when continuing is
disabled). -/
theorem loadPhase1_true_not_inr (compat : String → String → Bool) (fuel : Nat) :
    ∀ ks m nodes evs r, loadPhase1 compat fuel true ks m nodes evs = some r →
      ∃ x, r = Sum.inl x := by
  intro ks
  induction ks with
  | nil =>
    intro m nodes evs r h
    simp only [loadPhase1, Option.some.injEq] at h
    exact ⟨_, h.symm⟩
  | cons k0 ks' ih =>
    intro m nodes evs r h
    simp only [loadPhase1] at h
    cases hchk : checkDependencies compat fuel (setGraphId m k0 (-1)) k0 with
    | none => simp [hchk] at h
    | some out =>
      obtain ⟨rc, m1, ev1⟩ := out
      simp only [hchk] at h
      rw [if_neg (by simp)] at h
      cases hlk : lookupKey m1 k0 with
      | none => simp [hlk] at h
      | some p =>
        simp only [hlk] at h
        by_cases hf : p.dependenciesExists = TriBool.TTrue
        · rw [if_pos hf] at h
          exact ih _ _ _ _ h
        · rw [if_neg hf] at h
          exact ih _ _ _ _ h

/-- A duplicate-free list with `b` strictly before `a` splits as
`l1 ++ b :: (l2 ++ a :: l3)` with neither element recurring elsewhere. -/
theorem nodup_two_split {α : Type _} {l : List α} {a b : α} {pa pb : Nat}
    (hnd : l.Nodup) (hb : l.get? pb = some b) (ha : l.get? pa = some a)
    (hlt : pb < pa) :
    ∃ l1 l2 l3, l = l1 ++ b :: (l2 ++ a :: l3) ∧ b ≠ a ∧
      a ∉ l1 ∧ a ∉ l2 ∧ b ∉ l1 ∧ b ∉ l2 ∧ b ∉ l3 := by
  have hpb : pb < l.length := (List.get?_eq_some.mp hb).1
  have hsplit1 : l = l.take pb ++ b :: l.drop (pb + 1) := by
    have h1 := List.take_append_drop pb l
    have h2 : l.drop pb = b :: l.drop (pb + 1) := by
      rw [List.drop_eq_getElem_cons hpb]
      have : l[pb] = b := by
        have := List.get?_eq_getElem? l pb ▸ hb
        exact (List.getElem?_eq_some.mp this).2
      rw [this]
    rw [← h2, h1]
  have hrest : (l.drop (pb + 1)).get? (pa - (pb + 1)) = some a := by
    rw [List.get?_drop]
    have : pb + 1 + (pa - (pb + 1)) = pa := by omega
    rw [this]
    exact ha
  have hpa2 : pa - (pb + 1) < (l.drop (pb + 1)).length := (List.get?_eq_some.mp hrest).1
  have hsplit2 : l.drop (pb + 1) =
      (l.drop (pb + 1)).take (pa - (pb + 1)) ++ a :: (l.drop (pb + 1)).drop (pa - (pb + 1) + 1) := by
    have h1 := List.take_append_drop (pa - (pb + 1)) (l.drop (pb + 1))
    have h2 : (l.drop (pb + 1)).drop (pa - (pb + 1)) =
        a :: (l.drop (pb + 1)).drop (pa - (pb + 1) + 1) := by
      rw [List.drop_eq_getElem_cons hpa2]
      have : (l.drop (pb + 1))[pa - (pb + 1)] = a := by
        have := List.get?_eq_getElem? (l.drop (pb + 1)) (pa - (pb + 1)) ▸ hrest
        exact (List.getElem?_eq_some.mp this).2
      rw [this]
    rw [← h2, h1]
  refine ⟨l.take pb, (l.drop (pb + 1)).take (pa - (pb + 1)),
    (l.drop (pb + 1)).drop (pa - (pb + 1) + 1), by rw [← hsplit2]; exact hsplit1, ?_⟩
  have hndfull : (l.take pb ++ b :: ((l.drop (pb + 1)).take (pa - (pb + 1)) ++
      a :: (l.drop (pb + 1)).drop (pa - (pb + 1) + 1))).Nodup := by
    rw [← hsplit2, ← hsplit1]
    exact hnd
  obtain ⟨hnd1, hnd2, hdisj⟩ := List.nodup_append.mp hndfull
  obtain ⟨hbnot, hnd3⟩ := List.nodup_cons.mp hnd2
  obtain ⟨hnd4, hnd5, hdisj2⟩ := List.nodup_append.mp hnd3
  obtain ⟨hanot, _⟩ := List.nodup_cons.mp hnd5
  refine ⟨?_, ?_, ?_, ?_, ?_, ?_⟩
  · intro he
    exact hbnot (by simp [he])
  · intro hmem
    exact hdisj hmem (by simp)
  · intro hmem
    exact hdisj2 hmem (by simp)
  · intro hmem
    exact hdisj hmem (by simp)
  · intro hmem
    exact hbnot (List.mem_append.mpr (Or.inl hmem))
  · intro hmem
    exact hbnot (List.mem_append.mpr (Or.inr (List.mem_cons_of_mem _ hmem)))

/-- **C1**  For every pair of records `A` and `B` in the registry such
that `A` declares `B` as a dependency, if both are eligible
(`dependencies_resolved == yes`) and a call to `loadPlugins` succeeds,
then `B` appears before `A` in the resulting load-order list and `B`\'s
`loaded()` notification is delivered before `A`\'s. -/
theorem claim1_load_order_respects_dependencies
    (compat : String → String → Bool) (fuel : Nat) (st : PMState)
    (A B : String) (pA pB : Plugin) (dep : Dependency) (st' : PMState)
    (ev : List Event)
    (hnd : (regKeys st.pluginsMap).Nodup)
    (hA : lookupKey st.pluginsMap A = some pA)
    (hB : lookupKey st.pluginsMap B = some pB)
    (hdep : dep ∈ pA.info.dependencies) (hdepn : dep.name = B)
    (hfA : pA.dependenciesExists = TriBool.TTrue)
    (hfB : pB.dependenciesExists = TriBool.TTrue)
    (hrun : loadPlugins compat fuel true st = some (RetCode.SUCCESS, st', ev)) :
    (∃ pb pa, pb < pa ∧ st'.loadOrderList.get? pb = some B ∧
      st'.loadOrderList.get? pa = some A) ∧
    (∀ i j, ev.get? i = some (Event.loaded A) →
      ev.get? j = some (Event.loaded B) → j < i) := by
  simp only [loadPlugins] at hrun
  cases hp1 : loadPhase1 compat fuel true (st.pluginsMap.map Prod.fst)
      st.pluginsMap [] [] with
  | none => simp [hp1] at hrun
  | some r =>
    obtain ⟨x, rfl⟩ := loadPhase1_true_not_inr compat fuel _ _ _ _ r hp1
    obtain ⟨m1, nodes1, evs⟩ := x
    simp only [hp1] at hrun
    cases hp2 : loadPhase2 m1 (m1.map Prod.fst) nodes1 with
    | none => simp [hp2] at hrun
    | some nodes2 =>
      simp only [hp2] at hrun
      cases hsort : topologicalSort nodes2 with
      | mk order err =>
        simp only [hsort] at hrun
        cases err with
        | true => simp at hrun
        | false =>
          simp only [Bool.false_eq_true, if_false] at hrun
          cases hp4 : loadPhase4 m1 order with
          | none => simp [hp4] at hrun
          | some out =>
            obtain ⟨m2, ev2⟩ := out
            simp only [hp4, Option.some.injEq, Prod.mk.injEq, true_and] at hrun
            obtain ⟨hst', hev⟩ := hrun
            -- phase-1 characterisation
            obtain ⟨hkeys, hflag, hfields, hgid, ⟨tail, hnodes1, htail⟩, hndnames,
                helig, hback, ⟨tailEv, hevs, hcb⟩⟩ :=
              loadPhase1_inl compat fuel _ st.pluginsMap [] [] m1 nodes1 evs hp1
                hnd hnd (fun k hk => hk) (by simp) (by simp)
            have hAks : A ∈ regKeys st.pluginsMap :=
              (lookupKey_isSome_iff _ _).mp (by rw [hA]; rfl)
            have hBks : B ∈ regKeys st.pluginsMap :=
              (lookupKey_isSome_iff _ _).mp (by rw [hB]; rfl)
            obtain ⟨iA, hnodeA, hgidA⟩ := helig A hAks (by simp [flagOf, hA, hfA])
            obtain ⟨iB, hnodeB, hgidB⟩ := helig B hBks (by simp [flagOf, hB, hfB])
            -- phase-2 characterisation
            have hksnd : ((m1.map Prod.fst) : List String).Nodup := by
              have : regKeys m1 = regKeys st.pluginsMap := hkeys
              show (regKeys m1).Nodup
              rw [this]
              exact hnd
            obtain ⟨hnames2, huntouched, hproc⟩ :=
              loadPhase2_spec m1 (m1.map Prod.fst) nodes1 nodes2 hp2 hksnd
                (fun k p hk hp hg => hback k p
                  (by have h2 : k ∈ regKeys m1 := hk; rw [hkeys] at h2; exact h2) hp hg)
            -- A is processed with its dependency graph ids
            have hlkA1 : ∃ pA1, lookupKey m1 A = some pA1 ∧ pA1.graphId = Int.ofNat iA := by
              have := hgidA
              simp only [gidOf] at this
              cases hx : lookupKey m1 A with
              | none => rw [hx] at this; simp at this
              | some q =>
                rw [hx] at this
                simp at this
                exact ⟨q, rfl, this⟩
            obtain ⟨pA1, hlkA, hgA⟩ := hlkA1
            have hAks1 : A ∈ (m1.map Prod.fst : List String) := by
              have h2 : A ∈ regKeys m1 := by rw [hkeys]; exact hAks
              exact h2
            obtain ⟨i, ids, hgi, hdepids, hnodeA2⟩ := hproc A pA1 hAks1 hlkA (by
              rw [hgA]
              intro hcon
              have hnn : (0:Int) ≤ Int.ofNat iA := Int.ofNat_nonneg iA
              omega)
            have hiA : i = iA := by
              rw [hgA] at hgi
              exact (Int.ofNat.inj hgi).symm
            rw [hiA] at hnodeA2
            -- A keeps its metadata through the first step
            have hinfoA : pA1.info = pA.info := by
              obtain ⟨pA2, hlkA2, _, hinfo, _⟩ := hfields A pA hA
              rw [hlkA] at hlkA2
              obtain rfl := Option.some.inj hlkA2
              exact hinfo
            -- B graph id appears among the parents of A
            have hdepA1 : dep ∈ pA1.info.dependencies := by rw [hinfoA]; exact hdep
            obtain ⟨q, hlkq, hqin⟩ := depGraphIds_mem m1 _ ids hdepids dep hdepA1
            have hlkB1 : lookupKey m1 B = some q := by rw [← hdepn]; exact hlkq
            have hqgid : q.graphId = Int.ofNat iB := by
              have := hgidB
              simp only [gidOf, hlkB1, Option.map_some] at this
              simpa using this
            -- the node of B in the final node list
            have hnodeB2 : ∃ ndB, nodes2.get? iB = some ndB ∧ ndB.name = B := by
              have := hnames2 iB
              rw [hnodeB] at this
              cases hx : nodes2.get? iB with
              | none => rw [hx] at this; simp at this
              | some nd =>
                rw [hx] at this
                simp at this
                exact ⟨nd, rfl, this⟩
            obtain ⟨ndB, hnodeB2, hndBname⟩ := hnodeB2
            -- soundness of the sort gives the order positions
            obtain ⟨pb, pa, hplt, hordB, hordA⟩ :=
              topologicalSort_sound hsort iA iB ⟨A, ids⟩ ndB hnodeA2 hnodeB2
                (by simpa [hqgid] using hqin)
            rw [hndBname] at hordB
            have hordList : st'.loadOrderList = order := by
              rw [← hst']
            constructor
            · exact ⟨pb, pa, hplt, by rw [hordList]; exact hordB,
                by rw [hordList]; exact hordA⟩
            · -- events: the first step emits only callback events
              have hordnd : order.Nodup := by
                refine topologicalSort_nodup ?_ hsort
                have hmapeq : nodes2.map Node.name = nodes1.map Node.name := by
                  apply List.ext
                  intro n
                  rw [List.get?_map, List.get?_map, hnames2 n]
                rw [hmapeq]
                exact hndnames
              obtain ⟨O1, O2, O3, hdecomp, hBA, hA1, hA2, hB1, hB2, hB3⟩ :=
                nodup_two_split hordnd hordB hordA hplt
              rw [hdecomp] at hp4
              have hord4 := loadPhase4_order m1 O1 B O2 A O3 m2 ev2 hp4 hBA hA1 hA2
                hB1 hB2 hB3
              intro i j hi hj
              rw [← hev] at hi hj
              have hnoA : Event.loaded A ∉ evs := by
                intro hc
                rw [hevs] at hc
                obtain ⟨c, d, he⟩ := hcb _ (by simpa using hc)
                simp at he
              have hnoB : Event.loaded B ∉ evs := by
                intro hc
                rw [hevs] at hc
                obtain ⟨c, d, he⟩ := hcb _ (by simpa using hc)
                simp at he
              obtain ⟨hile, hi2⟩ := get?_append_not_left hi hnoA
              obtain ⟨hjle, hj2⟩ := get?_append_not_left hj hnoB
              have := hord4 _ _ hi2 hj2
              omega

/-- Concrete comparator for the C1 witness: every version matches. -/
def w1compat : String → String → Bool := fun _ _ => true

/-- C1 witness record `A`, declaring `B` as its only dependency. -/
def w1pA : Plugin :=
  ⟨true, true, false, "/p/A", ⟨"A", "", "1.0", "", "", "", "", [⟨"B", "1.0"⟩]⟩,
    TriBool.TTrue, -1⟩

/-- C1 witness record `B`, with no dependencies. -/
def w1pB : Plugin :=
  ⟨true, true, false, "/p/B", ⟨"B", "", "1.0", "", "", "", "", []⟩,
    TriBool.TTrue, -1⟩

/-- C1 witness state: registry `[A, B]`, empty load-order list. -/
def w1st : PMState := ⟨[("A", w1pA), ("B", w1pB)], [], []⟩

/-- C1 witness output state: both records instantiated, load order `[B, A]`. -/
def w1stOut : PMState :=
  ⟨[("A", { w1pA with hasInstance := true, graphId := 0 }),
    ("B", { w1pB with hasInstance := true, graphId := 1 })], ["B", "A"], []⟩

/-- C1 witness event trace. -/
def w1ev : List Event := [Event.loaded "B", Event.loaded "A"]

/-- C1 witness: on the concrete two-record registry the load pass puts `B`
before `A` and notifies `B` first. -/
theorem claim1_witness :
    (∃ pb pa, pb < pa ∧ w1stOut.loadOrderList.get? pb = some "B" ∧
      w1stOut.loadOrderList.get? pa = some "A") ∧
    (∀ i j, w1ev.get? i = some (Event.loaded "A") →
      w1ev.get? j = some (Event.loaded "B") → j < i) :=
  claim1_load_order_respects_dependencies w1compat 1 w1st "A" "B" w1pA w1pB
    ⟨"B", "1.0"⟩ w1stOut w1ev (by decide) rfl rfl (by decide) rfl rfl rfl rfl

/-- Declared dependencies of a registered record (empty for an absent
key). -/
def depsOf (m : Reg) (k : String) : List Dependency :=
  ((lookupKey m k).map (fun p => p.info.dependencies)).getD []

/-- **C2 (amended)**  When the eligible records contain a dependency
cycle, a terminating load pass returns `LOAD_DEPENDENCY_CYCLE`, emits only
callback events (no plugin is instantiated), and leaves every record\'s
instance state unchanged — but the load-order list is OVERWRITTEN with the
failed sort\'s empty output (line 521 stores before the error check), not
left unchanged. -/
theorem claim2_cycle_overwrites_load_order
    (compat : String → String → Bool) (fuel : Nat) (st : PMState)
    (S : List String) (k0 : String) (rc : RetCode) (st' : PMState)
    (ev : List Event)
    (hnd : (regKeys st.pluginsMap).Nodup)
    (hk0 : k0 ∈ S)
    (hS : ∀ k ∈ S, flagOf st.pluginsMap k = some TriBool.TTrue ∧
      ∃ dep ∈ depsOf st.pluginsMap k, dep.name ∈ S)
    (hrun : loadPlugins compat fuel true st = some (rc, st', ev)) :
    rc = RetCode.LOAD_DEPENDENCY_CYCLE ∧ st'.loadOrderList = [] ∧
    (∀ e ∈ ev, ∃ c d, e = Event.cb c d) ∧
    (∀ k p, lookupKey st.pluginsMap k = some p →
      ∃ p', lookupKey st'.pluginsMap k = some p' ∧
        p'.hasInstance = p.hasInstance) := by
  simp only [loadPlugins] at hrun
  cases hp1 : loadPhase1 compat fuel true (st.pluginsMap.map Prod.fst)
      st.pluginsMap [] [] with
  | none => simp [hp1] at hrun
  | some r =>
    obtain ⟨x, rfl⟩ := loadPhase1_true_not_inr compat fuel _ _ _ _ r hp1
    obtain ⟨m1, nodes1, evs⟩ := x
    simp only [hp1] at hrun
    cases hp2 : loadPhase2 m1 (m1.map Prod.fst) nodes1 with
    | none => simp [hp2] at hrun
    | some nodes2 =>
      simp only [hp2] at hrun
      obtain ⟨hkeys, hflag, hfields, hgid, ⟨tail, hnodes1, htail⟩, hndnames,
          helig, hback, ⟨tailEv, hevs, hcb⟩⟩ :=
        loadPhase1_inl compat fuel _ st.pluginsMap [] [] m1 nodes1 evs hp1
          hnd hnd (fun k hk => hk) (by simp) (by simp)
      have hksnd : ((m1.map Prod.fst) : List String).Nodup := by
        have h2 : regKeys m1 = regKeys st.pluginsMap := hkeys
        show (regKeys m1).Nodup
        rw [h2]
        exact hnd
      obtain ⟨hnames2, huntouched, hproc⟩ :=
        loadPhase2_spec m1 (m1.map Prod.fst) nodes1 nodes2 hp2 hksnd
          (fun k p hk hp hg => hback k p
            (by have h2 : k ∈ regKeys m1 := hk; rw [hkeys] at h2; exact h2) hp hg)
      -- unpack the cycle hypothesis into registry facts
      have hkey : ∀ k ∈ S, ∃ pk, lookupKey st.pluginsMap k = some pk ∧
          pk.dependenciesExists = TriBool.TTrue ∧
          ∃ dep ∈ pk.info.dependencies, dep.name ∈ S := by
        intro k hk
        obtain ⟨hfl, dep, hdep, hdepS⟩ := hS k hk
        simp only [flagOf] at hfl
        cases hx : lookupKey st.pluginsMap k with
        | none => rw [hx] at hfl; simp at hfl
        | some pk =>
          rw [hx] at hfl
          simp at hfl
          refine ⟨pk, rfl, hfl, dep, ?_, hdepS⟩
          simp only [depsOf, hx] at hdep
          simpa using hdep
      have hIdx : ∀ k ∈ S, ∃ i, nodes1.get? i = some ⟨k, []⟩ ∧
          gidOf m1 k = some (Int.ofNat i) := by
        intro k hk
        obtain ⟨pk, hpk, hflk, _⟩ := hkey k hk
        exact helig k ((lookupKey_isSome_iff _ _).mp (by rw [hpk]; rfl))
          (by simp [flagOf, hpk, hflk])
      -- every cycle member\'s node keeps a parent inside the cycle
      have hNodeFull : ∀ k ∈ S, ∀ i, gidOf m1 k = some (Int.ofNat i) →
          ∃ ids, nodes2.get? i = some ⟨k, ids⟩ ∧
            ∃ j k2, k2 ∈ S ∧ gidOf m1 k2 = some (Int.ofNat j) ∧
              Int.ofNat j ∈ ids := by
        intro k hk i hgidk
        obtain ⟨pk, hpk, hflk, dep, hdep, hdepS⟩ := hkey k hk
        have hlk1 : ∃ pk1, lookupKey m1 k = some pk1 ∧
            pk1.graphId = Int.ofNat i := by
          simp only [gidOf] at hgidk
          cases hx : lookupKey m1 k with
          | none => rw [hx] at hgidk; simp at hgidk
          | some q =>
            rw [hx] at hgidk
            simp at hgidk
            exact ⟨q, rfl, hgidk⟩
        obtain ⟨pk1, hlkk, hgk⟩ := hlk1
        have hkks1 : k ∈ (m1.map Prod.fst : List String) := by
          have h2 : k ∈ regKeys m1 := by
            rw [hkeys]
            exact (lookupKey_isSome_iff _ _).mp (by rw [hpk]; rfl)
          exact h2
        obtain ⟨i2, ids, hgi2, hdepids, hnodek⟩ := hproc k pk1 hkks1 hlkk (by
          rw [hgk]
          intro hcon
          have hnn : (0:Int) ≤ Int.ofNat i := Int.ofNat_nonneg i
          omega)
        have hi2 : i2 = i := by
          rw [hgk] at hgi2
          exact (Int.ofNat.inj hgi2).symm
        rw [hi2] at hnodek
        have hinfok : pk1.info = pk.info := by
          obtain ⟨pk2, hlk2, _, hinfo, _⟩ := hfields k pk hpk
          rw [hlkk] at hlk2
          obtain rfl := Option.some.inj hlk2
          exact hinfo
        obtain ⟨q, hlkq, hqin⟩ := depGraphIds_mem m1 _ ids hdepids dep
          (by rw [hinfok]; exact hdep)
        obtain ⟨j, _, hgidj⟩ := hIdx dep.name hdepS
        have hqg : q.graphId = Int.ofNat j := by
          simp only [gidOf, hlkq] at hgidj
          simpa using hgidj
        exact ⟨ids, hnodek, j, dep.name, hdepS, hgidj, by rw [← hqg]; exact hqin⟩
      -- the emitted-index set of the cycle blocks the sort
      have hsort : topologicalSort nodes2 = ([], true) := by
        apply topologicalSort_cycle nodes2
          { i | ∃ k ∈ S, gidOf m1 k = some (Int.ofNat i) }
        · obtain ⟨i0, _, hg0⟩ := hIdx k0 hk0
          exact ⟨i0, k0, hk0, hg0⟩
        · intro i hi
          obtain ⟨k, hk, hg⟩ := hi
          obtain ⟨ids, hnode, _⟩ := hNodeFull k hk i hg
          have := (List.get?_eq_some.mp hnode).1
          exact this
        · intro i hi
          obtain ⟨k, hk, hg⟩ := hi
          obtain ⟨ids, hnode, j, k2, hk2, hg2, hjin⟩ := hNodeFull k hk i hg
          refine ⟨j, ⟨k2, hk2, hg2⟩, ?_⟩
          simp only [nodeParents, hnode]
          simpa using hjin
      simp only [hsort] at hrun
      rw [if_pos trivial] at hrun
      simp only [Option.some.injEq, Prod.mk.injEq] at hrun
      obtain ⟨hrc, hst', hev⟩ := hrun
      refine ⟨hrc.symm, by rw [← hst'], ?_, ?_⟩
      · intro e he
        rw [← hev] at he
        rcases List.mem_append.mp he with he | he
        · rw [hevs] at he
          exact hcb e (by simpa using he)
        · refine ⟨RetCode.LOAD_DEPENDENCY_CYCLE, none, ?_⟩
          simpa using he
      · intro k p hp
        obtain ⟨p2, hlk2, _, _, hinst, _⟩ := hfields k p hp
        refine ⟨p2, ?_, hinst⟩
        rw [← hst']
        exact hlk2

/-- Concrete comparator for the C2 run: every version matches. -/
def w2compat : String → String → Bool := fun _ _ => true

/-- C2 record `A`, declaring `B` as its dependency (half of the cycle). -/
def w2pA : Plugin :=
  ⟨true, true, false, "/p/A", ⟨"A", "", "1.0", "", "", "", "", [⟨"B", "1.0"⟩]⟩,
    TriBool.TTrue, -1⟩

/-- C2 record `B`, declaring `A` as its dependency (other half). -/
def w2pB : Plugin :=
  ⟨true, true, false, "/p/B", ⟨"B", "", "1.0", "", "", "", "", [⟨"A", "1.0"⟩]⟩,
    TriBool.TTrue, -1⟩

/-- C2 state: cyclic registry, PRIOR load-order list `["C"]`. -/
def w2st : PMState := ⟨[("A", w2pA), ("B", w2pB)], ["C"], []⟩

/-- C2 output state: the prior load-order list is gone. -/
def w2stOut : PMState :=
  ⟨[("A", { w2pA with graphId := 0 }), ("B", { w2pB with graphId := 1 })], [], []⟩

/-- C2 event trace: the single cycle callback. -/
def w2ev : List Event := [Event.cb RetCode.LOAD_DEPENDENCY_CYCLE none]

/-- **C2 counterexample**  On the cyclic two-record registry with prior
load-order list `["C"]`, the pass returns `LOAD_DEPENDENCY_CYCLE` but the
load-order list is NOT left unchanged: line 521 stored the failed sort\'s
empty output before the error check. -/
theorem claim2_counterexample :
    ∃ rc st' ev, loadPlugins w2compat 1 true w2st = some (rc, st', ev) ∧
      rc = RetCode.LOAD_DEPENDENCY_CYCLE ∧
      st'.loadOrderList ≠ w2st.loadOrderList := by
  refine ⟨_, _, _, rfl, rfl, by decide⟩

/-- C2 witness for the amended claim, on the concrete cyclic registry. -/
theorem claim2_witness :
    RetCode.LOAD_DEPENDENCY_CYCLE = RetCode.LOAD_DEPENDENCY_CYCLE ∧
    w2stOut.loadOrderList = [] ∧
    (∀ e ∈ w2ev, ∃ c d, e = Event.cb c d) ∧
    (∀ k p, lookupKey w2st.pluginsMap k = some p →
      ∃ p', lookupKey w2stOut.pluginsMap k = some p' ∧
        p'.hasInstance = p.hasInstance) :=
  claim2_cycle_overwrites_load_order w2compat 1 w2st ["A", "B"] "A"
    RetCode.LOAD_DEPENDENCY_CYCLE w2stOut w2ev (by decide) (by decide)
    (by decide) rfl

/-! ## Solvability analysis for the idempotence of the load pass (C7)

`solvN` is the rank-bounded solvability of a record\'s dependency closure:
it depends only on the registry\'s metadata (names and versions), never on
the memo flags, so it is invariant under everything a pass writes. -/

def depB (compat : String → String → Bool) (m : Reg) (rec : String → Bool)
    (d : Dependency) : Bool :=
  ((lookupKey m d.name).map
    (fun q => compat q.info.version d.version && rec d.name)).getD false

def solvN (compat : String → String → Bool) : Nat → Reg → String → Bool
  | 0, _, _ => false
  | n + 1, m, k =>
    ((lookupKey m k).map
      (fun p => p.info.dependencies.all
        (depB compat m (solvN compat n m)))).getD false

/-- A record\'s dependency closure is fully present and version-compatible
at some finite rank. -/
def Solv (compat : String → String → Bool) (m : Reg) (k : String) : Prop :=
  ∃ n, solvN compat n m k = true

/-- One resolvable declared dependency: present, compatible, solvable. -/
def DepOK (compat : String → String → Bool) (m : Reg) (d : Dependency) : Prop :=
  ∃ q, lookupKey m d.name = some q ∧ compat q.info.version d.version = true ∧
    Solv compat m d.name

/-- The memo flags speak the truth: yes only on solvable records, no only
on unsolvable ones (an indeterminate flag says nothing). -/
def Sound (compat : String → String → Bool) (m : Reg) : Prop :=
  ∀ k p, lookupKey m k = some p →
    (p.dependenciesExists = TriBool.TTrue → Solv compat m k) ∧
    (p.dependenciesExists = TriBool.TFalse → ¬ Solv compat m k)

/-- Two registries agree on presence and metadata of every key (they may
differ in flags, graph ids and instances). -/
def InfoEq (m m' : Reg) : Prop :=
  ∀ x, (lookupKey m x).map Plugin.info = (lookupKey m' x).map Plugin.info

theorem infoEq_refl (m : Reg) : InfoEq m m := fun _ => rfl

theorem infoEq_symm {m m' : Reg} (h : InfoEq m m') : InfoEq m' m :=
  fun x => (h x).symm

theorem infoEq_trans {m1 m2 m3 : Reg} (h1 : InfoEq m1 m2) (h2 : InfoEq m2 m3) :
    InfoEq m1 m3 :=
  fun x => (h1 x).trans (h2 x)

theorem all_congr {α : Type _} {l : List α} {f g : α → Bool}
    (h : ∀ x ∈ l, f x = g x) : l.all f = l.all g := by
  induction l with
  | nil => rfl
  | cons a rest ih =>
    simp only [List.all_cons]
    rw [h a (by simp), ih (fun x hx => h x (by simp [hx]))]

theorem depB_true {compat : String → String → Bool} {m : Reg}
    {rec : String → Bool} {d : Dependency} :
    depB compat m rec d = true ↔
      ∃ q, lookupKey m d.name = some q ∧
        compat q.info.version d.version = true ∧ rec d.name = true := by
  simp only [depB]
  cases hq : lookupKey m d.name with
  | none => simp
  | some q => simp [Bool.and_eq_true]

theorem solvN_succ {compat : String → String → Bool} {n : Nat} {m : Reg}
    {k : String} :
    solvN compat (n + 1) m k = true ↔
      ∃ p, lookupKey m k = some p ∧
        ∀ d ∈ p.info.dependencies,
          ∃ q, lookupKey m d.name = some q ∧
            compat q.info.version d.version = true ∧
            solvN compat n m d.name = true := by
  simp only [solvN]
  cases hp : lookupKey m k with
  | none => simp
  | some p =>
    simp [List.all_eq_true, depB_true]

theorem solvN_mono (compat : String → String → Bool) :
    ∀ n m k, solvN compat n m k = true → solvN compat (n + 1) m k = true := by
  intro n
  induction n with
  | zero => intro m k h; simp [solvN] at h
  | succ n2 ih =>
    intro m k h
    obtain ⟨p, hp, hds⟩ := solvN_succ.mp h
    refine solvN_succ.mpr ⟨p, hp, ?_⟩
    intro d hd
    obtain ⟨q, hq, hc, hs⟩ := hds d hd
    exact ⟨q, hq, hc, ih m d.name hs⟩

theorem solvN_le (compat : String → String → Bool) (m : Reg) (k : String) :
    ∀ n n', n ≤ n' → solvN compat n m k = true → solvN compat n' m k = true := by
  intro n n' h hs
  obtain ⟨j, rfl⟩ := Nat.exists_eq_add_of_le h
  clear h
  induction j with
  | zero => simpa using hs
  | succ j2 ih =>
    have he : n + (j2 + 1) = (n + j2) + 1 := by omega
    rw [he]
    exact solvN_mono compat _ _ _ ih

theorem solvList_bound (compat : String → String → Bool) (m : Reg) :
    ∀ ds : List Dependency, (∀ d ∈ ds, Solv compat m d.name) →
      ∃ N, ∀ d ∈ ds, solvN compat N m d.name = true := by
  intro ds
  induction ds with
  | nil => intro _; exact ⟨0, by simp⟩
  | cons d rest ih =>
    intro h
    obtain ⟨N1, hN1⟩ := ih (fun x hx => h x (by simp [hx]))
    obtain ⟨n0, hn0⟩ := h d (by simp)
    refine ⟨max n0 N1, ?_⟩
    intro x hx
    rcases List.mem_cons.mp hx with rfl | hx
    · exact solvN_le compat m x.name n0 _ (Nat.le_max_left _ _) hn0
    · exact solvN_le compat m x.name N1 _ (Nat.le_max_right _ _) (hN1 x hx)

theorem solv_unfold (compat : String → String → Bool) (m : Reg) (k : String) :
    Solv compat m k ↔ ∃ p, lookupKey m k = some p ∧
      ∀ d ∈ p.info.dependencies, DepOK compat m d := by
  constructor
  · rintro ⟨n, hs⟩
    cases n with
    | zero => simp [solvN] at hs
    | succ n2 =>
      obtain ⟨p, hp, hds⟩ := solvN_succ.mp hs
      refine ⟨p, hp, ?_⟩
      intro d hd
      obtain ⟨q, hq, hc, hs2⟩ := hds d hd
      exact ⟨q, hq, hc, ⟨n2, hs2⟩⟩
  · rintro ⟨p, hp, hds⟩
    obtain ⟨N, hN⟩ := solvList_bound compat m p.info.dependencies
      (fun d hd => by obtain ⟨q, _, _, hs⟩ := hds d hd; exact hs)
    refine ⟨N + 1, solvN_succ.mpr ⟨p, hp, ?_⟩⟩
    intro d hd
    obtain ⟨q, hq, hcq, _⟩ := hds d hd
    exact ⟨q, hq, hcq, hN d hd⟩

theorem solvN_congr (compat : String → String → Bool) {m m' : Reg}
    (h : InfoEq m m') : ∀ n k, solvN compat n m k = solvN compat n m' k := by
  intro n
  induction n with
  | zero => intro k; simp [solvN]
  | succ n2 ih =>
    intro k
    rw [Bool.eq_iff_iff, solvN_succ, solvN_succ]
    constructor
    · rintro ⟨p, hp, hds⟩
      have hk := h k
      rw [hp] at hk
      cases hy : lookupKey m' k with
      | none => rw [hy] at hk; simp at hk
      | some p' =>
        rw [hy] at hk
        simp at hk
        refine ⟨p', rfl, ?_⟩
        rw [← hk]
        intro d hd
        obtain ⟨q, hq, hc, hs⟩ := hds d hd
        have hdn := h d.name
        rw [hq] at hdn
        cases hqy : lookupKey m' d.name with
        | none => rw [hqy] at hdn; simp at hdn
        | some q' =>
          rw [hqy] at hdn
          simp at hdn
          exact ⟨q', rfl, by rw [← hdn]; exact hc, by rw [← ih d.name]; exact hs⟩
    · rintro ⟨p', hp', hds⟩
      have hk := h k
      rw [hp'] at hk
      cases hy : lookupKey m k with
      | none => rw [hy] at hk; simp at hk
      | some p =>
        rw [hy] at hk
        simp at hk
        refine ⟨p, rfl, ?_⟩
        rw [hk]
        intro d hd
        obtain ⟨q', hq', hc, hs⟩ := hds d hd
        have hdn := h d.name
        rw [hq'] at hdn
        cases hqy : lookupKey m d.name with
        | none => rw [hqy] at hdn; simp at hdn
        | some q =>
          rw [hqy] at hdn
          simp at hdn
          exact ⟨q, rfl, by rw [hdn]; exact hc, by rw [ih d.name]; exact hs⟩

theorem solv_congr (compat : String → String → Bool) {m m' : Reg}
    (h : InfoEq m m') (k : String) : Solv compat m k ↔ Solv compat m' k := by
  constructor
  · rintro ⟨n, hn⟩; exact ⟨n, (solvN_congr compat h n k) ▸ hn⟩
  · rintro ⟨n, hn⟩; exact ⟨n, (solvN_congr compat h n k).symm ▸ hn⟩

theorem depOK_congr (compat : String → String → Bool) {m m' : Reg}
    (h : InfoEq m m') {d : Dependency} (hd : DepOK compat m d) :
    DepOK compat m' d := by
  obtain ⟨q, hq, hc, hs⟩ := hd
  have hx := h d.name
  rw [hq] at hx
  cases hy : lookupKey m' d.name with
  | none => rw [hy] at hx; simp at hx
  | some q' =>
    rw [hy] at hx
    simp at hx
    exact ⟨q', hy, by rw [← hx]; exact hc,
      (solv_congr compat h d.name).mp hs⟩
theorem chkPres_infoEq {m m' : Reg} (h : ChkPres m m') : InfoEq m m' := by
  intro x
  cases hx : lookupKey m x with
  | none =>
    have hx2 : lookupKey m' x = none := by
      rw [lookupKey_eq_none_iff, h.1, ← lookupKey_eq_none_iff]
      exact hx
    rw [hx2]
  | some p =>
    obtain ⟨p', hp', _, hinfo, _⟩ := h.2.1 x p hx
    rw [hp']
    simp [hinfo]

theorem flagOf_setFlag_self {m : Reg} {k : String} (f : TriBool) {p : Plugin}
    (hp : lookupKey m k = some p) : flagOf (setFlag m k f) k = some f := by
  simp [flagOf, lookupKey_setFlag, hp]

theorem flagOf_setFlag_ne (m : Reg) {k k' : String} (f : TriBool)
    (h : k' ≠ k) : flagOf (setFlag m k f) k' = flagOf m k' := by
  simp only [flagOf, lookupKey_setFlag]
  cases hx : lookupKey m k' with
  | none => rfl
  | some p => simp [h]

theorem infoEq_setFlag (m : Reg) (k : String) (f : TriBool) :
    InfoEq m (setFlag m k f) := by
  intro x
  rw [lookupKey_setFlag]
  cases hx : lookupKey m x with
  | none => rfl
  | some p => by_cases hk : x = k <;> simp [hk]

theorem infoEq_setGraphId (m : Reg) (k : String) (g : Int) :
    InfoEq m (setGraphId m k g) := by
  intro x
  rw [lookupKey_setGraphId]
  cases hx : lookupKey m x with
  | none => rfl
  | some p => by_cases hk : x = k <;> simp [hk]

theorem infoEq_setInstance (m : Reg) (k : String) (b : Bool) :
    InfoEq m (setInstance m k b) := by
  intro x
  rw [lookupKey_setInstance]
  cases hx : lookupKey m x with
  | none => rfl
  | some p => by_cases hk : x = k <;> simp [hk]

theorem flagOf_setGraphId_eq (m : Reg) (k x : String) (g : Int) :
    flagOf (setGraphId m k g) x = flagOf m x := by
  simp only [flagOf, lookupKey_setGraphId]
  cases hx : lookupKey m x with
  | none => rfl
  | some p => by_cases hk : x = k <;> simp [hk]

theorem flagOf_setInstance_eq (m : Reg) (k x : String) (b : Bool) :
    flagOf (setInstance m k b) x = flagOf m x := by
  simp only [flagOf, lookupKey_setInstance]
  cases hx : lookupKey m x with
  | none => rfl
  | some p => by_cases hk : x = k <;> simp [hk]

theorem gidOf_setInstance_eq (m : Reg) (k x : String) (b : Bool) :
    gidOf (setInstance m k b) x = gidOf m x := by
  simp only [gidOf, lookupKey_setInstance]
  cases hx : lookupKey m x with
  | none => rfl
  | some p => by_cases hk : x = k <;> simp [hk]

theorem sound_transfer {compat : String → String → Bool} {m m' : Reg}
    (hs : Sound compat m) (hinfo : InfoEq m m')
    (hflag : ∀ k, flagOf m' k = flagOf m k) : Sound compat m' := by
  intro k p' hp'
  have hfk := hflag k
  rw [flagOf, hp'] at hfk
  cases hx : lookupKey m k with
  | none => rw [flagOf, hx] at hfk; simp at hfk
  | some p =>
    rw [flagOf, hx] at hfk
    simp at hfk
    obtain ⟨h1, h2⟩ := hs k p hx
    constructor
    · intro hf
      exact (solv_congr compat hinfo k).mp (h1 (by rw [← hfk]; exact hf))
    · intro hf hsolv
      exact h2 (by rw [← hfk]; exact hf)
        ((solv_congr compat hinfo k).mpr hsolv)

/-- A flag write justified by the analysis keeps the registry sound. -/
theorem sound_setFlag_ttrue {compat : String → String → Bool} {m : Reg}
    {k : String} (hs : Sound compat m) (hsolv : Solv compat m k) :
    Sound compat (setFlag m k TriBool.TTrue) := by
  intro x p' hp'
  rw [lookupKey_setFlag] at hp'
  cases hx : lookupKey m x with
  | none => rw [hx] at hp'; simp at hp'
  | some p =>
    rw [hx] at hp'
    simp at hp'
    by_cases hxk : x = k
    · rw [if_pos hxk] at hp'
      rw [← hp']
      subst hxk
      refine ⟨fun _ => ?_, fun hf => ?_⟩
      · exact (solv_congr compat (infoEq_setFlag m x TriBool.TTrue) x).mp hsolv
      · simp at hf
    · rw [if_neg hxk] at hp'
      rw [← hp']
      obtain ⟨h1, h2⟩ := hs x p hx
      exact ⟨fun hf => (solv_congr compat (infoEq_setFlag m k TriBool.TTrue) x).mp (h1 hf),
        fun hf hsolv2 => h2 hf
          ((solv_congr compat (infoEq_setFlag m k TriBool.TTrue) x).mpr hsolv2)⟩

theorem sound_setFlag_tfalse {compat : String → String → Bool} {m : Reg}
    {k : String} (hs : Sound compat m) (hsolv : ¬ Solv compat m k) :
    Sound compat (setFlag m k TriBool.TFalse) := by
  intro x p' hp'
  rw [lookupKey_setFlag] at hp'
  cases hx : lookupKey m x with
  | none => rw [hx] at hp'; simp at hp'
  | some p =>
    rw [hx] at hp'
    simp at hp'
    by_cases hxk : x = k
    · rw [if_pos hxk] at hp'
      rw [← hp']
      subst hxk
      refine ⟨fun hf => ?_, fun _ hsolv2 => ?_⟩
      · simp at hf
      · exact hsolv ((solv_congr compat (infoEq_setFlag m x TriBool.TFalse) x).mpr hsolv2)
    · rw [if_neg hxk] at hp'
      rw [← hp']
      obtain ⟨h1, h2⟩ := hs x p hx
      exact ⟨fun hf => (solv_congr compat (infoEq_setFlag m k TriBool.TFalse) x).mp (h1 hf),
        fun hf hsolv2 => h2 hf
          ((solv_congr compat (infoEq_setFlag m k TriBool.TFalse) x).mpr hsolv2)⟩

/-- Outcome of a terminating dependency check on a sound registry: the
registry stays sound, and both the return code and the record\'s final
memo flag agree with the solvability analysis. -/
theorem checkDepsLoop_char (compat : String → String → Bool)
    (rec : Reg → String → Option (RetCode × Reg × List Event))
    (key path : String)
    (hrecP : ∀ m k rc m' ev, rec m k = some (rc, m', ev) → ChkPres m m')
    (hrecC : ∀ m k rc m' ev, Sound compat m → rec m k = some (rc, m', ev) →
      Sound compat m' ∧ (rc = RetCode.SUCCESS ↔ Solv compat m k) ∧
      (flagOf m' k = some TriBool.TTrue ↔ Solv compat m k)) :
    ∀ ds m rc m' ev pk pre,
      Sound compat m →
      lookupKey m key = some pk →
      pk.info.dependencies = pre ++ ds →
      (∀ d ∈ pre, DepOK compat m d) →
      checkDepsLoop compat rec key path ds m = some (rc, m', ev) →
      Sound compat m' ∧ (rc = RetCode.SUCCESS ↔ Solv compat m key) ∧
      (flagOf m' key = some TriBool.TTrue ↔ Solv compat m key) := by
  intro ds
  induction ds with
  | nil =>
    intro m rc m' ev pk pre hsound hk hdeps hpre h
    simp only [checkDepsLoop] at h
    obtain ⟨rfl, rfl, rfl⟩ := tripleEq (Option.some.inj h)
    have hsolv : Solv compat m key :=
      (solv_unfold compat m key).mpr
        ⟨pk, hk, fun d hd => hpre d (by rw [hdeps] at hd; simpa using hd)⟩
    exact ⟨sound_setFlag_ttrue hsound hsolv,
      ⟨fun _ => hsolv, fun _ => rfl⟩,
      ⟨fun _ => hsolv, fun _ => flagOf_setFlag_self TriBool.TTrue hk⟩⟩
  | cons d rest ih =>
    intro m rc m' ev pk pre hsound hk hdeps hpre h
    simp only [checkDepsLoop] at h
    have hdmem : d ∈ pk.info.dependencies := by rw [hdeps]; simp
    cases hq : lookupKey m d.name with
    | none =>
      simp only [hq] at h
      obtain ⟨rfl, rfl, rfl⟩ := tripleEq (Option.some.inj h)
      have hnsolv : ¬ Solv compat m key := by
        intro hsolv
        obtain ⟨pk2, hk2, hall⟩ := (solv_unfold compat m key).mp hsolv
        rw [hk] at hk2
        obtain rfl := Option.some.inj hk2
        obtain ⟨q, hq2, _⟩ := hall d hdmem
        rw [hq] at hq2
        exact absurd hq2 (by simp)
      refine ⟨sound_setFlag_tfalse hsound hnsolv, ?_, ?_⟩
      · exact ⟨fun hcq => absurd hcq (by decide), fun hs => absurd hs hnsolv⟩
      · constructor
        · intro hf
          rw [flagOf_setFlag_self TriBool.TFalse hk] at hf
          simp at hf
        · intro hs
          exact absurd hs hnsolv
    | some q =>
      simp only [hq] at h
      by_cases hc : compat q.info.version d.version = true
      · rw [if_pos hc] at h
        cases hrec : rec m d.name with
        | none => simp [hrec] at h
        | some out =>
          obtain ⟨rc1, m1, ev1⟩ := out
          simp only [hrec] at h
          obtain ⟨hSound1, hIff1, hFlag1⟩ := hrecC m d.name rc1 m1 ev1 hsound hrec
          have hPres1 : ChkPres m m1 := hrecP m d.name rc1 m1 ev1 hrec
          have hInfo1 : InfoEq m m1 := chkPres_infoEq hPres1
          by_cases hrc1 : rc1 = RetCode.SUCCESS
          · rw [if_pos hrc1] at h
            cases hloop : checkDepsLoop compat rec key path rest m1 with
            | none => simp [hloop] at h
            | some out2 =>
              obtain ⟨rc2, m2, ev2⟩ := out2
              simp only [hloop] at h
              obtain ⟨rfl, rfl, rfl⟩ := tripleEq (Option.some.inj h)
              have hdOK : DepOK compat m d := ⟨q, hq, hc, hIff1.mp hrc1⟩
              obtain ⟨pk1, hk1, _, hinfo1, _⟩ := hPres1.2.1 key pk hk
              have ihout := ih m1 rc2 m2 ev2 pk1 (pre ++ [d]) hSound1 hk1
                (by rw [hinfo1, hdeps]; simp)
                (by intro d2 hd2
                    rcases List.mem_append.mp hd2 with hd2 | hd2
                    · exact depOK_congr compat hInfo1 (hpre d2 hd2)
                    · have hdd : d2 = d := by simpa using hd2
                      subst hdd
                      exact depOK_congr compat hInfo1 hdOK)
                hloop
              refine ⟨ihout.1, ?_, ?_⟩
              · rw [ihout.2.1]
                exact (solv_congr compat hInfo1 key).symm
              · rw [ihout.2.2]
                exact (solv_congr compat hInfo1 key).symm
          · rw [if_neg hrc1] at h
            obtain ⟨rfl, rfl, rfl⟩ := tripleEq (Option.some.inj h)
            have hnd : ¬ Solv compat m d.name := fun hs => hrc1 (hIff1.mpr hs)
            have hnsolv : ¬ Solv compat m key := by
              intro hsolv
              obtain ⟨pk2, hk2, hall⟩ := (solv_unfold compat m key).mp hsolv
              rw [hk] at hk2
              obtain rfl := Option.some.inj hk2
              obtain ⟨q2, hq2, _, hs2⟩ := hall d hdmem
              exact hnd hs2
            refine ⟨hSound1,
              ⟨fun hcq => absurd hcq hrc1, fun hs => absurd hs hnsolv⟩, ?_⟩
            constructor
            · intro hf
              have hex : ∃ pk2, lookupKey m1 key = some pk2 ∧
                  pk2.dependenciesExists = TriBool.TTrue := by
                rw [flagOf] at hf
                cases hx : lookupKey m1 key with
                | none => rw [hx] at hf; simp at hf
                | some pk2 =>
                  rw [hx] at hf
                  simp at hf
                  exact ⟨pk2, rfl, hf⟩
              obtain ⟨pk2, hk2, hff⟩ := hex
              have hsv := (hSound1 key pk2 hk2).1 hff
              exact absurd ((solv_congr compat hInfo1 key).mpr hsv) hnsolv
            · intro hs
              exact absurd hs hnsolv
      · rw [if_neg hc] at h
        obtain ⟨rfl, rfl, rfl⟩ := tripleEq (Option.some.inj h)
        have hnsolv : ¬ Solv compat m key := by
          intro hsolv
          obtain ⟨pk2, hk2, hall⟩ := (solv_unfold compat m key).mp hsolv
          rw [hk] at hk2
          obtain rfl := Option.some.inj hk2
          obtain ⟨q2, hq2, hc2, _⟩ := hall d hdmem
          rw [hq] at hq2
          obtain rfl := Option.some.inj hq2
          exact hc hc2
        refine ⟨sound_setFlag_tfalse hsound hnsolv, ?_, ?_⟩
        · exact ⟨fun hcq => absurd hcq (by decide), fun hs => absurd hs hnsolv⟩
        · constructor
          · intro hf
            rw [flagOf_setFlag_self TriBool.TFalse hk] at hf
            simp at hf
          · intro hs
            exact absurd hs hnsolv

/-- The dependency checker on a sound registry: soundness is preserved and
the result agrees with the solvability analysis. -/
theorem checkDependencies_char (compat : String → String → Bool) :
    ∀ fuel m k rc m' ev, Sound compat m →
      checkDependencies compat fuel m k = some (rc, m', ev) →
      Sound compat m' ∧ (rc = RetCode.SUCCESS ↔ Solv compat m k) ∧
      (flagOf m' k = some TriBool.TTrue ↔ Solv compat m k) := by
  intro fuel
  induction fuel with
  | zero => intro m k rc m' ev _ h; exact absurd h (by simp [checkDependencies])
  | succ n ih =>
    intro m k rc m' ev hsound h
    simp only [checkDependencies] at h
    cases hp : lookupKey m k with
    | none => simp [hp] at h
    | some p =>
      simp only [hp] at h
      by_cases hflag : p.dependenciesExists = TriBool.Indeterminate
      · rw [if_pos hflag] at h
        exact checkDepsLoop_char compat (checkDependencies compat n) k p.path
          (fun m k rc m' ev hh => checkDependencies_pres compat n m k rc m' ev hh)
          (fun m k rc m' ev hs hh => ih m k rc m' ev hs hh)
          p.info.dependencies m rc m' ev p [] hsound hp (by simp) (by simp) h
      · rw [if_neg hflag] at h
        obtain ⟨rfl, rfl, rfl⟩ := tripleEq (Option.some.inj h)
        obtain ⟨h1, h2⟩ := hsound k p hp
        cases hfc : p.dependenciesExists with
        | Indeterminate => exact absurd hfc hflag
        | TTrue =>
          have hsolv := h1 hfc
          refine ⟨hsound, ?_, ?_⟩
          · have hmr : memoResult m p = RetCode.SUCCESS := by
              rw [memoResult, hfc]
              simp
            rw [hmr]
            exact ⟨fun _ => hsolv, fun _ => rfl⟩
          · constructor
            · intro _
              exact hsolv
            · intro _
              rw [flagOf, hp]
              simp [hfc]
        | TFalse =>
          have hnsolv := h2 hfc
          refine ⟨hsound, ?_, ?_⟩
          · constructor
            · intro hrc
              rw [memoResult, hfc] at hrc
              by_cases hcnt : countKey m p.info.name = 0
              · rw [if_neg (by decide), if_pos hcnt] at hrc
                exact absurd hrc (by decide)
              · rw [if_neg (by decide), if_neg hcnt] at hrc
                exact absurd hrc (by decide)
            · intro hs
              exact absurd hs hnsolv
          · constructor
            · intro hx
              rw [flagOf, hp] at hx
              simp [hfc] at hx
            · intro hs
              exact absurd hs hnsolv

theorem flag_ttrue_solv {compat : String → String → Bool} {m : Reg}
    {k : String} (hs : Sound compat m)
    (hf : flagOf m k = some TriBool.TTrue) : Solv compat m k := by
  rw [flagOf] at hf
  cases hx : lookupKey m k with
  | none => rw [hx] at hf; simp at hf
  | some p =>
    rw [hx] at hf
    simp at hf
    exact (hs k p hx).1 hf

/-- The first step of the load pass on a sound registry: the final memo
flags agree with the solvability analysis, the appended node names are
exactly the solvable keys in iteration order, and graph ids point at the
nodes (or are -1 for records not flagged yes). -/
theorem loadPhase1_sound (compat : String → String → Bool) (fuel : Nat) :
    ∀ ks m nodes evs m' nodes' evs',
      loadPhase1 compat fuel true ks m nodes evs = some (Sum.inl (m', nodes', evs')) →
      Sound compat m →
      ks.Nodup →
      Sound compat m' ∧ InfoEq m m' ∧
      (∀ k, flagOf m k = some TriBool.TTrue → flagOf m' k = some TriBool.TTrue) ∧
      (∀ k ∈ ks, (flagOf m' k = some TriBool.TTrue ↔ Solv compat m k)) ∧
      (nodes'.map Node.name = nodes.map Node.name ++
        ks.filter (fun k => decide (flagOf m' k = some TriBool.TTrue))) ∧
      (∀ k, k ∉ ks → gidOf m' k = gidOf m k) ∧
      (∀ k ∈ ks, flagOf m' k ≠ some TriBool.TTrue → gidOf m' k = some (-1)) ∧
      (∀ k ∈ ks, flagOf m' k = some TriBool.TTrue →
        ∃ i, nodes'.get? i = some ⟨k, []⟩ ∧ gidOf m' k = some (Int.ofNat i)) ∧
      (∃ tailN, nodes' = nodes ++ tailN) := by
  intro ks
  induction ks with
  | nil =>
    intro m nodes evs m' nodes' evs' h hsound _
    simp only [loadPhase1, Option.some.injEq, Sum.inl.injEq] at h
    obtain ⟨rfl, rfl, rfl⟩ := (by
      simp only [Prod.mk.injEq] at h
      exact h : m = m' ∧ nodes = nodes' ∧ evs = evs')
    exact ⟨hsound, infoEq_refl m, fun _ hf => hf, by simp, by simp,
      fun _ _ => rfl, by simp, by simp, ⟨[], by simp⟩⟩
  | cons k0 ks' ih =>
    intro m nodes evs m' nodes' evs' h hsound hnd
    have hk0ks : k0 ∉ ks' := (List.nodup_cons.mp hnd).1
    have hnd' : ks'.Nodup := (List.nodup_cons.mp hnd).2
    simp only [loadPhase1] at h
    cases hchk : checkDependencies compat fuel (setGraphId m k0 (-1)) k0 with
    | none => simp [hchk] at h
    | some out =>
      obtain ⟨rc1, m1, ev1⟩ := out
      simp only [hchk] at h
      rw [if_neg (by simp)] at h
      cases hlk : lookupKey m1 k0 with
      | none => simp [hlk] at h
      | some p =>
        simp only [hlk] at h
        have hsound_g : Sound compat (setGraphId m k0 (-1)) :=
          sound_transfer hsound (infoEq_setGraphId m k0 (-1))
            (fun x => flagOf_setGraphId_eq m k0 x (-1))
        obtain ⟨hSound1, hIff1, hFlag1⟩ :=
          checkDependencies_char compat fuel _ k0 rc1 m1 ev1 hsound_g hchk
        have hPres1 : ChkPres (setGraphId m k0 (-1)) m1 :=
          checkDependencies_pres compat fuel _ k0 rc1 m1 ev1 hchk
        have hInfoEq1 : InfoEq m m1 :=
          infoEq_trans (infoEq_setGraphId m k0 (-1)) (chkPres_infoEq hPres1)
        have hSolvG : Solv compat (setGraphId m k0 (-1)) k0 ↔ Solv compat m k0 :=
          (solv_congr compat (infoEq_setGraphId m k0 (-1)) k0).symm
        have hflag_m1 : flagOf m1 k0 = some p.dependenciesExists := by
          simp [flagOf, hlk]
        have hsticky1 : ∀ x, flagOf m x = some TriBool.TTrue →
            flagOf m1 x = some TriBool.TTrue := by
          intro x hx
          exact hPres1.2.2 x (by rw [flagOf_setGraphId_eq]; exact hx)
        have hk0mem1 : k0 ∈ regKeys m1 :=
          (lookupKey_isSome_iff _ _).mp (by rw [hlk]; rfl)
        have hk0mem : k0 ∈ regKeys m := by
          have h2 := hPres1.1
          rw [regKeys_setGraphId] at h2
          rw [← h2]
          exact hk0mem1
        by_cases hf : p.dependenciesExists = TriBool.TTrue
        · rw [if_pos hf] at h
          have hflagT : flagOf m1 k0 = some TriBool.TTrue := by
            rw [hflag_m1, hf]
          have hSolvk0 : Solv compat m k0 := hSolvG.mp (hFlag1.mp hflagT)
          have hSoundS : Sound compat (setGraphId m1 k0 (Int.ofNat nodes.length)) :=
            sound_transfer hSound1 (infoEq_setGraphId m1 k0 _)
              (fun x => flagOf_setGraphId_eq m1 k0 x _)
          obtain ⟨ihS, ihI, ihSt, ihIff, ihN, ihG, ihG1, ihG2, tailN, ihT⟩ :=
            ih _ _ _ m' nodes' evs' h hSoundS hnd'
          have hInfoEqS : InfoEq m (setGraphId m1 k0 (Int.ofNat nodes.length)) :=
            infoEq_trans hInfoEq1 (infoEq_setGraphId m1 k0 _)
          have hInfoEq : InfoEq m m' := infoEq_trans hInfoEqS ihI
          have hstickyS : ∀ x, flagOf m x = some TriBool.TTrue →
              flagOf m' x = some TriBool.TTrue := by
            intro x hx
            exact ihSt x (by rw [flagOf_setGraphId_eq]; exact hsticky1 x hx)
          have hflagFinal : flagOf m' k0 = some TriBool.TTrue := by
            apply ihSt
            rw [flagOf_setGraphId_eq]
            exact hflagT
          refine ⟨ihS, hInfoEq, hstickyS, ?_, ?_, ?_, ?_, ?_, ?_⟩
          · intro k hk
            rcases List.mem_cons.mp hk with rfl | hk
            · exact iff_of_true hflagFinal hSolvk0
            · rw [ihIff k hk]
              exact (solv_congr compat hInfoEqS k).symm
          · rw [ihN, List.filter_cons_of_pos (by simpa using hflagFinal)]
            simp
          · intro k hk
            have hkne : k ≠ k0 := fun he => hk (by rw [he]; simp)
            have hkks : k ∉ ks' := fun he => hk (by simp [he])
            rw [ihG k hkks, gidOf_setGraphId_ne m1 _ hkne, hPres1.gid k,
              gidOf_setGraphId_ne m _ hkne]
          · intro k hk hkf
            rcases List.mem_cons.mp hk with rfl | hk
            · exact absurd hflagFinal hkf
            · exact ihG1 k hk hkf
          · intro k hk hkf
            rcases List.mem_cons.mp hk with rfl | hk
            · refine ⟨nodes.length, ?_, ?_⟩
              · rw [ihT, List.get?_append (by simp),
                  List.get?_append_right (le_refl nodes.length)]
                simp
              · rw [ihG _ hk0ks, gidOf_setGraphId_self _ hk0mem1]
            · exact ihG2 k hk hkf
          · exact ⟨⟨k0, []⟩ :: tailN, by rw [ihT]; simp⟩
        · rw [if_neg hf] at h
          have hflagNT : flagOf m1 k0 ≠ some TriBool.TTrue := by
            rw [hflag_m1]
            intro hx
            exact hf (by simpa using hx)
          have hnsolv : ¬ Solv compat m k0 :=
            fun hs => hflagNT (hFlag1.mpr (hSolvG.mpr hs))
          obtain ⟨ihS, ihI, ihSt, ihIff, ihN, ihG, ihG1, ihG2, tailN, ihT⟩ :=
            ih m1 nodes _ m' nodes' evs' h hSound1 hnd'
          have hInfoEq : InfoEq m m' := infoEq_trans hInfoEq1 ihI
          have hstickyS : ∀ x, flagOf m x = some TriBool.TTrue →
              flagOf m' x = some TriBool.TTrue :=
            fun x hx => ihSt x (hsticky1 x hx)
          have hflagFinalN : flagOf m' k0 ≠ some TriBool.TTrue := by
            intro hx
            exact hnsolv ((solv_congr compat hInfoEq k0).mpr (flag_ttrue_solv ihS hx))
          refine ⟨ihS, hInfoEq, hstickyS, ?_, ?_, ?_, ?_, ?_, ?_⟩
          · intro k hk
            rcases List.mem_cons.mp hk with rfl | hk
            · exact iff_of_false hflagFinalN hnsolv
            · rw [ihIff k hk]
              exact (solv_congr compat hInfoEq1 k).symm
          · rw [ihN, List.filter_cons_of_neg (by simpa using hflagFinalN)]
          · intro k hk
            have hkne : k ≠ k0 := fun he => hk (by rw [he]; simp)
            have hkks : k ∉ ks' := fun he => hk (by simp [he])
            rw [ihG k hkks, hPres1.gid k, gidOf_setGraphId_ne m _ hkne]
          · intro k hk hkf
            rcases List.mem_cons.mp hk with rfl | hk
            · rw [ihG _ hk0ks, hPres1.gid _, gidOf_setGraphId_self _ hk0mem]
            · exact ihG1 k hk hkf
          · intro k hk hkf
            rcases List.mem_cons.mp hk with rfl | hk
            · exact absurd hkf hflagFinalN
            · exact ihG2 k hk hkf
          · exact ⟨tailN, ihT⟩
theorem instOf_setInstance_self {m : Reg} {n : String} {p : Plugin}
    (hp : lookupKey m n = some p) (b : Bool) :
    instOf (setInstance m n b) n = some b := by
  simp [instOf, lookupKey_setInstance, hp]

theorem instOf_setInstance_ne (m : Reg) {n k : String} (b : Bool) (h : k ≠ n) :
    instOf (setInstance m n b) k = instOf m k := by
  simp only [instOf, lookupKey_setInstance]
  cases lookupKey m k with
  | none => simp
  | some p => simp [h]

theorem depGraphIds_cons_none {m : Reg} {d : Dependency} {ds : List Dependency}
    (h : lookupKey m d.name = none) : depGraphIds m (d :: ds) = none := by
  simp [depGraphIds, h]

theorem depGraphIds_cons_some {m : Reg} {d : Dependency} {ds : List Dependency}
    {q : Plugin} (h : lookupKey m d.name = some q) :
    depGraphIds m (d :: ds) =
      (depGraphIds m ds).map (fun l => q.graphId :: l) := by
  simp [depGraphIds, h]

theorem depGraphIds_congr {mA mB : Reg}
    (h : ∀ k, gidOf mA k = gidOf mB k) :
    ∀ ds, depGraphIds mA ds = depGraphIds mB ds := by
  intro ds
  induction ds with
  | nil => rfl
  | cons d rest ih =>
    have hd := h d.name
    cases hx : lookupKey mA d.name with
    | none =>
      rw [gidOf, hx] at hd
      cases hy : lookupKey mB d.name with
      | none => rw [depGraphIds_cons_none hx, depGraphIds_cons_none hy]
      | some qB => rw [gidOf, hy] at hd; simp at hd
    | some qA =>
      rw [gidOf, hx] at hd
      cases hy : lookupKey mB d.name with
      | none => rw [gidOf, hy] at hd; simp at hd
      | some qB =>
        rw [gidOf, hy] at hd
        simp at hd
        rw [depGraphIds_cons_some hx, depGraphIds_cons_some hy, hd, ih]

theorem loadPhase2_cons_none {m : Reg} {k : String} {ks : List String}
    {nodes : List Node} (h : lookupKey m k = none) :
    loadPhase2 m (k :: ks) nodes = none := by
  simp [loadPhase2, h]

theorem loadPhase2_cons_skip {m : Reg} {k : String} {ks : List String}
    {nodes : List Node} {p : Plugin} (h : lookupKey m k = some p)
    (hg : p.graphId = -1) :
    loadPhase2 m (k :: ks) nodes = loadPhase2 m ks nodes := by
  simp [loadPhase2, h, hg]

theorem loadPhase2_cons_nodg {m : Reg} {k : String} {ks : List String}
    {nodes : List Node} {p : Plugin} (h : lookupKey m k = some p)
    (hg : ¬ p.graphId = -1) (hdg : depGraphIds m p.info.dependencies = none) :
    loadPhase2 m (k :: ks) nodes = none := by
  simp [loadPhase2, h, hg, hdg]

theorem loadPhase2_cons_nond {m : Reg} {k : String} {ks : List String}
    {nodes : List Node} {p : Plugin} {ps : List Int}
    (h : lookupKey m k = some p) (hg : ¬ p.graphId = -1)
    (hdg : depGraphIds m p.info.dependencies = some ps)
    (hnd : nodes.get? p.graphId.toNat = none) :
    loadPhase2 m (k :: ks) nodes = none := by
  have hnd2 : nodes[p.graphId.toNat]? = none := by
    rw [← List.get?_eq_getElem?]
    exact hnd
  simp [loadPhase2, h, hg, hdg, hnd2]

theorem loadPhase2_cons_proc {m : Reg} {k : String} {ks : List String}
    {nodes : List Node} {p : Plugin} {ps : List Int} {nd : Node}
    (h : lookupKey m k = some p) (hg : ¬ p.graphId = -1)
    (hdg : depGraphIds m p.info.dependencies = some ps)
    (hnd : nodes.get? p.graphId.toNat = some nd) :
    loadPhase2 m (k :: ks) nodes =
      loadPhase2 m ks (nodes.set p.graphId.toNat ⟨nd.name, nd.parentNodes ++ ps⟩) := by
  have hnd2 : nodes[p.graphId.toNat]? = some nd := by
    rw [← List.get?_eq_getElem?]
    exact hnd
  simp [loadPhase2, h, hg, hdg, hnd2]

/-- The second step of the load pass depends on the registry only through
presence, graph ids and declared dependency lists. -/
theorem loadPhase2_congr {mA mB : Reg}
    (h : ∀ k, (lookupKey mA k).map (fun p => (p.graphId, p.info.dependencies)) =
      (lookupKey mB k).map (fun p => (p.graphId, p.info.dependencies))) :
    ∀ ks nodes, loadPhase2 mA ks nodes = loadPhase2 mB ks nodes := by
  have hgid : ∀ k, gidOf mA k = gidOf mB k := by
    intro k
    have hk := h k
    simp only [gidOf]
    cases hx : lookupKey mA k with
    | none =>
      cases hy : lookupKey mB k with
      | none => rfl
      | some pB => rw [hx, hy] at hk; simp at hk
    | some pA =>
      cases hy : lookupKey mB k with
      | none => rw [hx, hy] at hk; simp at hk
      | some pB =>
        rw [hx, hy] at hk
        simp at hk
        simp [hk.1]
  intro ks
  induction ks with
  | nil => intro nodes; rfl
  | cons k rest ih =>
    intro nodes
    have hk := h k
    cases hx : lookupKey mA k with
    | none =>
      cases hy : lookupKey mB k with
      | none => rw [loadPhase2_cons_none hx, loadPhase2_cons_none hy]
      | some pB => rw [hx, hy] at hk; simp at hk
    | some pA =>
      cases hy : lookupKey mB k with
      | none => rw [hx, hy] at hk; simp at hk
      | some pB =>
        rw [hx, hy] at hk
        simp at hk
        obtain ⟨hgeq, hdeq⟩ := hk
        by_cases hg : pA.graphId = -1
        · rw [loadPhase2_cons_skip hx hg, loadPhase2_cons_skip hy (by rw [← hgeq]; exact hg),
            ih nodes]
        · have hgB : ¬ pB.graphId = -1 := by rw [← hgeq]; exact hg
          have hdgEq : depGraphIds mB pB.info.dependencies =
              depGraphIds mA pA.info.dependencies := by
            rw [← hdeq, depGraphIds_congr hgid pA.info.dependencies]
          cases hdg : depGraphIds mA pA.info.dependencies with
          | none =>
            rw [loadPhase2_cons_nodg hx hg hdg,
              loadPhase2_cons_nodg hy hgB (by rw [hdgEq]; exact hdg)]
          | some ps =>
            cases hnd : nodes.get? pA.graphId.toNat with
            | none =>
              rw [loadPhase2_cons_nond hx hg hdg hnd,
                loadPhase2_cons_nond hy hgB (by rw [hdgEq]; exact hdg)
                  (by rw [← hgeq]; exact hnd)]
            | some nd =>
              rw [loadPhase2_cons_proc hx hg hdg hnd,
                loadPhase2_cons_proc hy hgB (by rw [hdgEq]; exact hdg)
                  (by rw [← hgeq]; exact hnd), ← hgeq, ih]

/-- The fourth step of the load pass preserves keys, metadata, memo flags
and graph ids; a live instance stays live. -/
theorem loadPhase4_pres (m : Reg) :
    ∀ l m2 ev, loadPhase4 m l = some (m2, ev) →
      regKeys m2 = regKeys m ∧ InfoEq m m2 ∧
      (∀ k, flagOf m2 k = flagOf m k) ∧
      (∀ k, gidOf m2 k = gidOf m k) ∧
      (∀ k, instOf m k = some true → instOf m2 k = some true) := by
  intro l
  induction l generalizing m with
  | nil =>
    intro m2 ev h
    simp only [loadPhase4, Option.some.injEq, Prod.mk.injEq] at h
    obtain ⟨rfl, rfl⟩ := h
    exact ⟨rfl, infoEq_refl m, fun _ => rfl, fun _ => rfl, fun _ hk => hk⟩
  | cons n rest ih =>
    intro m2 ev h
    simp only [loadPhase4] at h
    cases hlk : lookupKey m n with
    | none => simp [hlk] at h
    | some p =>
      simp only [hlk] at h
      by_cases hi : p.hasInstance = true
      · rw [if_pos hi] at h
        exact ih m m2 ev h
      · rw [if_neg hi] at h
        cases hrec : loadPhase4 (setInstance m n true) rest with
        | none => simp [hrec] at h
        | some out =>
          obtain ⟨m2x, evx⟩ := out
          rw [hrec] at h
          simp only [Option.some.injEq, Prod.mk.injEq] at h
          obtain ⟨rfl, rfl⟩ := h
          obtain ⟨k1, k2, k3, k4, k5⟩ := ih (setInstance m n true) m2x evx hrec
          refine ⟨by rw [k1, regKeys_setInstance], ?_, ?_, ?_, ?_⟩
          · exact infoEq_trans (infoEq_setInstance m n true) k2
          · intro k
            rw [k3, flagOf_setInstance_eq]
          · intro k
            rw [k4, gidOf_setInstance_eq]
          · intro k hk
            apply k5
            by_cases hkn : k = n
            · subst hkn
              exact instOf_setInstance_self hlk true
            · rw [instOf_setInstance_ne m true hkn]
              exact hk

/-- After the fourth step every walked name has a live instance. -/
theorem loadPhase4_all_inst (m : Reg) :
    ∀ l m2 ev, loadPhase4 m l = some (m2, ev) →
      ∀ n ∈ l, instOf m2 n = some true := by
  intro l
  induction l generalizing m with
  | nil => intro m2 ev _ n hn; simp at hn
  | cons n0 rest ih =>
    intro m2 ev h n hn
    simp only [loadPhase4] at h
    cases hlk : lookupKey m n0 with
    | none => simp [hlk] at h
    | some p =>
      simp only [hlk] at h
      by_cases hi : p.hasInstance = true
      · rw [if_pos hi] at h
        rcases List.mem_cons.mp hn with rfl | hn
        · exact (loadPhase4_pres m rest m2 ev h).2.2.2.2 n (by simp [instOf, hlk, hi])
        · exact ih m m2 ev h n hn
      · rw [if_neg hi] at h
        cases hrec : loadPhase4 (setInstance m n0 true) rest with
        | none => simp [hrec] at h
        | some out =>
          obtain ⟨m2x, evx⟩ := out
          rw [hrec] at h
          simp only [Option.some.injEq, Prod.mk.injEq] at h
          obtain ⟨rfl, rfl⟩ := h
          rcases List.mem_cons.mp hn with rfl | hn
          · exact (loadPhase4_pres _ rest m2x evx hrec).2.2.2.2 n
              (instOf_setInstance_self hlk true)
          · exact ih _ m2x evx hrec n hn

/-- The fourth step is a no-op when every walked record already has a live
instance: no factory is invoked and no `loaded()` notification fires. -/
theorem loadPhase4_noop (m : Reg) :
    ∀ l, (∀ n ∈ l, instOf m n = some true) →
      loadPhase4 m l = some (m, []) := by
  intro l
  induction l with
  | nil => intro _; rfl
  | cons n rest ih =>
    intro h
    have hn := h n (by simp)
    rw [instOf] at hn
    cases hlk : lookupKey m n with
    | none => rw [hlk] at hn; simp at hn
    | some p =>
      rw [hlk] at hn
      simp at hn
      simp only [loadPhase4, hlk, hn, if_true]
      exact ih (fun x hx => h x (by simp [hx]))

theorem nodes_eq_of_names : ∀ (lA lB : List Node),
    (∀ nd ∈ lA, nd.parentNodes = []) → (∀ nd ∈ lB, nd.parentNodes = []) →
    lA.map Node.name = lB.map Node.name → lA = lB := by
  intro lA
  induction lA with
  | nil =>
    intro lB _ _ h
    cases lB with
    | nil => rfl
    | cons b bs => simp at h
  | cons a as ih =>
    intro lB hA hB h
    cases lB with
    | nil => simp at h
    | cons b bs =>
      simp only [List.map_cons, List.cons.injEq] at h
      obtain ⟨na, pa⟩ := a
      obtain ⟨nb, pb⟩ := b
      have ha2 : pa = [] := hA ⟨na, pa⟩ (by simp)
      have hb2 : pb = [] := hB ⟨nb, pb⟩ (by simp)
      have hn : na = nb := h.1
      rw [hn, ha2, hb2,
        ih bs (fun nd hnd => hA nd (by simp [hnd]))
          (fun nd hnd => hB nd (by simp [hnd])) h.2]

/-- **C7**  A second call to `loadPlugins` with no intervening change to
the registry (starting from a sound flag state) succeeds, produces the
same load-order list as the first call, and delivers zero additional
`loaded()` notifications: no factory runs for a record that already has a
live instance. -/
theorem claim7_second_load_idempotent
    (compat : String → String → Bool) (fuel1 fuel2 : Nat) (st st1 st2 : PMState)
    (ev1 ev2 : List Event) (rc2 : RetCode)
    (hnd : (regKeys st.pluginsMap).Nodup)
    (hsound : Sound compat st.pluginsMap)
    (hrun1 : loadPlugins compat fuel1 true st = some (RetCode.SUCCESS, st1, ev1))
    (hrun2 : loadPlugins compat fuel2 true st1 = some (rc2, st2, ev2)) :
    rc2 = RetCode.SUCCESS ∧ st2.loadOrderList = st1.loadOrderList ∧
    (∀ n, Event.loaded n ∉ ev2) := by
  -- unfold the first run
  simp only [loadPlugins] at hrun1
  cases hp1 : loadPhase1 compat fuel1 true (st.pluginsMap.map Prod.fst)
      st.pluginsMap [] [] with
  | none => simp [hp1] at hrun1
  | some r =>
    obtain ⟨x, rfl⟩ := loadPhase1_true_not_inr compat fuel1 _ _ _ _ r hp1
    obtain ⟨mA, nodesA, evsA⟩ := x
    simp only [hp1] at hrun1
    cases hp2 : loadPhase2 mA (mA.map Prod.fst) nodesA with
    | none => simp [hp2] at hrun1
    | some nodes2 =>
      simp only [hp2] at hrun1
      cases hsort : topologicalSort nodes2 with
      | mk order err =>
        simp only [hsort] at hrun1
        cases err with
        | true => simp at hrun1
        | false =>
          simp only [Bool.false_eq_true, if_false] at hrun1
          cases hp4 : loadPhase4 mA order with
          | none => simp [hp4] at hrun1
          | some out =>
            obtain ⟨m2, evL⟩ := out
            simp only [hp4, Option.some.injEq, Prod.mk.injEq, true_and] at hrun1
            obtain ⟨hst1, hev1⟩ := hrun1
            -- first-pass characterisations
            obtain ⟨K1, F1, Fld1, Gp1, ⟨tail1, hTl1, hPar1⟩, Nd1, El1, Bk1,
                ⟨tev1, hev1e, hcb1⟩⟩ :=
              loadPhase1_inl compat fuel1 _ st.pluginsMap [] [] mA nodesA evsA hp1
                hnd hnd (fun k hk => hk) (by simp) (by simp)
            obtain ⟨S1, I1, St1, Iff1, N1, G1, G1n, G1y, tA, T1⟩ :=
              loadPhase1_sound compat fuel1 _ st.pluginsMap [] [] mA nodesA evsA
                hp1 hsound hnd
            obtain ⟨PK4, PI4, PF4, PG4, PS4⟩ := loadPhase4_pres mA order m2 evL hp4
            have inst4 := loadPhase4_all_inst mA order m2 evL hp4
            -- the registry after the first call
            have hm2 : st1.pluginsMap = m2 := by rw [← hst1]
            have hOrd1 : st1.loadOrderList = order := by rw [← hst1]
            -- soundness and keys of the second-run input
            have hS2 : Sound compat m2 := sound_transfer S1 PI4 PF4
            have hK2 : regKeys m2 = regKeys st.pluginsMap := by rw [PK4, K1]
            have hI2 : InfoEq st.pluginsMap m2 := infoEq_trans I1 PI4
            -- unfold the second run
            simp only [loadPlugins] at hrun2
            rw [hm2] at hrun2
            cases hq1 : loadPhase1 compat fuel2 true (m2.map Prod.fst)
                m2 [] [] with
            | none => simp [hq1] at hrun2
            | some r2 =>
              obtain ⟨x2, rfl⟩ := loadPhase1_true_not_inr compat fuel2 _ _ _ _ r2 hq1
              obtain ⟨mB, nodesB, evsB⟩ := x2
              simp only [hq1] at hrun2
              have hndB : ((m2.map Prod.fst : List String)).Nodup := by
                show (regKeys m2).Nodup
                rw [hK2]
                exact hnd
              obtain ⟨K2, F2, Fld2, Gp2, ⟨tail2, hTl2, hPar2⟩, Nd2, El2, Bk2,
                  ⟨tev2, hev2e, hcb2⟩⟩ :=
                loadPhase1_inl compat fuel2 _ m2 [] [] mB nodesB evsB hq1
                  (by show (regKeys m2).Nodup; rw [hK2]; exact hnd) hndB
                  (fun k hk => hk) (by simp) (by simp)
              obtain ⟨S2, I2, St2, Iff2, N2, G2, G2n, G2y, tB, T2⟩ :=
                loadPhase1_sound compat fuel2 _ m2 [] [] mB nodesB evsB
                  hq1 hS2 hndB
              -- the two key lists coincide
              have hksEq : (m2.map Prod.fst : List String) =
                  (st.pluginsMap.map Prod.fst : List String) := hK2
              -- eligibility coincides key by key
              have hflagIff : ∀ k ∈ regKeys st.pluginsMap,
                  (flagOf mB k = some TriBool.TTrue ↔
                   flagOf mA k = some TriBool.TTrue) := by
                intro k hk
                have h1 := Iff1 k hk
                have h2 := Iff2 k (by show k ∈ regKeys m2; rw [hK2]; exact hk)
                rw [h1, h2]
                exact (solv_congr compat hI2 k).symm
              -- same node lists
              have hNamesEq : nodesB.map Node.name = nodesA.map Node.name := by
                rw [N1, N2, hksEq]
                simp only [List.map_nil, List.nil_append]
                apply List.filter_congr
                intro k hk
                rw [decide_eq_decide]
                exact hflagIff k hk
              have hNodesEq : nodesB = nodesA := by
                apply nodes_eq_of_names
                · intro nd hnd2
                  rw [hTl2] at hnd2
                  exact (hPar2 nd (by simpa using hnd2)).1
                · intro nd hnd2
                  rw [hTl1] at hnd2
                  exact (hPar1 nd (by simpa using hnd2)).1
                · exact hNamesEq
              -- graph ids and dependency lists coincide
              have hInfoAB : InfoEq mA mB := by
                refine infoEq_trans PI4 I2
              have hGidEq : ∀ k, gidOf mB k = gidOf mA k := by
                intro k
                by_cases hk : k ∈ regKeys st.pluginsMap
                · by_cases hfl : flagOf mA k = some TriBool.TTrue
                  · obtain ⟨i, hni, hgi⟩ := G1y k hk hfl
                    obtain ⟨j, hnj, hgj⟩ := G2y k
                      (by show k ∈ regKeys m2; rw [hK2]; exact hk)
                      ((hflagIff k hk).mpr hfl)
                    rw [hNodesEq] at hnj
                    have hij : j = i := by
                      have hmi : (nodesA.map Node.name).get? i = some k := by
                        rw [List.get?_map, hni]
                        rfl
                      have hmj : (nodesA.map Node.name).get? j = some k := by
                        rw [List.get?_map, hnj]
                        rfl
                      apply List.getElem?_inj
                        (by
                          have := (List.get?_eq_some.mp hmj).1
                          simpa using this)
                        Nd1
                      rw [← List.get?_eq_getElem?, ← List.get?_eq_getElem?, hmi, hmj]
                    rw [hgi, hgj, hij]
                  · rw [G1n k hk hfl, G2n k
                      (by show k ∈ regKeys m2; rw [hK2]; exact hk)
                      (fun hc => hfl ((hflagIff k hk).mp hc))]
                · have hA0 : lookupKey mA k = none := by
                    rw [lookupKey_eq_none_iff, K1]
                    exact hk
                  have hB0 : lookupKey mB k = none := by
                    rw [lookupKey_eq_none_iff, K2, hK2]
                    exact hk
                  rw [gidOf, gidOf, hA0, hB0]
              have hPairEq : ∀ k,
                  (lookupKey mA k).map (fun p => (p.graphId, p.info.dependencies)) =
                  (lookupKey mB k).map (fun p => (p.graphId, p.info.dependencies)) := by
                intro k
                have hg := hGidEq k
                have hi := hInfoAB k
                cases hx : lookupKey mA k with
                | none =>
                  cases hy : lookupKey mB k with
                  | none => rfl
                  | some pB2 => rw [hx, hy] at hi; simp at hi
                | some pA2 =>
                  cases hy : lookupKey mB k with
                  | none => rw [hx, hy] at hi; simp at hi
                  | some pB2 =>
                    rw [hx, hy] at hi
                    rw [gidOf, gidOf, hx, hy] at hg
                    simp at hi hg
                    simp [hi, hg]
              -- the second pass builds the same graph
              have hq2 : loadPhase2 mB (mB.map Prod.fst) nodesB = some nodes2 := by
                have hksB : (mB.map Prod.fst : List String) =
                    (mA.map Prod.fst : List String) := by
                  show regKeys mB = regKeys mA
                  rw [K2, PK4]
                rw [hNodesEq, hksB, ← loadPhase2_congr hPairEq]
                exact hp2
              rw [hq2] at hrun2
              simp only [hsort] at hrun2
              simp only [Bool.false_eq_true, if_false] at hrun2
              -- every ordered record is already instantiated: fourth step no-op
              have hInstB : ∀ n ∈ order, instOf mB n = some true := by
                intro n hn
                have h2 := inst4 n hn
                rw [instOf] at h2
                cases hx : lookupKey m2 n with
                | none => rw [hx] at h2; simp at h2
                | some p =>
                  rw [hx] at h2
                  simp at h2
                  obtain ⟨p', hp', _, _, hinst, _⟩ := Fld2 n p hx
                  rw [instOf, hp']
                  simp [hinst, h2]
              rw [loadPhase4_noop mB order hInstB] at hrun2
              simp only [Option.some.injEq, Prod.mk.injEq] at hrun2
              obtain ⟨hrc2, hst2, hev2⟩ := hrun2
              refine ⟨hrc2.symm, ?_, ?_⟩
              · rw [← hst2, hOrd1]
              · intro n hn
                rw [← hev2] at hn
                simp only [List.append_nil] at hn
                rw [hev2e] at hn
                obtain ⟨c, d, he⟩ := hcb2 _ (by simpa using hn)
                simp at he

/-- Concrete comparator for the C7 witness: every version matches. -/
def w7compat : String → String → Bool := fun _ _ => true

/-- C7 record `A` (dependency on `B`, memo flag indeterminate). -/
def w7pA : Plugin :=
  ⟨true, true, false, "/p/A", ⟨"A", "", "1.0", "", "", "", "", [⟨"B", "1.0"⟩]⟩,
    TriBool.Indeterminate, -1⟩

/-- C7 record `B` (no dependencies, memo flag indeterminate). -/
def w7pB : Plugin :=
  ⟨true, true, false, "/p/B", ⟨"B", "", "1.0", "", "", "", "", []⟩,
    TriBool.Indeterminate, -1⟩

/-- C7 start state: fresh two-record registry. -/
def w7st : PMState := ⟨[("A", w7pA), ("B", w7pB)], [], []⟩

/-- C7 state after the first (and second) load pass. -/
def w7pAOut : Plugin :=
  ⟨true, true, true, "/p/A", ⟨"A", "", "1.0", "", "", "", "", [⟨"B", "1.0"⟩]⟩,
    TriBool.TTrue, 0⟩

/-- C7 record `B` after the pass. -/
def w7pBOut : Plugin :=
  ⟨true, true, true, "/p/B", ⟨"B", "", "1.0", "", "", "", "", []⟩,
    TriBool.TTrue, 1⟩

/-- C7 state after the first (and second) load pass. -/
def w7stOut : PMState :=
  ⟨[("A", w7pAOut), ("B", w7pBOut)], ["B", "A"], []⟩

/-- C7 event trace of the first pass. -/
def w7ev1 : List Event := [Event.loaded "B", Event.loaded "A"]

/-- C7 event trace of the second pass: empty. -/
def w7ev2 : List Event := []

/-- C7 witness: on the concrete two-record registry the second pass keeps
the load order and emits no `loaded()` notification. -/
theorem claim7_witness :
    RetCode.SUCCESS = RetCode.SUCCESS ∧
    w7stOut.loadOrderList = w7stOut.loadOrderList ∧
    (∀ n, Event.loaded n ∉ w7ev2) :=
  claim7_second_load_idempotent w7compat 2 2 w7st w7stOut w7stOut w7ev1 w7ev2
    RetCode.SUCCESS (by decide)
    (by
      intro k p hp
      have hflag : p.dependenciesExists = TriBool.Indeterminate := by
        simp only [w7st, lookupKey] at hp
        by_cases h1 : ("A" : String) = k
        · rw [if_pos h1] at hp
          obtain rfl := Option.some.inj hp
          rfl
        · rw [if_neg h1] at hp
          by_cases h2 : ("B" : String) = k
          · rw [if_pos h2] at hp
            obtain rfl := Option.some.inj hp
            rfl
          · rw [if_neg h2] at hp
            simp at hp
      constructor
      · intro hf
        rw [hflag] at hf
        exact absurd hf (by decide)
      · intro hf
        rw [hflag] at hf
        exact absurd hf (by decide))
    (by rfl) (by rfl)

end JustPlug
